import Mathlib

/-!
Verification of the GR(1) game-solving core of the marduk synthesis tool.

The state space of the game is the set of assignments to the (finitely many)
input and output variables; we model it as `I × O` for finite nonempty types
`I` (input-variable assignments) and `O` (output-variable assignments).  A BDD
over the present-state variables is a canonically represented Boolean
predicate on assignments, modelled as a `Finset (I × O)`; BDD equality is
functional equality, `*`/`+`/`~` are intersection, union and complement, and
`ONE`/`ZERO` are `univ`/`∅`.  Both `I` and `O` are nonempty because a set of
Boolean variables always has at least one assignment (so `BDD.ONE ≠ BDD.ZERO`
in the source).

Python `while` loops that iterate until two successive BDD values coincide are
modelled with an explicit fuel parameter: a loop returns `none` when the fuel
is exhausted and `some` of the stabilized value otherwise.  The memory counter
`jx` built by `_moduloInc` (one-hot or binary encoded in the source) is
modelled semantically as a natural number counter with the modulo-increment
transition `jx' = (jx+1) % n`; predicates over the `jx` variables become
`Nat → Bool` functions, and `swapVariables` between present and next `jx`
variables corresponds to applying such a predicate to the other component of a
relation tuple.

The RESTRICT operator `//` (`bdd_minimize`, Coudert et al.) only promises to
agree with its first argument on the care set; it is modelled as an abstract
parameter `mini` together with that agreement contract.
-/

namespace Marduk

section Defs

variable (I O : Type) [DecidableEq I] [DecidableEq O] [Fintype I] [Fintype O]

/-- The immutable game bundle read by `calcWinningRegion` from the
specification: transition relations of both players, initial conditions, and
the ordered lists of assumptions and guarantees.  `trans1 s i` holds when the
environment may answer next-input `i` from present state `s`; `trans2 s i o`
holds when the system may answer next-output `o` to that. -/
structure Game where
  trans1 : I × O → I → Bool
  trans2 : I × O → I → O → Bool
  assumptions : List (Finset (I × O))
  guarantees : List (Finset (I × O))
  init1 : Finset (I × O)
  init2 : Finset (I × O)

end Defs

variable {I O : Type} [DecidableEq I] [DecidableEq O] [Fintype I] [Fintype O]

/-- `coax` from `winning_region.py`: permute `states` to next-state variables,
existentially quantify next outputs out of `trans2 ∧ states'`, disjoin with
`¬ trans1`, universally quantify next inputs. -/
def coax (g : Game I O) (states : Finset (I × O)) : Finset (I × O) :=
  Finset.univ.filter fun s =>
    ∀ i : I, g.trans1 s i = true → ∃ o : O, g.trans2 s i o = true ∧ (i, o) ∈ states

/-- The combined transition relation `trans12 = trans1 * trans2`, as a relation
between a present state and a next state `(i', o')`. -/
def trans12 (g : Game I O) (s t : I × O) : Bool :=
  g.trans1 s t.1 && g.trans2 s t.1 t.2

/-- `init12 = init1 * init2` (built in `specification.py`). -/
def init12 (g : Game I O) : Finset (I × O) :=
  g.init1 ∩ g.init2

/-- A Python loop `while (x != old): old = x; x = F x`, with fuel.  The
source initializes `old` to a sentinel (`BDD.ZERO` or `BDD.ONE`) before
entering the loop. -/
def bddLoop {α : Type} [DecidableEq α] (F : α → α) : α → α → Nat → Option α
  | _, _, 0 => none
  | old, x, fuel + 1 => if x = old then some x else bddLoop F x (F x) fuel

/-- A `repeat body until x unchanged` loop (used by the §4.2 pseudocode of the
spec): run the body at least once, stop as soon as a body run returns its own
input. -/
def doWhile {α : Type} [DecidableEq α] (F : α → α) : α → Nat → Option α
  | _, 0 => none
  | x, fuel + 1 => if F x = x then some (F x) else doWhile F (F x) fuel

/-- Iteration of an `Option`-valued step until the value repeats (used for
round-level loops whose body may itself run out of fuel). -/
def iterO {α : Type} [DecidableEq α] (F : α → Option α) : α → Nat → Option α
  | _, 0 => none
  | x, fuel + 1 =>
    match F x with
    | none => none
    | some x' => if x' = x then some x' else iterO F x' fuel

/-- Body of the innermost fixpoint of `calcWinningRegion`:
`x = start + ((~assumptions[i]) * coax x)`. -/
def xStep (g : Game I O) (start a : Finset (I × O)) (x : Finset (I × O)) :
    Finset (I × O) :=
  start ∪ (aᶜ ∩ coax g x)

/-- The innermost `while (x != old_x)` loop: `old_x` starts at `ZERO` and `x`
starts at the current `z`. -/
def xLoop (g : Game I O) (start a z : Finset (I × O)) (fuel : Nat) :
    Option (Finset (I × O)) :=
  bddLoop (xStep g start a) ∅ z fuel

/-- The loop `for i in range(0,m)` of `calcWinningRegion`: one converged `x`
per assumption, recorded in order, with `y` accumulating their union.
`runX a` is the converged inner fixpoint for assumption `a`. -/
def assumptionFold (runX : Finset (I × O) → Option (Finset (I × O))) :
    List (Finset (I × O)) → List (Finset (I × O)) → Finset (I × O) →
    Option (List (Finset (I × O)) × Finset (I × O))
  | [], accX, y => some (accX, y)
  | a :: rest, accX, y =>
    match runX a with
    | none => none
    | some x => assumptionFold runX rest (accX ++ [x]) (y ∪ x)

/-- The seed `start = guarantee[j] * coax(z) + coax(y)` of one `y` iteration. -/
def seedOf (g : Game I O) (gj z y : Finset (I × O)) : Finset (I × O) :=
  (gj ∩ coax g z) ∪ coax g y

/-- One body execution of the `while (y != old_y)` loop: compute `start` from
the previous `y`, run the inner fixpoint for every assumption, and return the
recorded `x` row together with the new `y`. -/
def yStep (g : Game I O) (gj z y : Finset (I × O)) (fuel : Nat) :
    Option (List (Finset (I × O)) × Finset (I × O)) :=
  assumptionFold (fun a => xLoop g (seedOf g gj z y) a z fuel) g.assumptions [] ∅

/-- The `while (y != old_y)` loop, recording every `x` row in `xArray[j]` and
every `y` iterate in `yArray[j]`.  `old` starts at `ONE` and `y` at `ZERO`. -/
def yLoopGo (g : Game I O) (gj z : Finset (I × O)) (fuel : Nat) :
    Finset (I × O) → Finset (I × O) → List (List (Finset (I × O))) →
    List (Finset (I × O)) → Nat →
    Option (List (List (Finset (I × O))) × List (Finset (I × O)) × Finset (I × O))
  | _, _, _, _, 0 => none
  | old, y, axs, ays, f + 1 =>
    if y = old then some (axs, ays, y)
    else
      match yStep g gj z y fuel with
      | none => none
      | some (xs, y') => yLoopGo g gj z fuel y y' (axs ++ [xs]) (ays ++ [y']) f

/-- The least fixpoint on `y` for one guarantee, from `old_y = ONE`,
`y = ZERO`, with empty recording arrays. -/
def yLoop (g : Game I O) (gj z : Finset (I × O)) (fuel : Nat) :
    Option (List (List (Finset (I × O))) × List (Finset (I × O)) × Finset (I × O)) :=
  yLoopGo g gj z fuel Finset.univ ∅ [] [] fuel

/-- The converged `y` value only (the value assigned to `z` after guarantee
`gj` is processed). -/
def yRegion (g : Game I O) (gj z : Finset (I × O)) (fuel : Nat) :
    Option (Finset (I × O)) :=
  (yLoop g gj z fuel).map fun r => r.2.2

/-- The per-guarantee trace retained by `calcWinningRegion`: after the `y`
loop stabilizes the source pops the last recorded entry of both arrays
(`self.__yArray[j].pop(r-1)`, `self.__xArray[j].pop(r-1)`). -/
def processGuarantee (g : Game I O) (z gj : Finset (I × O)) (fuel : Nat) :
    Option ((List (List (Finset (I × O))) × List (Finset (I × O))) × Finset (I × O)) :=
  (yLoop g gj z fuel).map fun r => ((r.1.dropLast, r.2.1.dropLast), r.2.2)

/-- Per-guarantee trace entries: the `xArray[j]` rows and the `yArray[j]`
iterates. -/
abbrev GTrace (I O : Type) [DecidableEq I] [DecidableEq O] :=
  List (List (Finset (I × O))) × List (Finset (I × O))

/-- The whole trace, indexed by the guarantee index `j`. -/
abbrev Trace (I O : Type) [DecidableEq I] [DecidableEq O] := List (GTrace I O)

/-- The loop `for j in range(0,n)` of one outer round: process every guarantee
in order, assigning the converged `y` to `z` after each one and rebuilding its
trace slot. -/
def roundGo (g : Game I O) (fuel : Nat) :
    List (Finset (I × O)) → Finset (I × O) → Trace I O →
    Option (Trace I O × Finset (I × O))
  | [], z, acc => some (acc, z)
  | gj :: rest, z, acc =>
    match processGuarantee g z gj fuel with
    | none => none
    | some (tj, z') => roundGo g fuel rest z' (acc ++ [tj])

/-- One full round of the outer greatest fixpoint. -/
def roundStep (g : Game I O) (fuel : Nat) (z : Finset (I × O)) :
    Option (Trace I O × Finset (I × O)) :=
  roundGo g fuel g.guarantees z []

/-- The outer `while (z != old_z)` loop; every round overwrites the whole
trace, so the trace of the last executed round is returned. -/
def zLoopGo (g : Game I O) (fuel : Nat) :
    Finset (I × O) → Finset (I × O) → Trace I O → Nat →
    Option (Trace I O × Finset (I × O))
  | _, _, _, 0 => none
  | old, z, tr, f + 1 =>
    if z = old then some (tr, z)
    else
      match roundStep g fuel z with
      | none => none
      | some (tr', z') => zLoopGo g fuel z z' tr' f

/-- `calcWinningRegion` from `winning_region.py`: `old_z = ZERO`, `z = ONE`,
empty arrays, iterate rounds until `z` stabilizes.  Returns the retained
trace and the winning region. -/
def calcWinningRegion (g : Game I O) (fuel : Nat) :
    Option (Trace I O × Finset (I × O)) :=
  zLoopGo g fuel ∅ Finset.univ [] fuel

/-! ### The §4.2 pseudocode of the specification, embedded from its own words.

The pseudocode uses `repeat … until unchanged` loops (the body always runs at
least once), initializes the inner fixpoint with `X ← Z ; X_prev ← NONE`, and
records every iterate, including the final converged one — it performs no
`pop` of the last entry. -/

/-- `repeat X_prev ← X; X ← seed ∨ (¬assumption ∧ coax X) until X unchanged`,
started at `X ← Z`. -/
def specXLoop (g : Game I O) (start a z : Finset (I × O)) (fuel : Nat) :
    Option (Finset (I × O)) :=
  doWhile (xStep g start a) z fuel

/-- One body of the pseudocode `Y` loop: `seed`, then for every assumption the
inner greatest fixpoint, recording `X` and accumulating `Y`. -/
def specYStep (g : Game I O) (gj z y : Finset (I × O)) (fuel : Nat) :
    Option (List (Finset (I × O)) × Finset (I × O)) :=
  assumptionFold (fun a => specXLoop g (seedOf g gj z y) a z fuel) g.assumptions [] ∅

/-- The pseudocode `repeat until Y unchanged` loop from `Y ← NONE`, recording
`X[j][r][i]` and `Y[j][r]` for every iteration `r`. -/
def specYLoopGo (g : Game I O) (gj z : Finset (I × O)) (fuel : Nat) :
    Finset (I × O) → List (List (Finset (I × O))) → List (Finset (I × O)) → Nat →
    Option (List (List (Finset (I × O))) × List (Finset (I × O)) × Finset (I × O))
  | _, _, _, 0 => none
  | y, axs, ays, f + 1 =>
    match specYStep g gj z y fuel with
    | none => none
    | some (xs, y') =>
      if y' = y then some (axs ++ [xs], ays ++ [y'], y')
      else specYLoopGo g gj z fuel y' (axs ++ [xs]) (ays ++ [y']) f

/-- Pseudocode processing of one guarantee: full recorded arrays, no pop. -/
def specProcessGuarantee (g : Game I O) (z gj : Finset (I × O)) (fuel : Nat) :
    Option (GTrace I O × Finset (I × O)) :=
  (specYLoopGo g gj z fuel ∅ [] [] fuel).map fun r => ((r.1, r.2.1), r.2.2)

/-- Pseudocode round: `for j in 0..n`, `Z ← Y` after each guarantee. -/
def specRoundGo (g : Game I O) (fuel : Nat) :
    List (Finset (I × O)) → Finset (I × O) → Trace I O →
    Option (Trace I O × Finset (I × O))
  | [], z, acc => some (acc, z)
  | gj :: rest, z, acc =>
    match specProcessGuarantee g z gj fuel with
    | none => none
    | some (tj, z') => specRoundGo g fuel rest z' (acc ++ [tj])

/-- One pseudocode round over all guarantees. -/
def specRoundStep (g : Game I O) (fuel : Nat) (z : Finset (I × O)) :
    Option (Trace I O × Finset (I × O)) :=
  specRoundGo g fuel g.guarantees z []

/-- Pseudocode outer loop: `Z ← ALL_STATES; repeat until Z unchanged`,
returning the trace recorded during the final round only. -/
def specZGo (g : Game I O) (fuel : Nat) :
    Finset (I × O) → Nat → Option (Trace I O × Finset (I × O))
  | _, 0 => none
  | z, f + 1 =>
    match specRoundStep g fuel z with
    | none => none
    | some (tr', z') => if z' = z then some (tr', z') else specZGo g fuel z' f

/-- The §4.2 pseudocode solver `solve(game) -> (WinningRegion, FixpointTrace)`,
embedded from the words of the specification. -/
def specSolve (g : Game I O) (fuel : Nat) :
    Option (Trace I O × Finset (I × O)) :=
  specZGo g fuel Finset.univ fuel

/-! ### The textbook variant for claim C2: `Z` updated once per full round. -/

/-- One round of the textbook conjunction-over-`j` formula: every guarantee's
least fixpoint is computed from the same round-start `z`, and the new `z` is
the intersection of the results. -/
def textbookRound (g : Game I O) (fuel : Nat) (z : Finset (I × O)) :
    Option (Finset (I × O)) :=
  g.guarantees.foldlM (fun acc gj => (yRegion g gj z fuel).map fun y => acc ∩ y)
    Finset.univ

/-- The textbook solver: iterate `textbookRound` from `ALL_STATES` until the
round value repeats. -/
def textbookSolve (g : Game I O) (fuel : Nat) : Option (Finset (I × O)) :=
  iterO (fun z => textbookRound g fuel z) Finset.univ fuel

/-! ### Realizability (`isRealizable`) and its state mutation. -/

/-- The mutable state of the `WinningRegion` object that `isRealizable` reads
and possibly writes: the initial-condition predicates, the memory-counter
initial predicate `initjx`, the combined `init`, and the winning region. -/
structure WRState (I O : Type) [DecidableEq I] [DecidableEq O] where
  winningRegion : Finset (I × O)
  init1 : Finset (I × O)
  init2 : Finset (I × O)
  init12 : Finset (I × O)
  initjx : Nat → Bool
  init : I × O → Nat → Bool

/-- `∃ output-present-vars. p`: existential quantification of the present
output variables out of a present-state predicate. -/
def existsOut (p : Finset (I × O)) : Finset (I × O) :=
  Finset.univ.filter fun s => ∃ o : O, (s.1, o) ∈ p

/-- `isRealizable` from `winning_region.py`: returns the realizability verdict
and the (possibly updated) object state.  When the verdict is `True` but not
all initial states are winning, `init1`, `init2` and `init12` are conjoined
with the winning region and `init` is rebuilt from the new `init12`. -/
def isRealizable (st : WRState I O) : Bool × WRState I O :=
  let canFindInitialOutput := existsOut (st.winningRegion ∩ st.init2)
  let realizable := decide (st.init1ᶜ ∪ canFindInitialOutput = Finset.univ)
  if realizable ∧ ¬ st.init12 ⊆ st.winningRegion then
    let newInit12 := st.init12 ∩ st.winningRegion
    (realizable,
      { st with
        init1 := st.init1 ∩ st.winningRegion
        init2 := st.init2 ∩ st.winningRegion
        init12 := newInit12
        init := fun s j => decide (s ∈ newInit12) && st.initjx j })
  else (realizable, st)

/-! ### Strategy extraction (`strategy.py`).

A strategy is a relation over (present state, present memory, next state,
next memory).  The memory counter `jx ∈ [0, n)` is encoded by `_moduloInc`
as BDD variables; here it is a `Nat` argument of the relation. -/

/-- A relation over (present state, present memory counter, next state, next
memory counter). -/
abbrev MemRel (I O : Type) := I × O → Nat → I × O → Nat → Bool

/-- The always-false relation (`BDD.ZERO` over the relation variables). -/
def emptyMemRel : MemRel I O := fun _ _ _ _ => false

/-- The cofactor `mod_trans / jp1` of the modulo-increment transition
`jx' = (jx + 1) mod n` by a predicate on the present counter: the resulting
predicate on the next counter value. -/
def jxImage (n : Nat) (p : Nat → Bool) : Nat → Bool := fun b =>
  (List.range n).any fun a => p a && b == (a + 1) % n

/-- The loop of `_calc_rho1`: for each guarantee, conjoin `jx = j`, the
guarantee at the present state, and `jx' = (j+1) mod n`, and accumulate. -/
def rho1Fold (n : Nat) :
    List (Finset (I × O)) → (Nat → Bool) → MemRel I O → MemRel I O
  | [], _, acc => acc
  | gj :: rest, jp1, acc =>
    let jp1n := jxImage n jp1
    rho1Fold n rest jp1n
      (fun s jx s' jx' => acc s jx s' jx' || (jp1 jx && decide (s ∈ gj) && jp1n jx'))

/-- `_calc_rho1`: the fallback rule, conjoined with the winning region at the
present state, the combined transition relation, and the winning region at
the next state. -/
def calcRho1 (g : Game I O) (winRegion : Finset (I × O)) : MemRel I O :=
  let go := rho1Fold g.guarantees.length g.guarantees (fun a => a == 0) (emptyMemRel)
  fun s jx s' jx' =>
    go s jx s' jx' && decide (s ∈ winRegion) && trans12 g s s' &&
      decide (s' ∈ winRegion)

/-- The `for r in range(1,maxr)` loop of `_calc_rho2`, threading the
accumulated `low` and the per-guarantee relation `rho2_tmp`. -/
def rho2RowGo (mini : Finset (I × O) → Finset (I × O) → Finset (I × O))
    (rs : Finset (I × O)) :
    List (Finset (I × O)) → Finset (I × O) → (I × O → I × O → Bool) →
    Finset (I × O) × (I × O → I × O → Bool)
  | [], low, tmp => (low, tmp)
  | yr :: rest, low, tmp =>
    rho2RowGo mini rs rest (low ∪ yr)
      (fun s s' => tmp s s' ||
        (decide (s ∈ mini yr rs) && decide (s ∈ mini lowᶜ rs) && decide (s' ∈ low)))

/-- The per-guarantee part of `_calc_rho2`; accessing `yArray[j][0]` of an
empty array raises in the source, modelled by `none`. -/
def rho2PerJ (mini : Finset (I × O) → Finset (I × O) → Finset (I × O))
    (rs : Finset (I × O)) :
    List (Finset (I × O)) → Option (I × O → I × O → Bool)
  | [] => none
  | y0 :: rest => some (rho2RowGo mini rs rest y0 (fun _ _ => false)).2

/-- The `for j in range(0,n)` loop of `_calc_rho2`: memory stays at `j`
(`jx_equal_j` at the present counter and its swap at the next counter). -/
def rho2Fold (n : Nat)
    (mini : Finset (I × O) → Finset (I × O) → Finset (I × O))
    (rs : Finset (I × O)) :
    List (List (Finset (I × O))) → (Nat → Bool) → MemRel I O → Option (MemRel I O)
  | [], _, acc => some acc
  | ys :: rest, jp1, acc =>
    match rho2PerJ mini rs ys with
    | none => none
    | some tmp =>
      rho2Fold n mini rs rest (jxImage n jp1)
        (fun s jx s' jx' => acc s jx s' jx' || (tmp s s' && jp1 jx && jp1 jx'))

/-- `_calc_rho2`, conjoined with the combined transition relation. -/
def calcRho2 (g : Game I O)
    (mini : Finset (I × O) → Finset (I × O) → Finset (I × O))
    (rs : Finset (I × O)) (yarr : List (List (Finset (I × O)))) :
    Option (MemRel I O) :=
  (rho2Fold g.guarantees.length mini rs yarr (fun a => a == 0) (emptyMemRel)).map
    fun r => fun s jx s' jx' => r s jx s' jx' && trans12 g s s'

/-- The inner `for i in range(0,m)` loop of `_calc_rho3` over one row of
`xArray[j]`, paired with the assumptions. -/
def rho3RowGo (mini : Finset (I × O) → Finset (I × O) → Finset (I × O))
    (rs : Finset (I × O)) :
    List (Finset (I × O) × Finset (I × O)) → Finset (I × O) →
    (I × O → I × O → Bool) → Finset (I × O) × (I × O → I × O → Bool)
  | [], low, tmp => (low, tmp)
  | (x, a) :: rest, low, tmp =>
    rho3RowGo mini rs rest (low ∪ x)
      (fun s s' => tmp s s' ||
        (decide (s ∈ mini x rs) && decide (s ∈ mini lowᶜ rs) &&
          decide (s ∉ a) && decide (s' ∈ x)))

/-- The `for r in range(0,maxr)` loop of `_calc_rho3`: `low` accumulates
across all rows of the same guarantee. -/
def rho3RowsGo (mini : Finset (I × O) → Finset (I × O) → Finset (I × O))
    (rs : Finset (I × O)) (assumptions : List (Finset (I × O))) :
    List (List (Finset (I × O))) → Finset (I × O) → (I × O → I × O → Bool) →
    Finset (I × O) × (I × O → I × O → Bool)
  | [], low, tmp => (low, tmp)
  | row :: rest, low, tmp =>
    let p := rho3RowGo mini rs (row.zip assumptions) low tmp
    rho3RowsGo mini rs assumptions rest p.1 p.2

/-- The `for j in range(0,n)` loop of `_calc_rho3`: memory stays at `j`. -/
def rho3Fold (n : Nat)
    (mini : Finset (I × O) → Finset (I × O) → Finset (I × O))
    (rs : Finset (I × O)) (assumptions : List (Finset (I × O))) :
    List (List (List (Finset (I × O)))) → (Nat → Bool) → MemRel I O → MemRel I O
  | [], _, acc => acc
  | xss :: rest, jp1, acc =>
    let tmp := (rho3RowsGo mini rs assumptions xss ∅ (fun _ _ => false)).2
    rho3Fold n mini rs assumptions rest (jxImage n jp1)
      (fun s jx s' jx' => acc s jx s' jx' || (tmp s s' && jp1 jx && jp1 jx'))

/-- `_calc_rho3`, conjoined with the combined transition relation. -/
def calcRho3 (g : Game I O)
    (mini : Finset (I × O) → Finset (I × O) → Finset (I × O))
    (rs : Finset (I × O)) (xarr : List (List (List (Finset (I × O))))) :
    MemRel I O :=
  let go := rho3Fold g.guarantees.length mini rs g.assumptions xarr
    (fun a => a == 0) (emptyMemRel)
  fun s jx s' jx' => go s jx s' jx' && trans12 g s s'

/-- One body of the `reachableStates` loop: intersect with the invariant,
then add all one-step successors. -/
def reachStep (g : Game I O) (invar : Finset (I × O)) (reach : Finset (I × O)) :
    Finset (I × O) :=
  (reach ∩ invar) ∪
    Finset.univ.filter fun t => ∃ s ∈ reach ∩ invar, trans12 g s t = true

/-- `reachableStates` from `winning_region.py`: forward reachability from
`init * invar`, with the sentinel `old_reach = ZERO`. -/
def reachableStates (g : Game I O) (init invar : Finset (I × O)) (fuel : Nat) :
    Option (Finset (I × O)) :=
  bddLoop (reachStep g invar) ∅ (init ∩ invar) fuel

/-- Agreement contract of the RESTRICT operator `//` (`bdd_minimize`): the
result coincides with the original on the care set. -/
def MiniOk (mini : Finset (I × O) → Finset (I × O) → Finset (I × O)) : Prop :=
  ∀ f c, mini f c ∩ c = f ∩ c

/-- Agreement contract of RESTRICT applied to a strategy relation with a
present-state care set. -/
def MiniRelOk (miniRel : MemRel I O → Finset (I × O) → MemRel I O) : Prop :=
  ∀ R c s jx s' jx', s ∈ c → miniRel R c s jx s' jx' = R s jx s' jx'

/-- A valid RESTRICT implementation (the identity choice). -/
def miniTriv (f : Finset (I × O)) (_ : Finset (I × O)) : Finset (I × O) := f

/-- A valid relation-level RESTRICT implementation (the identity choice). -/
def miniRelTriv (R : MemRel I O) (_ : Finset (I × O)) : MemRel I O := R

/-- `calcStrategy` from `strategy.py`: compute reachable states from
`init12` with invariant `ONE`, build `rho3`, `rho2`, `rho1` from the solver's
trace and winning region, take their union, and RESTRICT the result against
the reachable states.  The solver run supplying `X`, `Y` and the winning
region is part of the model (the source reads them from the
`winning_region` object). -/
def calcStrategy (g : Game I O)
    (mini : Finset (I × O) → Finset (I × O) → Finset (I × O))
    (miniRel : MemRel I O → Finset (I × O) → MemRel I O) (fuel : Nat) :
    Option (MemRel I O) :=
  match calcWinningRegion g fuel with
  | none => none
  | some (tr, w) =>
    match reachableStates g (init12 g) Finset.univ fuel with
    | none => none
    | some reach =>
      let rho3 := calcRho3 g mini reach (tr.map fun p => p.1)
      match calcRho2 g mini reach (tr.map fun p => p.2) with
      | none => none
      | some rho2 =>
        let rho1 := calcRho1 g w
        some (miniRel
          (fun s jx s' jx' => rho3 s jx s' jx' || rho2 s jx s' jx' || rho1 s jx s' jx')
          reach)

/-- The `WinningRegion` object state as populated by `calcWinningRegion` and
`_moduloInc` for a game `g` whose computed winning region is `w`:
`initjx` is `jx = 0` and `init = init12 * initjx`. -/
def mkWRState (g : Game I O) (w : Finset (I × O)) : WRState I O :=
  { winningRegion := w
    init1 := g.init1
    init2 := g.init2
    init12 := init12 g
    initjx := fun a => a == 0
    init := fun s j => decide (s ∈ init12 g) && j == 0 }

/-! ### Iterate sequences and reachable fixpoint contexts (for monotonicity). -/

/-- The `t`-th iterate of the innermost fixpoint body, starting from `z`. -/
def xSeqF (g : Game I O) (start a z : Finset (I × O)) (t : Nat) : Finset (I × O) :=
  (xStep g start a)^[t] z

/-- The `r`-th iterate of the `y` least fixpoint at round value `z` and
guarantee `gj` (`y` starts at `ZERO`; each step may exhaust its inner fuel). -/
def ySeqO (g : Game I O) (gj z : Finset (I × O)) (fuel : Nat) : Nat → Option (Finset (I × O))
  | 0 => some ∅
  | r + 1 =>
    (ySeqO g gj z fuel r).bind fun y => (yStep g gj z y fuel).map fun p => p.2

/-- The round values `z` encountered while `calcWinningRegion` runs: the
initial `ALL_STATES`, and the converged `y` of any guarantee processed at an
encountered value. -/
inductive ReachZ (g : Game I O) : Finset (I × O) → Prop
  | base : ReachZ g Finset.univ
  | step (z gj y : Finset (I × O)) (fuel : Nat) : ReachZ g z → gj ∈ g.guarantees →
      yRegion g gj z fuel = some y → ReachZ g y

/-- The `t`-th round value of the outer `z` loop of `calcWinningRegion`:
iterated `roundStep` from `ALL_STATES` (each round may exhaust its fuel). -/
def zSeqO (g : Game I O) (fuel : Nat) : Nat → Option (Finset (I × O))
  | 0 => some Finset.univ
  | t + 1 =>
    (zSeqO g fuel t).bind fun z => (roundStep g fuel z).map fun p => p.2

/-- The `t`-th round value of the textbook solver: iterated `textbookRound`
from `ALL_STATES`. -/
def tzSeqO (g : Game I O) (fuel : Nat) : Nat → Option (Finset (I × O))
  | 0 => some Finset.univ
  | t + 1 => (tzSeqO g fuel t).bind fun z => textbookRound g fuel z

/-! ### Concrete games used as witnesses and counterexamples. -/

/-- A one-input-bitless, one-output-bitless game with total transitions, one
unsatisfiable-never assumption (`ZERO`) and one trivially true guarantee. -/
def gameA : Game (Fin 1) (Fin 1) :=
  { trans1 := fun _ _ => true
    trans2 := fun _ _ _ => true
    assumptions := [∅]
    guarantees := [Finset.univ]
    init1 := Finset.univ
    init2 := Finset.univ }

/-- As `gameA` but with two guarantees (`n = 2`), to separate the memory
counter values of the strategy rules. -/
def gameN2 : Game (Fin 1) (Fin 1) :=
  { trans1 := fun _ _ => true
    trans2 := fun _ _ _ => true
    assumptions := [∅]
    guarantees := [Finset.univ, Finset.univ]
    init1 := Finset.univ
    init2 := Finset.univ }

/-- As `gameA` but with no assumptions (`m = 0`). -/
def gameM0 : Game (Fin 1) (Fin 1) :=
  { trans1 := fun _ _ => true
    trans2 := fun _ _ _ => true
    assumptions := []
    guarantees := [Finset.univ]
    init1 := Finset.univ
    init2 := Finset.univ }

/-- A game whose environment has no transition at all: every state is winning
and realizable, yet the combined transition relation is empty. -/
def gameDead : Game (Fin 1) (Fin 1) :=
  { trans1 := fun _ _ => false
    trans2 := fun _ _ _ => false
    assumptions := [Finset.univ]
    guarantees := [Finset.univ]
    init1 := Finset.univ
    init2 := Finset.univ }

/-- The single state of the `Fin 1 × Fin 1` state space. -/
def st0 : Fin 1 × Fin 1 := (0, 0)

/-- Union of a list of state sets (the accumulated `low` of the strategy
rules). -/
def unionList (l : List (Finset (I × O))) : Finset (I × O) :=
  l.foldl (fun acc x => acc ∪ x) ∅

/-- The invariant satisfied by every round value `z` with at least one
assumption present: the states without environment successor are in `z`, and
`coax z ⊆ z`. -/
def GoodZ (g : Game I O) (z : Finset (I × O)) : Prop :=
  coax g ∅ ⊆ z ∧ coax g z ⊆ z

/-- Invariant of encountered round values for an arbitrary game: either the
game has no assumptions (so no inner fixpoint ever runs), or `GoodZ`. -/
def Inv (g : Game I O) (z : Finset (I × O)) : Prop :=
  g.assumptions = [] ∨ GoodZ g z

/-- A concrete `WinningRegion` object state in which `isRealizable` answers
`True` while some initial state lies outside the winning region, exercising
the mutating branch. -/
def stC10 : WRState (Fin 1) (Fin 1) :=
  { winningRegion := ∅
    init1 := ∅
    init2 := Finset.univ
    init12 := Finset.univ
    initjx := fun a => a == 0
    init := fun _ j => j == 0 }

end Marduk

namespace Marduk

/-! ## Theorems -/

variable {I O : Type} [DecidableEq I] [DecidableEq O] [Fintype I] [Fintype O]
  [Nonempty I] [Nonempty O]

/-! ### Generic loop lemmas -/

theorem bddLoop_succ_eq_doWhile {α : Type} [DecidableEq α] (F : α → α) :
    ∀ (f : Nat) (x : α), bddLoop F x (F x) f = doWhile F x f := by
  intro f
  induction f with
  | zero => intro x; rfl
  | succ f ih =>
    intro x
    simp only [bddLoop, doWhile]
    by_cases h : F x = x
    · simp [h]
    · simp only [if_neg h]
      have := ih (F x)
      simpa [h] using this

theorem bddLoop_ne (α : Type) [DecidableEq α] (F : α → α) (old x : α) (f : Nat)
    (h : x ≠ old) : bddLoop F old x (f + 1) = doWhile F x f := by
  simp only [bddLoop, if_neg h]
  exact bddLoop_succ_eq_doWhile F f x

theorem doWhile_fix {α : Type} [DecidableEq α] (F : α → α) :
    ∀ (f : Nat) (x r : α), doWhile F x f = some r → F r = r := by
  intro f
  induction f with
  | zero => intro x r h; exact absurd h (by simp [doWhile])
  | succ f ih =>
    intro x r h
    simp only [doWhile] at h
    by_cases hx : F x = x
    · simp only [if_pos hx, Option.some.injEq] at h
      subst h
      rw [hx]
      exact hx
    · exact ih (F x) r (by simpa [hx] using h)

theorem doWhile_iterate {α : Type} [DecidableEq α] (F : α → α) :
    ∀ (f : Nat) (x r : α), doWhile F x f = some r → ∃ k, r = F^[k] x := by
  intro f
  induction f with
  | zero => intro x r h; exact absurd h (by simp [doWhile])
  | succ f ih =>
    intro x r h
    simp only [doWhile] at h
    by_cases hx : F x = x
    · simp only [if_pos hx, Option.some.injEq] at h
      exact ⟨1, by simp [← h]⟩
    · obtain ⟨k, hk⟩ := ih (F x) r (by simpa [hx] using h)
      exact ⟨k + 1, by simpa [Function.iterate_succ_apply] using hk⟩

theorem doWhile_fuel_mono {α : Type} [DecidableEq α] (F : α → α) :
    ∀ (f f' : Nat) (x r : α), doWhile F x f = some r → f ≤ f' →
      doWhile F x f' = some r := by
  intro f
  induction f with
  | zero => intro f' x r h; exact absurd h (by simp [doWhile])
  | succ f ih =>
    intro f' x r h hle
    obtain ⟨f'', rfl⟩ := Nat.exists_eq_add_of_le hle
    simp only [doWhile] at h
    by_cases hx : F x = x
    · simp only [if_pos hx, Option.some.injEq] at h
      subst h
      have he : f + 1 + f'' = (f + f'') + 1 := by omega
      rw [he]
      simp [doWhile, hx]
    · have h' := ih (f + f'') (F x) r (by simpa [hx] using h) (Nat.le_add_right _ _)
      have he : f + 1 + f'' = (f + f'') + 1 := by omega
      rw [he]
      simpa [doWhile, hx] using h'

theorem doWhile_det {α : Type} [DecidableEq α] (F : α → α) (f f' : Nat) (x r r' : α)
    (h : doWhile F x f = some r) (h' : doWhile F x f' = some r') : r = r' := by
  have h1 := doWhile_fuel_mono F f (f + f') x r h (Nat.le_add_right _ _)
  have h2 := doWhile_fuel_mono F f' (f + f') x r' h' (Nat.le_add_left _ _)
  rw [h1] at h2
  exact Option.some.injEq _ _ ▸ (by simpa using h2)

theorem doWhile_some_of_fix {α : Type} [DecidableEq α] (F : α → α) :
    ∀ (k : Nat) (x : α), F (F^[k] x) = F^[k] x → ∀ f, k + 1 ≤ f →
      doWhile F x f = some (F^[k] x) := by
  intro k
  induction k with
  | zero =>
    intro x hfix f hf
    cases f with
    | zero => omega
    | succ f' =>
      simp only [Function.iterate_zero_apply] at hfix ⊢
      simp [doWhile, hfix]
  | succ k ih =>
    intro x hfix f hf
    cases f with
    | zero => omega
    | succ f' =>
      by_cases hx : F x = x
      · have hcollapse : F^[k + 1] x = x := Function.iterate_fixed hx _
        rw [hcollapse]
        simp [doWhile, hx]
      · simp only [doWhile, if_neg hx]
        have hfix' : F (F^[k] (F x)) = F^[k] (F x) := by
          rw [← Function.iterate_succ_apply]
          exact hfix
        rw [Function.iterate_succ_apply]
        exact ih (F x) hfix' f' (by omega)

/-! ### Claim C8: the realizability test -/

/-- C8: `isRealizable` returns `True` iff the predicate
`(¬init1) ∨ ∃ initial-outputs. (init2 ∧ WinningRegion)` is constant true,
i.e. for every environment initial choice there is a system initial choice
placing the joint initial state inside the winning region. -/
theorem c8_isRealizable_iff (st : WRState I O) :
    (isRealizable st).1 = true ↔
      ∀ s : I × O, s ∉ st.init1 ∨
        ∃ o : O, (s.1, o) ∈ st.init2 ∧ (s.1, o) ∈ st.winningRegion := by
  have h1 : (isRealizable st).1 =
      decide (st.init1ᶜ ∪ existsOut (st.winningRegion ∩ st.init2) = Finset.univ) := by
    simp only [isRealizable]
    split <;> rfl
  rw [h1, decide_eq_true_iff, Finset.eq_univ_iff_forall]
  refine forall_congr' fun s => ?_
  simp only [Finset.mem_union, Finset.mem_compl, existsOut, Finset.mem_filter,
    Finset.mem_univ, true_and, Finset.mem_inter]
  tauto

/-- Witness for C8 at a concrete object state. -/
theorem c8_isRealizable_iff_witness :
    (isRealizable (mkWRState gameA Finset.univ)).1 = true ∧
      ∀ s : Fin 1 × Fin 1, s ∉ (mkWRState gameA Finset.univ).init1 ∨
        ∃ o : Fin 1, (s.1, o) ∈ (mkWRState gameA Finset.univ).init2 ∧
          (s.1, o) ∈ (mkWRState gameA Finset.univ).winningRegion :=
  ⟨by rfl, (c8_isRealizable_iff (mkWRState gameA Finset.univ)).mp (by rfl)⟩

/-! ### Claim C10: the frame effect of `isRealizable` -/

/-- C10: `isRealizable` mutates the stored initial-condition predicates only
when it returns `True` and some initial state lies outside the winning
region; then it conjoins `init1`, `init2`, `init12` with the winning region
and rebuilds `init`.  On `False`, or on `True` with all initial states
winning, the state is unchanged; the winning region is never modified. -/
theorem c10_isRealizable_frame (st : WRState I O) :
    ((isRealizable st).1 = true → ¬ st.init12 ⊆ st.winningRegion →
      (isRealizable st).2 =
        { st with
          init1 := st.init1 ∩ st.winningRegion
          init2 := st.init2 ∩ st.winningRegion
          init12 := st.init12 ∩ st.winningRegion
          init := fun s j =>
            decide (s ∈ st.init12 ∩ st.winningRegion) && st.initjx j }) ∧
    ((isRealizable st).1 = false → (isRealizable st).2 = st) ∧
    ((isRealizable st).1 = true → st.init12 ⊆ st.winningRegion →
      (isRealizable st).2 = st) ∧
    (isRealizable st).2.winningRegion = st.winningRegion ∧
    (isRealizable st).2.initjx = st.initjx := by
  by_cases hcond : ((isRealizable st).1 = true) ∧ ¬ st.init12 ⊆ st.winningRegion
  · obtain ⟨hr, hsub⟩ := hcond
    have h1 : (isRealizable st).1 =
        decide (st.init1ᶜ ∪ existsOut (st.winningRegion ∩ st.init2) = Finset.univ) := by
      simp only [isRealizable]
      split <;> rfl
    have hreal : decide
        (st.init1ᶜ ∪ existsOut (st.winningRegion ∩ st.init2) = Finset.univ) = true := by
      rw [← h1]; exact hr
    have h2 : (isRealizable st).2 =
        { st with
          init1 := st.init1 ∩ st.winningRegion
          init2 := st.init2 ∩ st.winningRegion
          init12 := st.init12 ∩ st.winningRegion
          init := fun s j =>
            decide (s ∈ st.init12 ∩ st.winningRegion) && st.initjx j } := by
      simp only [isRealizable]
      rw [if_pos ⟨by simp [hreal], hsub⟩]
    refine ⟨fun _ _ => h2, fun hf => absurd hr (by simp [hf]), fun _ hs => absurd hs hsub,
      by rw [h2], by rw [h2]⟩
  · have h2 : (isRealizable st).2 = st := by
      simp only [isRealizable]
      rw [if_neg]
      intro ⟨ha, hb⟩
      have h1 : (isRealizable st).1 =
          decide (st.init1ᶜ ∪ existsOut (st.winningRegion ∩ st.init2) = Finset.univ) := by
        simp only [isRealizable]
        split <;> rfl
      exact hcond ⟨by rw [h1]; simpa using ha, hb⟩
    refine ⟨fun hr hsub => absurd ⟨hr, hsub⟩ hcond, fun _ => h2, fun _ _ => h2,
      by rw [h2], by rw [h2]⟩

/-! ### Claim C4: the Rule-1 component -/

theorem jxImage_single (n c : Nat) (hc : c < n) (b : Nat) :
    jxImage n (fun a => a == c) b = (b == (c + 1) % n) := by
  rw [Bool.eq_iff_iff]
  simp only [jxImage, List.any_eq_true, List.mem_range, Bool.and_eq_true, beq_iff_eq]
  constructor
  · rintro ⟨a, _, rfl, rfl⟩
    rfl
  · intro h
    exact ⟨c, hc, rfl, h⟩

theorem rho1Fold_spec (n : Nat) :
    ∀ (gs : List (Finset (I × O))) (c : Nat), c < n →
      ∀ (acc : MemRel I O) (s : I × O) (jx : Nat) (s' : I × O) (jx' : Nat),
      rho1Fold n gs (fun a => a == c) acc s jx s' jx' = true ↔
        (acc s jx s' jx' = true ∨
          ∃ idx < gs.length, jx = (c + idx) % n ∧ s ∈ gs.getD idx ∅ ∧
            jx' = (c + idx + 1) % n) := by
  intro gs
  induction gs with
  | nil =>
    intro c _ acc s jx s' jx'
    simp [rho1Fold]
  | cons gj rest ih =>
    intro c hc acc s jx s' jx'
    have himg : jxImage n (fun a => a == c) = fun b => b == (c + 1) % n := by
      funext b
      exact jxImage_single n c hc b
    simp only [rho1Fold, himg]
    rw [ih ((c + 1) % n) (Nat.mod_lt _ (by omega)) _ s jx s' jx']
    have hshift : ∀ k, ((c + 1) % n + k) % n = (c + 1 + k) % n := fun k =>
      Nat.mod_add_mod (c + 1) n k ▸ rfl
    constructor
    · rintro (h | ⟨idx, hidx, h1, h2, h3⟩)
      · simp only [Bool.or_eq_true, Bool.and_eq_true, beq_iff_eq, decide_eq_true_eq] at h
        rcases h with h | ⟨⟨hjx, hs⟩, hjx'⟩
        · exact Or.inl h
        · refine Or.inr ⟨0, by simp only [List.length_cons]; omega, ?_, by simpa using hs, ?_⟩
          · rw [hjx, Nat.add_zero, Nat.mod_eq_of_lt hc]
          · rw [hjx', Nat.add_zero]
      · refine Or.inr ⟨idx + 1, by simpa using Nat.add_lt_add_right hidx 1,
          ?_, by simpa using h2, ?_⟩
        · rw [h1, hshift idx, show c + 1 + idx = c + (idx + 1) by omega]
        · rw [h3, show (c + 1) % n + idx + 1 = (c + 1) % n + (idx + 1) by omega,
            hshift (idx + 1), show c + 1 + (idx + 1) = c + (idx + 1) + 1 by omega]
    · rintro (h | ⟨idx, hidx, h1, h2, h3⟩)
      · exact Or.inl (by simp [h])
      · cases idx with
        | zero =>
          refine Or.inl ?_
          simp only [Bool.or_eq_true, Bool.and_eq_true, beq_iff_eq, decide_eq_true_eq]
          refine Or.inr ⟨⟨?_, by simpa using h2⟩, by simpa using h3⟩
          rw [h1, Nat.add_zero, Nat.mod_eq_of_lt hc]
        | succ idx =>
          refine Or.inr ⟨idx, by simp only [List.length_cons] at hidx; omega,
            ?_, by simpa using h2, ?_⟩
          · rw [h1, hshift idx, show c + 1 + idx = c + (idx + 1) by omega]
          · rw [h3, show (c + 1) % n + idx + 1 = (c + 1) % n + (idx + 1) by omega,
              hshift (idx + 1), show c + 1 + (idx + 1) = c + (idx + 1) + 1 by omega]


/-- C4 (counterexample): the claim says every Rule-1 move resets the next
memory to `0` and is guarded by "no finer recorded progress"; on `gameN2`
(two guarantees) the code's `rho1` emits, from the single state with memory
`0`, a move whose next memory is `1`, and emits no memory-`0`-to-`0` move at
all, so the claimed characterization is false. -/
theorem c4_rho1_counterexample :
    calcWinningRegion gameN2 6 =
      some ([([[Finset.univ]], [Finset.univ]), ([[Finset.univ]], [Finset.univ])],
        Finset.univ) ∧
    calcRho1 gameN2 Finset.univ st0 0 st0 1 = true ∧
    calcRho1 gameN2 Finset.univ st0 0 st0 0 = false ∧
    ¬ (∀ (s : Fin 1 × Fin 1) (jx : Nat) (s' : Fin 1 × Fin 1) (jx' : Nat),
        calcRho1 gameN2 Finset.univ s jx s' jx' = true → jx' = 0) :=
  ⟨by rfl, by rfl, by rfl, fun h => absurd (h st0 0 st0 1 (by rfl)) (by omega)⟩

/-- C4 (amended): the Rule-1 component contains, for each memory value
`j < n`, exactly the moves from winning states at which guarantee `j`
currently holds, consistent with the combined transition relation, landing
back in the winning region, and advancing the memory to `(j+1) mod n`. -/
theorem c4_rho1_amended (g : Game I O) (winRegion : Finset (I × O))
    (s : I × O) (jx : Nat) (s' : I × O) (jx' : Nat) :
    calcRho1 g winRegion s jx s' jx' = true ↔
      (jx < g.guarantees.length ∧ s ∈ g.guarantees.getD jx ∅ ∧
        jx' = (jx + 1) % g.guarantees.length ∧
        s ∈ winRegion ∧ trans12 g s s' = true ∧ s' ∈ winRegion) := by
  rcases Nat.eq_zero_or_pos g.guarantees.length with hn | hn
  · rw [List.length_eq_zero] at hn
    simp [calcRho1, hn, rho1Fold, emptyMemRel]
  · simp only [calcRho1, Bool.and_eq_true, decide_eq_true_eq]
    rw [rho1Fold_spec g.guarantees.length g.guarantees 0 hn (emptyMemRel) s jx s' jx']
    simp only [emptyMemRel, Bool.false_eq_true, false_or, Nat.zero_add]
    constructor
    · rintro ⟨⟨⟨⟨idx, hidx, h1, h2, h3⟩, hW⟩, hT⟩, hW'⟩
      have hjx : jx = idx := h1.trans (Nat.mod_eq_of_lt hidx)
      subst hjx
      exact ⟨hidx, h2, h3, hW, hT, hW'⟩
    · rintro ⟨hidx, h2, h3, hW, hT, hW'⟩
      exact ⟨⟨⟨⟨jx, hidx, (Nat.mod_eq_of_lt hidx).symm, h2, h3⟩, hW⟩, hT⟩, hW'⟩

/-- Witness for the amended C4 on `gameN2`. -/
theorem c4_rho1_amended_witness :
    calcRho1 gameN2 Finset.univ st0 1 st0 0 = true :=
  (c4_rho1_amended gameN2 Finset.univ st0 1 st0 0).mpr
    (by refine ⟨by decide, by decide, by decide, by decide, by decide, by decide⟩)

/-! ### Claim C3: the Rule-3 component -/

theorem mem_foldl_union (a : I × O) :
    ∀ (l : List (Finset (I × O))) (acc : Finset (I × O)),
      a ∈ l.foldl (fun acc x => acc ∪ x) acc ↔ a ∈ acc ∨ ∃ x ∈ l, a ∈ x := by
  intro l
  induction l with
  | nil => intro acc; simp
  | cons x xs ih =>
    intro acc
    rw [List.foldl_cons, ih]
    simp only [Finset.mem_union, List.mem_cons]
    constructor
    · rintro ((h | h) | ⟨w, hw, ha⟩)
      · exact Or.inl h
      · exact Or.inr ⟨x, Or.inl rfl, h⟩
      · exact Or.inr ⟨w, Or.inr hw, ha⟩
    · rintro (h | ⟨w, (rfl | hw), ha⟩)
      · exact Or.inl (Or.inl h)
      · exact Or.inl (Or.inr ha)
      · exact Or.inr ⟨w, hw, ha⟩

theorem mem_unionList (a : I × O) (l : List (Finset (I × O))) :
    a ∈ unionList l ↔ ∃ x ∈ l, a ∈ x := by
  rw [unionList, mem_foldl_union]
  simp

theorem foldl_union_eq (l : List (Finset (I × O))) (acc : Finset (I × O)) :
    l.foldl (fun acc x => acc ∪ x) acc = acc ∪ unionList l := by
  ext a
  rw [mem_foldl_union, Finset.mem_union, mem_unionList]

theorem unionList_cons (x : Finset (I × O)) (l : List (Finset (I × O))) :
    unionList (x :: l) = x ∪ unionList l := by
  ext a
  rw [mem_unionList, Finset.mem_union, mem_unionList]
  simp

theorem miniOk_mem {mini : Finset (I × O) → Finset (I × O) → Finset (I × O)}
    (hm : MiniOk mini) {rs : Finset (I × O)} {s : I × O} (hs : s ∈ rs)
    (f : Finset (I × O)) : s ∈ mini f rs ↔ s ∈ f := by
  have := hm f rs
  constructor
  · intro h
    have : s ∈ mini f rs ∩ rs := Finset.mem_inter.mpr ⟨h, hs⟩
    rw [hm f rs] at this
    exact (Finset.mem_inter.mp this).1
  · intro h
    have h2 : s ∈ f ∩ rs := Finset.mem_inter.mpr ⟨h, hs⟩
    rw [← hm f rs] at h2
    exact (Finset.mem_inter.mp h2).1

theorem rho3RowGo_spec {mini : Finset (I × O) → Finset (I × O) → Finset (I × O)}
    (hm : MiniOk mini) (rs : Finset (I × O)) :
    ∀ (pairs : List (Finset (I × O) × Finset (I × O))) (low : Finset (I × O))
      (tmp : I × O → I × O → Bool),
      (rho3RowGo mini rs pairs low tmp).1 =
          low ∪ unionList (pairs.map fun p => p.1) ∧
      ∀ s s', s ∈ rs →
        ((rho3RowGo mini rs pairs low tmp).2 s s' = true ↔
          tmp s s' = true ∨ ∃ k < pairs.length,
            s ∈ (pairs.getD k (∅, ∅)).1 ∧
            s ∉ low ∪ unionList ((pairs.take k).map fun p => p.1) ∧
            s ∉ (pairs.getD k (∅, ∅)).2 ∧
            s' ∈ (pairs.getD k (∅, ∅)).1) := by
  intro pairs
  induction pairs with
  | nil =>
    intro low tmp
    refine ⟨by simp [rho3RowGo, unionList], fun s s' _ => ?_⟩
    simp [rho3RowGo]
  | cons p rest ih =>
    intro low tmp
    obtain ⟨x, a⟩ := p
    simp only [rho3RowGo]
    obtain ⟨ih1, ih2⟩ := ih (low ∪ x) (fun s s' => tmp s s' ||
      (decide (s ∈ mini x rs) && decide (s ∈ mini lowᶜ rs) &&
        decide (s ∉ a) && decide (s' ∈ x)))
    constructor
    · rw [ih1, List.map_cons, unionList_cons, Finset.union_assoc]
    · intro s s' hs
      rw [ih2 s s' hs]
      have hx : (decide (s ∈ mini x rs) && decide (s ∈ mini lowᶜ rs) &&
          decide (s ∉ a) && decide (s' ∈ x)) = true ↔
          (s ∈ x ∧ s ∉ low ∧ s ∉ a ∧ s' ∈ x) := by
        simp only [Bool.and_eq_true, decide_eq_true_eq, miniOk_mem hm hs,
          Finset.mem_compl]
        tauto
      constructor
      · rintro (h | ⟨k, hk, h1, h2, h3, h4⟩)
        · simp only [Bool.or_eq_true] at h
          rcases h with h | h
          · exact Or.inl h
          · obtain ⟨hx1, hx2, hx3, hx4⟩ := hx.mp h
            refine Or.inr ⟨0, by simp, by simpa using hx1, ?_, by simpa using hx3,
              by simpa using hx4⟩
            simpa [unionList] using hx2
        · refine Or.inr ⟨k + 1, by simpa using Nat.add_lt_add_right hk 1,
            by simpa using h1, ?_, by simpa using h3, by simpa using h4⟩
          simp only [List.take_succ_cons, List.map_cons, unionList_cons,
            ← Finset.union_assoc]
          exact h2
      · rintro (h | ⟨k, hk, h1, h2, h3, h4⟩)
        · exact Or.inl (by simp [h])
        · cases k with
          | zero =>
            refine Or.inl ?_
            simp only [Bool.or_eq_true]
            refine Or.inr (hx.mpr ⟨by simpa using h1, ?_, by simpa using h3,
              by simpa using h4⟩)
            simpa [unionList] using h2
          | succ k =>
            refine Or.inr ⟨k, by simp only [List.length_cons] at hk; omega,
              by simpa using h1, ?_, by simpa using h3, by simpa using h4⟩
            simp only [List.take_succ_cons, List.map_cons, unionList_cons,
              ← Finset.union_assoc] at h2
            exact h2

theorem rho3RowsGo_spec {mini : Finset (I × O) → Finset (I × O) → Finset (I × O)}
    (hm : MiniOk mini) (rs : Finset (I × O)) (as : List (Finset (I × O))) :
    ∀ (rows : List (List (Finset (I × O)))) (low : Finset (I × O))
      (tmp : I × O → I × O → Bool),
      (rho3RowsGo mini rs as rows low tmp).1 =
          low ∪ unionList (rows.map fun row => unionList ((row.zip as).map fun p => p.1)) ∧
      ∀ s s', s ∈ rs →
        ((rho3RowsGo mini rs as rows low tmp).2 s s' = true ↔
          tmp s s' = true ∨ ∃ r < rows.length, ∃ k < ((rows.getD r []).zip as).length,
            s ∈ (((rows.getD r []).zip as).getD k (∅, ∅)).1 ∧
            s ∉ low ∧
            s ∉ unionList ((rows.take r).map fun row =>
              unionList ((row.zip as).map fun p => p.1)) ∧
            s ∉ unionList ((((rows.getD r []).zip as).take k).map fun p => p.1) ∧
            s ∉ (((rows.getD r []).zip as).getD k (∅, ∅)).2 ∧
            s' ∈ (((rows.getD r []).zip as).getD k (∅, ∅)).1) := by
  intro rows
  induction rows with
  | nil =>
    intro low tmp
    refine ⟨by simp [rho3RowsGo, unionList], fun s s' _ => ?_⟩
    simp [rho3RowsGo]
  | cons row rest ih =>
    intro low tmp
    simp only [rho3RowsGo]
    obtain ⟨hg1, hg2⟩ := rho3RowGo_spec hm rs (row.zip as) low tmp
    obtain ⟨ih1, ih2⟩ := ih (rho3RowGo mini rs (row.zip as) low tmp).1
      (rho3RowGo mini rs (row.zip as) low tmp).2
    constructor
    · rw [ih1, hg1, List.map_cons, unionList_cons, Finset.union_assoc]
    · intro s s' hs
      rw [ih2 s s' hs]
      rw [hg1]
      constructor
      · rintro (h | ⟨r, hr, k, hk, h1, h2, h3, h4, h5, h6⟩)
        · rw [hg2 s s' hs] at h
          rcases h with h | ⟨k, hk, h1, h2, h3, h4⟩
          · exact Or.inl h
          · rw [Finset.mem_union, not_or] at h2
            refine Or.inr ⟨0, by simp, k, by simpa using hk, by simpa using h1,
              h2.1, by simp [unionList], by simpa using h2.2, by simpa using h3,
              by simpa using h4⟩
        · rw [Finset.mem_union, not_or] at h2
          refine Or.inr ⟨r + 1, by simp only [List.length_cons]; omega, k,
            by simpa using hk, by simpa using h1, h2.1, ?_, by simpa using h4,
            by simpa using h5, by simpa using h6⟩
          simp only [List.take_succ_cons, List.map_cons, unionList_cons,
            Finset.mem_union, not_or]
          exact ⟨h2.2, h3⟩
      · rintro (h | ⟨r, hr, k, hk, h1, h2, h3, h4, h5, h6⟩)
        · refine Or.inl ?_
          rw [hg2 s s' hs]
          exact Or.inl h
        · cases r with
          | zero =>
            refine Or.inl ?_
            rw [hg2 s s' hs]
            refine Or.inr ⟨k, by simpa using hk, by simpa using h1, ?_,
              by simpa using h5, by simpa using h6⟩
            rw [Finset.mem_union, not_or]
            exact ⟨h2, by simpa using h4⟩
          | succ r =>
            refine Or.inr ⟨r, by simp only [List.length_cons] at hr; omega, k,
              by simpa using hk, by simpa using h1, ?_, ?_, by simpa using h4,
              by simpa using h5, by simpa using h6⟩
            · rw [Finset.mem_union, not_or]
              refine ⟨h2, ?_⟩
              simp only [List.take_succ_cons, List.map_cons, unionList_cons,
                Finset.mem_union, not_or] at h3
              exact h3.1
            · simp only [List.take_succ_cons, List.map_cons, unionList_cons,
                Finset.mem_union, not_or] at h3
              exact h3.2

theorem rho3Fold_spec (n : Nat)
    (mini : Finset (I × O) → Finset (I × O) → Finset (I × O))
    (rs : Finset (I × O)) (as : List (Finset (I × O))) :
    ∀ (xarrs : List (List (List (Finset (I × O))))) (c : Nat), c < n →
      ∀ (acc : MemRel I O) (s : I × O) (jx : Nat) (s' : I × O) (jx' : Nat),
      rho3Fold n mini rs as xarrs (fun a => a == c) acc s jx s' jx' = true ↔
        (acc s jx s' jx' = true ∨
          ∃ j < xarrs.length, jx = (c + j) % n ∧ jx' = (c + j) % n ∧
            (rho3RowsGo mini rs as (xarrs.getD j []) ∅ (fun _ _ => false)).2 s s' = true) := by
  intro xarrs
  induction xarrs with
  | nil =>
    intro c _ acc s jx s' jx'
    simp [rho3Fold]
  | cons xss rest ih =>
    intro c hc acc s jx s' jx'
    have himg : jxImage n (fun a => a == c) = fun b => b == (c + 1) % n := by
      funext b
      exact jxImage_single n c hc b
    simp only [rho3Fold, himg]
    rw [ih ((c + 1) % n) (Nat.mod_lt _ (by omega)) _ s jx s' jx']
    have hshift : ∀ k, ((c + 1) % n + k) % n = (c + 1 + k) % n := fun k =>
      Nat.mod_add_mod (c + 1) n k ▸ rfl
    constructor
    · rintro (h | ⟨j, hj, h1, h2, h3⟩)
      · simp only [Bool.or_eq_true, Bool.and_eq_true, beq_iff_eq] at h
        rcases h with h | ⟨⟨htmp, hjx⟩, hjx'⟩
        · exact Or.inl h
        · refine Or.inr ⟨0, by simp, ?_, ?_, by simpa using htmp⟩
          · rw [hjx, Nat.add_zero, Nat.mod_eq_of_lt hc]
          · rw [hjx', Nat.add_zero, Nat.mod_eq_of_lt hc]
      · refine Or.inr ⟨j + 1, by simp only [List.length_cons]; omega,
          ?_, ?_, by simpa using h3⟩
        · rw [h1, hshift j, show c + 1 + j = c + (j + 1) by omega]
        · rw [h2, hshift j, show c + 1 + j = c + (j + 1) by omega]
    · rintro (h | ⟨j, hj, h1, h2, h3⟩)
      · exact Or.inl (by simp [h])
      · cases j with
        | zero =>
          refine Or.inl ?_
          simp only [Bool.or_eq_true, Bool.and_eq_true, beq_iff_eq]
          refine Or.inr ⟨⟨by simpa using h3, ?_⟩, ?_⟩
          · rw [h1, Nat.add_zero, Nat.mod_eq_of_lt hc]
          · rw [h2, Nat.add_zero, Nat.mod_eq_of_lt hc]
        | succ j =>
          refine Or.inr ⟨j, by simp only [List.length_cons] at hj; omega,
            ?_, ?_, by simpa using h3⟩
          · rw [h1, hshift j, show c + 1 + j = c + (j + 1) by omega]
          · rw [h2, hshift j, show c + 1 + j = c + (j + 1) by omega]

/-- C3 (counterexample): on `gameN2` (one assumption, two guarantees, total
transitions) the code's Rule-3 component contains the self-loop of the single
state with memory `0` staying at memory `0`, and contains no transition whose
memory advances to `1 = (0+1) mod 2`; the claim instead requires every
Rule-3 transition to advance the memory and to lead into `X[j][r][i-1]`,
which for the only assumption index `i = 0` is the empty set, so the claimed
Rule-3 set contains no transition at all. -/
theorem c3_rho3_counterexample :
    calcWinningRegion gameN2 6 =
      some ([([[Finset.univ]], [Finset.univ]), ([[Finset.univ]], [Finset.univ])],
        Finset.univ) ∧
    reachableStates gameN2 (init12 gameN2) Finset.univ 6 = some Finset.univ ∧
    calcRho3 gameN2 miniTriv Finset.univ [[[Finset.univ]], [[Finset.univ]]]
      st0 0 st0 0 = true ∧
    st0 ∉ (∅ : Finset (Fin 1 × Fin 1)) ∧
    ¬ (∀ (s : Fin 1 × Fin 1) (jx : Nat) (s' : Fin 1 × Fin 1) (jx' : Nat),
        calcRho3 gameN2 miniTriv Finset.univ [[[Finset.univ]], [[Finset.univ]]]
          s jx s' jx' = true → jx' = (jx + 1) % 2) :=
  ⟨by rfl, by rfl, by rfl, by simp,
    fun h => absurd (h st0 0 st0 0 (by rfl)) (by omega)⟩

/-- C3 (amended): on reachable present states, and for any RESTRICT operator
satisfying its agreement contract, the Rule-3 component contains exactly the
transitions for which there are `j`, `r` and `i` (the latter indexing the
zip of the row `X[j][r]` with the assumption list) such that the memory
equals `j` and stays at `j`, the move is a combined transition, the present
state lies in `X[j][r][i]` but in no lexicographically earlier slot of the
same guarantee (union of all complete earlier rows and of the earlier entries
of the same row), `¬assumption[i]` holds at the present state, and the move
leads into `X[j][r][i]` itself. -/
theorem c3_rho3_amended (g : Game I O)
    (mini : Finset (I × O) → Finset (I × O) → Finset (I × O)) (hm : MiniOk mini)
    (rs : Finset (I × O)) (xarr : List (List (List (Finset (I × O)))))
    (hlen : xarr.length = g.guarantees.length)
    (s : I × O) (hs : s ∈ rs) (jx : Nat) (s' : I × O) (jx' : Nat) :
    calcRho3 g mini rs xarr s jx s' jx' = true ↔
      ∃ j < xarr.length, jx = j ∧ jx' = j ∧ trans12 g s s' = true ∧
        ∃ r < (xarr.getD j []).length,
          ∃ i < (((xarr.getD j []).getD r []).zip g.assumptions).length,
            s ∈ ((((xarr.getD j []).getD r []).zip g.assumptions).getD i (∅, ∅)).1 ∧
            s ∉ unionList (((xarr.getD j []).take r).map fun row =>
              unionList ((row.zip g.assumptions).map fun p => p.1)) ∧
            s ∉ unionList (((((xarr.getD j []).getD r []).zip g.assumptions).take i).map
              fun p => p.1) ∧
            s ∉ ((((xarr.getD j []).getD r []).zip g.assumptions).getD i (∅, ∅)).2 ∧
            s' ∈ ((((xarr.getD j []).getD r []).zip g.assumptions).getD i (∅, ∅)).1 := by
  rcases List.eq_nil_or_concat xarr with hnil | ⟨_, _, hconcat⟩
  · subst hnil
    simp [calcRho3, rho3Fold, emptyMemRel]
  · have hn : 0 < g.guarantees.length := by
      rw [← hlen, hconcat]
      simp
    simp only [calcRho3, Bool.and_eq_true]
    rw [rho3Fold_spec g.guarantees.length mini rs g.assumptions xarr 0 hn
      (emptyMemRel) s jx s' jx']
    simp only [emptyMemRel, Bool.false_eq_true, false_or, Nat.zero_add]
    constructor
    · rintro ⟨⟨j, hj, h1, h2, h3⟩, hT⟩
      have hjn : j < g.guarantees.length := hlen ▸ hj
      rw [Nat.mod_eq_of_lt hjn] at h1 h2
      obtain ⟨_, hiff⟩ := rho3RowsGo_spec hm rs g.assumptions (xarr.getD j []) ∅
        (fun _ _ => false)
      rw [hiff s s' hs] at h3
      rcases h3 with h3 | ⟨r, hr, k, hk, hc1, _, hc3, hc4, hc5, hc6⟩
      · exact absurd h3 (by simp)
      · exact ⟨j, hj, h1, h2, hT, r, hr, k, hk, hc1, hc3, hc4, hc5, hc6⟩
    · rintro ⟨j, hj, h1, h2, hT, r, hr, k, hk, hc1, hc3, hc4, hc5, hc6⟩
      have hjn : j < g.guarantees.length := hlen ▸ hj
      refine ⟨⟨j, hj, by rw [Nat.mod_eq_of_lt hjn]; exact h1,
        by rw [Nat.mod_eq_of_lt hjn]; exact h2, ?_⟩, hT⟩
      obtain ⟨_, hiff⟩ := rho3RowsGo_spec hm rs g.assumptions (xarr.getD j []) ∅
        (fun _ _ => false)
      rw [hiff s s' hs]
      exact Or.inr ⟨r, hr, k, hk, hc1, by simp, hc3, hc4, hc5, hc6⟩

/-- Witness for the amended C3 on `gameN2`. -/
theorem c3_rho3_amended_witness :
    calcRho3 gameN2 miniTriv Finset.univ [[[Finset.univ]], [[Finset.univ]]]
      st0 0 st0 0 = true :=
  (c3_rho3_amended gameN2 miniTriv (fun _ _ => rfl) Finset.univ
      [[[Finset.univ]], [[Finset.univ]]] (by rfl) st0 (by decide) 0 st0 0).mpr
    ⟨0, by decide, rfl, rfl, by decide, 0, by decide, 0, by decide, by decide,
      by simp [unionList], by simp [unionList], by decide, by decide⟩

/-! ### Claim C5: games without assumptions -/

theorem yStep_no_assumptions (g : Game I O) (gj z y : Finset (I × O)) (fuel : Nat)
    (hm : g.assumptions = []) : yStep g gj z y fuel = some ([], ∅) := by
  simp [yStep, hm, assumptionFold]

theorem yLoopGo_no_assumptions (g : Game I O) (gj z : Finset (I × O)) (fuel : Nat)
    (hm : g.assumptions = []) :
    ∀ (f : Nat) (old y : Finset (I × O)) (axs : List (List (Finset (I × O))))
      (ays : List (Finset (I × O))) (res),
      yLoopGo g gj z fuel old y axs ays f = some res → (res.2.2 = y ∨ res.2.2 = ∅) := by
  intro f
  induction f with
  | zero => intro old y axs ays res h; exact absurd h (by simp [yLoopGo])
  | succ f ih =>
    intro old y axs ays res h
    simp only [yLoopGo] at h
    by_cases hy : y = old
    · simp only [if_pos hy, Option.some.injEq] at h
      subst h
      exact Or.inl rfl
    · rw [if_neg hy, yStep_no_assumptions g gj z y fuel hm] at h
      rcases ih y ∅ (axs ++ [[]]) (ays ++ [∅]) res h with h2 | h2 <;>
        exact Or.inr h2

theorem roundGo_no_assumptions (g : Game I O) (fuel : Nat)
    (hm : g.assumptions = []) :
    ∀ (gs : List (Finset (I × O))) (z : Finset (I × O)) (acc : Trace I O) (res),
      roundGo g fuel gs z acc = some res → (gs = [] ∧ res.2 = z) ∨ res.2 = ∅ := by
  intro gs
  induction gs with
  | nil =>
    intro z acc res h
    simp only [roundGo, Option.some.injEq] at h
    exact Or.inl ⟨rfl, by rw [← h]⟩
  | cons gj rest ih =>
    intro z acc res h
    simp only [roundGo] at h
    rcases hp : processGuarantee g z gj fuel with _ | ⟨tj, z'⟩
    · rw [hp] at h
      exact absurd h (by simp)
    · rw [hp] at h
      have hz' : z' = ∅ := by
        simp only [processGuarantee, Option.map_eq_some'] at hp
        obtain ⟨r, hr, hr2⟩ := hp
        have h4 : r.2.2 = z' := congrArg Prod.snd hr2
        rcases yLoopGo_no_assumptions g gj z fuel hm fuel Finset.univ ∅ [] [] r hr with
          h2 | h2
        · rw [← h4]; exact h2
        · rw [← h4]; exact h2
      subst hz'
      rcases ih ∅ (acc ++ [tj]) res h with ⟨_, h2⟩ | h2
      · exact Or.inr h2
      · exact Or.inr h2

theorem zLoopGo_empty_no_assumptions (g : Game I O) (fuel : Nat)
    (hm : g.assumptions = []) (hg : g.guarantees ≠ []) :
    ∀ (f : Nat) (old : Finset (I × O)) (tr : Trace I O) (res),
      zLoopGo g fuel old ∅ tr f = some res → res.2 = ∅ := by
  intro f
  induction f with
  | zero => intro old tr res h; exact absurd h (by simp [zLoopGo])
  | succ f ih =>
    intro old tr res h
    simp only [zLoopGo] at h
    by_cases hz : (∅ : Finset (I × O)) = old
    · simp only [if_pos hz, Option.some.injEq] at h
      rw [← h]
    · rw [if_neg hz] at h
      rcases hp : roundStep g fuel ∅ with _ | ⟨tr', z'⟩
      · rw [hp] at h; exact absurd h (by simp)
      · rw [hp] at h
        have hz' : z' = ∅ := by
          rcases roundGo_no_assumptions g fuel hm g.guarantees ∅ [] (tr', z') hp with
            ⟨hnil, _⟩ | h2
          · exact absurd hnil hg
          · exact h2
        subst hz'
        exact ih ∅ tr' res h

theorem calc_no_assumptions_empty (g : Game I O) (fuel : Nat) (tr : Trace I O)
    (w : Finset (I × O)) (hm : g.assumptions = []) (hg : g.guarantees ≠ [])
    (h : calcWinningRegion g fuel = some (tr, w)) : w = ∅ := by
  rcases fuel with _ | f
  · exact absurd h (by simp [calcWinningRegion, zLoopGo])
  · simp only [calcWinningRegion, zLoopGo] at h
    by_cases hz : (Finset.univ : Finset (I × O)) = ∅
    · simp only [if_pos hz, Option.some.injEq, Prod.mk.injEq] at h
      rw [← h.2]
      exact hz
    · rw [if_neg hz] at h
      rcases hp : roundStep g (f + 1) Finset.univ with _ | ⟨tr', z'⟩
      · rw [hp] at h; exact absurd h (by simp)
      · rw [hp] at h
        have hz' : z' = ∅ := by
          rcases roundGo_no_assumptions g (f + 1) hm g.guarantees Finset.univ [] (tr', z')
            hp with ⟨hnil, _⟩ | h2
          · exact absurd hnil hg
          · exact h2
        subst hz'
        exact zLoopGo_empty_no_assumptions g (f + 1) hm hg f Finset.univ tr' (tr, w) h

/-- C5 (amended): with `m = 0` assumptions and at least one guarantee, the
inner `for i` loop never executes, so every `Y` iterate stays empty and the
converged winning region is the empty set — not `Z` as the claim states. -/
theorem c5_no_assumptions_amended (g : Game I O) (fuel : Nat) (tr : Trace I O)
    (w : Finset (I × O)) (hm : g.assumptions = []) (hg : g.guarantees ≠ [])
    (h : calcWinningRegion g fuel = some (tr, w)) : w = ∅ :=
  calc_no_assumptions_empty g fuel tr w hm hg h

/-- Witness for the amended C5 on `gameM0`. -/
theorem c5_no_assumptions_amended_witness :
    calcWinningRegion gameM0 6 = some ([([], [])], ∅) ∧
      (∅ : Finset (Fin 1 × Fin 1)) = ∅ :=
  ⟨by rfl, c5_no_assumptions_amended gameM0 6 [([], [])] ∅ rfl (by decide) (by rfl)⟩

/-- C5 (counterexample): on `gameM0` (`m = 0`, one guarantee, one state, total
transitions) the first `Y` iteration at round value `Z = ALL_STATES`
contributes nothing (`Y` becomes `∅` with an empty `X` row, not `Z`), and the
solver's result is `∅`, not a reflection of `X = Z`. -/
theorem c5_counterexample :
    yStep gameM0 Finset.univ Finset.univ (∅ : Finset (Fin 1 × Fin 1)) 6 =
      some ([], ∅) ∧
    calcWinningRegion gameM0 6 = some ([([], [])], ∅) ∧
    (∅ : Finset (Fin 1 × Fin 1)) ≠ Finset.univ :=
  ⟨by rfl, by rfl, by decide⟩

/-! ### Monotonicity and invariant machinery for the nested fixpoints -/

theorem coax_mono (g : Game I O) {s t : Finset (I × O)} (h : s ⊆ t) :
    coax g s ⊆ coax g t := by
  intro a ha
  simp only [coax, Finset.mem_filter, Finset.mem_univ, true_and] at ha ⊢
  intro i hi
  obtain ⟨o, ho, hmem⟩ := ha i hi
  exact ⟨o, ho, h hmem⟩

theorem xStep_mono (g : Game I O) {start start' a x x' : Finset (I × O)}
    (hs : start ⊆ start') (hx : x ⊆ x') :
    xStep g start a x ⊆ xStep g start' a x' :=
  Finset.union_subset_union hs
    (Finset.inter_subset_inter (Finset.Subset.refl _) (coax_mono g hx))

theorem xStep_subset (g : Game I O) {start a z x : Finset (I × O)}
    (hz : GoodZ g z) (hs : start ⊆ z) (hx : x ⊆ z) : xStep g start a x ⊆ z := by
  refine Finset.union_subset hs ?_
  refine Finset.Subset.trans (Finset.inter_subset_right) ?_
  exact Finset.Subset.trans (coax_mono g hx) hz.2

theorem xIter_subset (g : Game I O) {start a z : Finset (I × O)}
    (hz : GoodZ g z) (hs : start ⊆ z) :
    ∀ t, (xStep g start a)^[t] z ⊆ z := by
  intro t
  induction t with
  | zero => simp
  | succ t ih =>
    rw [Function.iterate_succ_apply']
    exact xStep_subset g hz hs ih

theorem xIter_antitone (g : Game I O) {start a z : Finset (I × O)}
    (hz : GoodZ g z) (hs : start ⊆ z) :
    ∀ t, (xStep g start a)^[t + 1] z ⊆ (xStep g start a)^[t] z := by
  intro t
  induction t with
  | zero =>
    simp only [Function.iterate_one, Function.iterate_zero_apply]
    exact xStep_subset g hz hs (Finset.Subset.refl z)
  | succ t ih =>
    have e1 : (xStep g start a)^[t + 1 + 1] z =
        xStep g start a ((xStep g start a)^[t + 1] z) :=
      Function.iterate_succ_apply' _ _ _
    have e2 : (xStep g start a)^[t + 1] z =
        xStep g start a ((xStep g start a)^[t] z) :=
      Function.iterate_succ_apply' _ _ _
    rw [e1]
    conv_rhs => rw [e2]
    exact xStep_mono g (Finset.Subset.refl _) ih

theorem xIter_mono_pair (g : Game I O) {start start' a z z' : Finset (I × O)}
    (hs : start ⊆ start') (hzz : z ⊆ z') :
    ∀ t, (xStep g start a)^[t] z ⊆ (xStep g start' a)^[t] z' := by
  intro t
  induction t with
  | zero => simpa
  | succ t ih =>
    rw [Function.iterate_succ_apply', Function.iterate_succ_apply']
    exact xStep_mono g hs ih

theorem iterate_stable_after {α : Type} (F : α → α) (x : α) (k : Nat)
    (hfix : F (F^[k] x) = F^[k] x) :
    ∀ t, k ≤ t → F^[t] x = F^[k] x := by
  intro t ht
  obtain ⟨d, rfl⟩ := Nat.exists_eq_add_of_le ht
  rw [Nat.add_comm, Function.iterate_add_apply]
  exact Function.iterate_fixed hfix d

theorem xLoop_some_spec (g : Game I O) {start a z x : Finset (I × O)} {fuel : Nat}
    (hz : GoodZ g z) (hs : start ⊆ z)
    (h : xLoop g start a z fuel = some x) :
    xStep g start a x = x ∧ ∃ k, x = (xStep g start a)^[k] z := by
  by_cases hzero : z = (∅ : Finset (I × O))
  · subst hzero
    have hempty : xStep g start a ∅ = ∅ := by
      refine Finset.subset_empty.mp ?_
      exact xStep_subset g hz hs (Finset.Subset.refl _)
    have hval : x = ∅ := by
      rcases fuel with _ | f
      · exact absurd h (by simp [xLoop, bddLoop])
      · have hred : bddLoop (xStep g start a) ∅ ∅ (f + 1) = some ∅ := by
          simp [bddLoop]
        rw [xLoop, hred] at h
        injection h with h2
        exact h2.symm
    subst hval
    exact ⟨hempty, 0, rfl⟩
  · rcases fuel with _ | f
    · exact absurd h (by simp [xLoop, bddLoop])
    · rw [xLoop, bddLoop_ne _ _ _ _ _ hzero] at h
      exact ⟨doWhile_fix _ _ _ _ h, doWhile_iterate _ _ _ _ h⟩

theorem xLoop_some_subset (g : Game I O) {start a z x : Finset (I × O)} {fuel : Nat}
    (hz : GoodZ g z) (hs : start ⊆ z)
    (h : xLoop g start a z fuel = some x) : x ⊆ z := by
  obtain ⟨_, k, rfl⟩ := xLoop_some_spec g hz hs h
  exact xIter_subset g hz hs k

theorem xLoop_some_start_subset (g : Game I O) {start a z x : Finset (I × O)}
    {fuel : Nat} (hz : GoodZ g z) (hs : start ⊆ z)
    (h : xLoop g start a z fuel = some x) : start ⊆ x := by
  obtain ⟨hfix, _⟩ := xLoop_some_spec g hz hs h
  rw [← hfix]
  exact Finset.subset_union_left

theorem xLoop_mono (g : Game I O) {start start' a z z' x x' : Finset (I × O)}
    {fuel fuel' : Nat} (hz : GoodZ g z) (hz' : GoodZ g z')
    (hs : start ⊆ z) (hs' : start' ⊆ z') (hss : start ⊆ start') (hzz : z ⊆ z')
    (h : xLoop g start a z fuel = some x) (h' : xLoop g start' a z' fuel' = some x') :
    x ⊆ x' := by
  obtain ⟨hfix, k, hk⟩ := xLoop_some_spec g hz hs h
  obtain ⟨hfix', k', hk'⟩ := xLoop_some_spec g hz' hs' h'
  have h1 : x = (xStep g start a)^[k + k'] z := by
    rw [hk]
    exact (iterate_stable_after _ z k (hk ▸ hfix) (k + k') (by omega)).symm
  have h2 : x' = (xStep g start' a)^[k + k'] z' := by
    rw [hk']
    exact (iterate_stable_after _ z' k' (hk' ▸ hfix') (k + k') (by omega)).symm
  rw [h1, h2]
  exact xIter_mono_pair g hss hzz (k + k')

theorem foldl_union_mono :
    ∀ {xs xs' : List (Finset (I × O))}, List.Forall₂ (· ⊆ ·) xs xs' →
      ∀ {y y' : Finset (I × O)}, y ⊆ y' →
        xs.foldl (fun acc x => acc ∪ x) y ⊆ xs'.foldl (fun acc x => acc ∪ x) y' := by
  intro xs xs' hf
  induction hf with
  | nil => intro y y' h; simpa using h
  | cons hx _ ih =>
    intro y y' h
    exact ih (Finset.union_subset_union h hx)

theorem foldl_union_subset_of (z : Finset (I × O)) :
    ∀ {xs : List (Finset (I × O))} {y : Finset (I × O)},
      (∀ x ∈ xs, x ⊆ z) → y ⊆ z → xs.foldl (fun acc x => acc ∪ x) y ⊆ z := by
  intro xs y hxs hy a ha
  rw [mem_foldl_union] at ha
  rcases ha with ha | ⟨x, hx, ha⟩
  · exact hy ha
  · exact hxs x hx ha

theorem subset_foldl_union_of_mem {xs : List (Finset (I × O))}
    {x : Finset (I × O)} (hx : x ∈ xs) (y : Finset (I × O)) :
    x ⊆ xs.foldl (fun acc x => acc ∪ x) y := by
  intro a ha
  rw [mem_foldl_union]
  exact Or.inr ⟨x, hx, ha⟩

theorem assumptionFold_spec (runX : Finset (I × O) → Option (Finset (I × O))) :
    ∀ (as accX : List (Finset (I × O))) (y : Finset (I × O))
      (AX : List (Finset (I × O))) (Y : Finset (I × O)),
      assumptionFold runX as accX y = some (AX, Y) →
      ∃ xs, AX = accX ++ xs ∧
        List.Forall₂ (fun a x => runX a = some x) as xs ∧
        Y = xs.foldl (fun acc x => acc ∪ x) y := by
  intro as
  induction as with
  | nil =>
    intro accX y AX Y h
    simp only [assumptionFold, Option.some.injEq, Prod.mk.injEq] at h
    exact ⟨[], by simp [← h.1], List.Forall₂.nil, by simp [← h.2]⟩
  | cons a rest ih =>
    intro accX y AX Y h
    simp only [assumptionFold] at h
    rcases hx : runX a with _ | x
    · rw [hx] at h; exact absurd h (by simp)
    · rw [hx] at h
      obtain ⟨xs, h1, h2, h3⟩ := ih (accX ++ [x]) (y ∪ x) AX Y h
      exact ⟨x :: xs, by simp [h1], List.Forall₂.cons hx h2, by simpa using h3⟩

theorem yStep_spec (g : Game I O) (gj z y : Finset (I × O)) (fuel : Nat)
    {xs : List (Finset (I × O))} {yr : Finset (I × O)}
    (h : yStep g gj z y fuel = some (xs, yr)) :
    List.Forall₂ (fun a x => xLoop g (seedOf g gj z y) a z fuel = some x)
      g.assumptions xs ∧
    yr = xs.foldl (fun acc x => acc ∪ x) ∅ := by
  obtain ⟨xs', h1, h2, h3⟩ := assumptionFold_spec _ g.assumptions [] ∅ xs yr h
  simp only [List.nil_append] at h1
  subst h1
  exact ⟨h2, h3⟩

theorem seedOf_subset (g : Game I O) {gj z y : Finset (I × O)}
    (hz : GoodZ g z) (hy : y ⊆ z) : seedOf g gj z y ⊆ z := by
  refine Finset.union_subset ?_ ?_
  · exact Finset.Subset.trans Finset.inter_subset_right hz.2
  · exact Finset.Subset.trans (coax_mono g hy) hz.2

theorem seedOf_mono (g : Game I O) {gj z z' y y' : Finset (I × O)}
    (hzz : z ⊆ z') (hyy : y ⊆ y') : seedOf g gj z y ⊆ seedOf g gj z' y' :=
  Finset.union_subset_union
    (Finset.inter_subset_inter (Finset.Subset.refl _) (coax_mono g hzz))
    (coax_mono g hyy)

theorem forall₂_mem_right {α β : Type} {R : α → β → Prop} :
    ∀ {l₁ : List α} {l₂ : List β}, List.Forall₂ R l₁ l₂ →
      ∀ b ∈ l₂, ∃ a ∈ l₁, R a b := by
  intro l₁ l₂ h
  induction h with
  | nil => intro b hb; cases hb
  | cons hR _ ih =>
    intro b hb
    rcases List.mem_cons.mp hb with rfl | hb
    · exact ⟨_, List.mem_cons_self _ _, hR⟩
    · obtain ⟨a, ha, hab⟩ := ih b hb
      exact ⟨a, List.mem_cons_of_mem _ ha, hab⟩

theorem yStep_subsets (g : Game I O) {gj z y : Finset (I × O)} {fuel : Nat}
    {xs : List (Finset (I × O))} {yr : Finset (I × O)}
    (hz : GoodZ g z) (hy : y ⊆ z) (h : yStep g gj z y fuel = some (xs, yr)) :
    (∀ x ∈ xs, x ⊆ z) ∧ yr ⊆ z := by
  obtain ⟨hf, hfold⟩ := yStep_spec g gj z y fuel h
  have hseed : seedOf g gj z y ⊆ z := seedOf_subset g hz hy
  have hmem : ∀ x ∈ xs, x ⊆ z := by
    intro x hx
    obtain ⟨a, _, hax⟩ := forall₂_mem_right hf x hx
    exact xLoop_some_subset g hz hseed hax
  exact ⟨hmem, hfold ▸ foldl_union_subset_of z hmem (by simp)⟩

theorem forall₂_pair {α β : Type} {P Q : α → β → Prop} {R : β → β → Prop}
    (hpq : ∀ a b b', P a b → Q a b' → R b b') :
    ∀ {l : List α} {l₁ l₂ : List β}, List.Forall₂ P l l₁ → List.Forall₂ Q l l₂ →
      List.Forall₂ R l₁ l₂ := by
  intro l
  induction l with
  | nil =>
    intro l₁ l₂ h1 h2
    cases h1
    cases h2
    exact List.Forall₂.nil
  | cons a rest ih =>
    intro l₁ l₂ h1 h2
    cases h1 with
    | cons hab h1x =>
      cases h2 with
      | cons hab2 h2x =>
        exact List.Forall₂.cons (hpq _ _ _ hab hab2) (ih h1x h2x)

theorem yStep_mono_general (g : Game I O) {gj z z' y y' : Finset (I × O)}
    {fuel fuel' : Nat} (hz : GoodZ g z) (hz' : GoodZ g z') (hzz : z ⊆ z')
    (hy : y ⊆ z) (hy' : y' ⊆ z') (hyy : y ⊆ y')
    {xs xs' : List (Finset (I × O))} {yr yr' : Finset (I × O)}
    (h : yStep g gj z y fuel = some (xs, yr))
    (h' : yStep g gj z' y' fuel' = some (xs', yr')) :
    List.Forall₂ (· ⊆ ·) xs xs' ∧ yr ⊆ yr' := by
  obtain ⟨hf, hfold⟩ := yStep_spec g gj z y fuel h
  obtain ⟨hf', hfold'⟩ := yStep_spec g gj z' y' fuel' h'
  have hforall : List.Forall₂ (· ⊆ ·) xs xs' := by
    refine forall₂_pair (fun a x x' hP hQ => ?_) hf hf'
    exact xLoop_mono g hz hz' (seedOf_subset g hz hy) (seedOf_subset g hz' hy')
      (seedOf_mono g hzz hyy) hzz hP hQ
  exact ⟨hforall, hfold ▸ hfold' ▸ foldl_union_mono hforall (Finset.Subset.refl ∅)⟩

theorem ySeq_succ_inv (g : Game I O) (gj z : Finset (I × O)) (fuel : Nat)
    {r : Nat} {yr : Finset (I × O)} (h : ySeqO g gj z fuel (r + 1) = some yr) :
    ∃ y xs, ySeqO g gj z fuel r = some y ∧ yStep g gj z y fuel = some (xs, yr) := by
  simp only [ySeqO, Option.bind_eq_some, Option.map_eq_some'] at h
  obtain ⟨y, hy, p, hp, hval⟩ := h
  exact ⟨y, p.1, hy, by rw [hp, ← hval]⟩

theorem ySeq_subset (g : Game I O) {gj z : Finset (I × O)} {fuel : Nat}
    (hz : GoodZ g z) : ∀ (r : Nat) {y : Finset (I × O)},
      ySeqO g gj z fuel r = some y → y ⊆ z := by
  intro r
  induction r with
  | zero =>
    intro y h
    simp only [ySeqO, Option.some.injEq] at h
    rw [← h]
    simp
  | succ r ih =>
    intro y h
    obtain ⟨y0, xs, h0, hstep⟩ := ySeq_succ_inv g gj z fuel h
    exact (yStep_subsets g hz (ih h0) hstep).2

theorem ySeq_mono_idx (g : Game I O) {gj z z' : Finset (I × O)} {fuel fuel' : Nat}
    (hz : GoodZ g z) (hz' : GoodZ g z') (hzz : z ⊆ z') :
    ∀ (r : Nat) {y y' : Finset (I × O)},
      ySeqO g gj z fuel r = some y → ySeqO g gj z' fuel' r = some y' → y ⊆ y' := by
  intro r
  induction r with
  | zero =>
    intro y y' h h'
    simp only [ySeqO, Option.some.injEq] at h h'
    rw [← h, ← h']
  | succ r ih =>
    intro y y' h h'
    obtain ⟨y0, xs, h0, hstep⟩ := ySeq_succ_inv g gj z fuel h
    obtain ⟨y0', xs', h0', hstep'⟩ := ySeq_succ_inv g gj z' fuel' h'
    exact (yStep_mono_general g hz hz' hzz (ySeq_subset g hz r h0)
      (ySeq_subset g hz' r h0') (ih h0 h0') hstep hstep').2

theorem ySeq_mono_succ (g : Game I O) {gj z : Finset (I × O)} {fuel : Nat}
    (hz : GoodZ g z) : ∀ (r : Nat) {y y' : Finset (I × O)},
      ySeqO g gj z fuel r = some y → ySeqO g gj z fuel (r + 1) = some y' → y ⊆ y' := by
  intro r
  induction r with
  | zero =>
    intro y y' h _
    simp only [ySeqO, Option.some.injEq] at h
    rw [← h]
    simp
  | succ r ih =>
    intro y y' h h'
    obtain ⟨y0, xs, h0, hstep⟩ := ySeq_succ_inv g gj z fuel h
    obtain ⟨y1, xs', h1, hstep'⟩ := ySeq_succ_inv g gj z fuel h'
    rw [h] at h1
    injection h1 with h1
    subst h1
    exact (yStep_mono_general g hz hz (Finset.Subset.refl z)
      (ySeq_subset g hz r h0) (ySeq_subset g hz (r + 1) h)
      (ih h0 h) hstep hstep').2

theorem ySeq_stable (g : Game I O) (gj z : Finset (I × O)) (fuel : Nat)
    {T : Nat} {yc : Finset (I × O)} (h1 : ySeqO g gj z fuel T = some yc)
    (h2 : ySeqO g gj z fuel (T + 1) = some yc) :
    ∀ d, ySeqO g gj z fuel (T + d) = some yc := by
  have hstep : (yStep g gj z yc fuel).map (fun p => p.2) = some yc := by
    simp only [ySeqO, h1, Option.some_bind] at h2
    exact h2
  intro d
  induction d with
  | zero => exact h1
  | succ d ih =>
    have : T + (d + 1) = (T + d) + 1 := by omega
    rw [this]
    simp only [ySeqO, ih, Option.some_bind]
    exact hstep

theorem yLoopGo_seq_aux (g : Game I O) (gj z : Finset (I × O)) (fuel : Nat) :
    ∀ (f r : Nat) (old y : Finset (I × O)) (axs : List (List (Finset (I × O))))
      (ays : List (Finset (I × O))) (res),
      ySeqO g gj z fuel r = some y →
      (r = 0 → old = Finset.univ) →
      (∀ r0, r = r0 + 1 → ySeqO g gj z fuel r0 = some old) →
      yLoopGo g gj z fuel old y axs ays f = some res →
      ∃ T, ySeqO g gj z fuel T = some res.2.2 ∧
        ySeqO g gj z fuel (T + 1) = some res.2.2 := by
  intro f
  induction f with
  | zero =>
    intro r old y axs ays res _ _ _ h
    exact absurd h (by simp [yLoopGo])
  | succ f ih =>
    intro r old y axs ays res hy h0 h1 h
    simp only [yLoopGo] at h
    by_cases hyo : y = old
    · simp only [if_pos hyo, Option.some.injEq] at h
      subst h
      cases r with
      | zero =>
        have hne : (Finset.univ : Finset (I × O)).Nonempty := Finset.univ_nonempty
        have : y = Finset.univ := hyo.trans (by rw [h0 rfl])
        simp only [ySeqO, Option.some.injEq] at hy
        rw [← hy] at this
        exact absurd this.symm (Finset.nonempty_iff_ne_empty.mp hne)
      | succ r0 =>
        refine ⟨r0, ?_, ?_⟩
        · rw [h1 r0 rfl, hyo]
        · exact hy
    · rw [if_neg hyo] at h
      rcases hs : yStep g gj z y fuel with _ | ⟨xs, y'⟩
      · rw [hs] at h; exact absurd h (by simp)
      · rw [hs] at h
        have hy' : ySeqO g gj z fuel (r + 1) = some y' := by
          simp only [ySeqO, hy, Option.some_bind, hs, Option.map_some']
        exact ih (r + 1) y y' (axs ++ [xs]) (ays ++ [y']) res hy'
          (by omega) (fun r0 hr0 => by
            have : r0 = r := by omega
            rw [this]
            exact hy) h

theorem yLoop_some_seq (g : Game I O) (gj z : Finset (I × O)) (fuel : Nat)
    {res} (h : yLoop g gj z fuel = some res) :
    ∃ T, ySeqO g gj z fuel T = some res.2.2 ∧
      ySeqO g gj z fuel (T + 1) = some res.2.2 :=
  yLoopGo_seq_aux g gj z fuel fuel 0 Finset.univ ∅ [] [] res (by simp [ySeqO])
    (fun _ => rfl) (fun r0 hr0 => by omega) h

theorem yRegion_some_seq (g : Game I O) (gj z : Finset (I × O)) (fuel : Nat)
    {yc : Finset (I × O)} (h : yRegion g gj z fuel = some yc) :
    ∃ T, ySeqO g gj z fuel T = some yc ∧ ySeqO g gj z fuel (T + 1) = some yc := by
  simp only [yRegion, Option.map_eq_some'] at h
  obtain ⟨res, hres, hval⟩ := h
  rw [← hval]
  exact yLoop_some_seq g gj z fuel hres

theorem yRegion_subset (g : Game I O) {gj z : Finset (I × O)} {fuel : Nat}
    {yc : Finset (I × O)} (hz : GoodZ g z) (h : yRegion g gj z fuel = some yc) :
    yc ⊆ z := by
  obtain ⟨T, h1, _⟩ := yRegion_some_seq g gj z fuel h
  exact ySeq_subset g hz T h1

theorem yRegion_fix (g : Game I O) {gj z : Finset (I × O)} {fuel : Nat}
    {yc : Finset (I × O)} (h : yRegion g gj z fuel = some yc) :
    ∃ xs, yStep g gj z yc fuel = some (xs, yc) := by
  obtain ⟨T, h1, h2⟩ := yRegion_some_seq g gj z fuel h
  obtain ⟨y0, xs, h0, hstep⟩ := ySeq_succ_inv g gj z fuel h2
  rw [h1] at h0
  injection h0 with h0
  subst h0
  exact ⟨xs, hstep⟩

theorem yRegion_good (g : Game I O) {gj z : Finset (I × O)} {fuel : Nat}
    {yc : Finset (I × O)} (hz : GoodZ g z) (hm : g.assumptions ≠ [])
    (h : yRegion g gj z fuel = some yc) : GoodZ g yc := by
  obtain ⟨xs, hstep⟩ := yRegion_fix g h
  obtain ⟨hf, hfold⟩ := yStep_spec g gj z yc fuel hstep
  have hycz : yc ⊆ z := yRegion_subset g hz h
  have hseed : seedOf g gj z yc ⊆ z := seedOf_subset g hz hycz
  have hxs_ne : xs ≠ [] := by
    intro hnil
    subst hnil
    exact hm (List.forall₂_nil_right_iff.mp hf)
  obtain ⟨x0, hx0⟩ := List.exists_mem_of_ne_nil xs hxs_ne
  obtain ⟨a0, _, hax⟩ := forall₂_mem_right hf x0 hx0
  have hstart : seedOf g gj z yc ⊆ x0 := xLoop_some_start_subset g hz hseed hax
  have hx0yc : x0 ⊆ yc := hfold ▸ subset_foldl_union_of_mem hx0 ∅
  have hcoax : coax g yc ⊆ yc := by
    refine Finset.Subset.trans ?_ (Finset.Subset.trans hstart hx0yc)
    exact Finset.subset_union_right
  exact ⟨Finset.Subset.trans (coax_mono g (Finset.empty_subset yc)) hcoax, hcoax⟩

theorem yRegion_mono (g : Game I O) {gj z z' : Finset (I × O)} {fuel fuel' : Nat}
    {yc yc' : Finset (I × O)} (hz : GoodZ g z) (hz' : GoodZ g z') (hzz : z ⊆ z')
    (h : yRegion g gj z fuel = some yc) (h' : yRegion g gj z' fuel' = some yc') :
    yc ⊆ yc' := by
  obtain ⟨T, h1, h2⟩ := yRegion_some_seq g gj z fuel h
  obtain ⟨T', h1', h2'⟩ := yRegion_some_seq g gj z' fuel' h'
  have hA : ySeqO g gj z fuel (T + T') = some yc := ySeq_stable g gj z fuel h1 h2 T'
  have hB : ySeqO g gj z' fuel' (T' + T) = some yc' := ySeq_stable g gj z' fuel' h1' h2' T
  rw [Nat.add_comm T' T] at hB
  exact ySeq_mono_idx g hz hz' hzz (T + T') hA hB

theorem ySeq_no_assumptions (g : Game I O) (gj z : Finset (I × O)) (fuel : Nat)
    (hm : g.assumptions = []) :
    ∀ (r : Nat) {y : Finset (I × O)}, ySeqO g gj z fuel r = some y → y = ∅ := by
  intro r
  induction r with
  | zero =>
    intro y h
    simp only [ySeqO, Option.some.injEq] at h
    exact h.symm
  | succ r ih =>
    intro y h
    obtain ⟨y0, xs, h0, hstep⟩ := ySeq_succ_inv g gj z fuel h
    rw [yStep_no_assumptions g gj z y0 fuel hm] at hstep
    injection hstep with hstep
    exact (congrArg Prod.snd hstep).symm

theorem yRegion_no_assumptions (g : Game I O) {gj z : Finset (I × O)} {fuel : Nat}
    {yc : Finset (I × O)} (hm : g.assumptions = [])
    (h : yRegion g gj z fuel = some yc) : yc = ∅ := by
  obtain ⟨T, h1, _⟩ := yRegion_some_seq g gj z fuel h
  exact ySeq_no_assumptions g gj z fuel hm T h1

theorem yRegion_inv (g : Game I O) {gj z : Finset (I × O)} {fuel : Nat}
    {yc : Finset (I × O)} (hInv : Inv g z) (h : yRegion g gj z fuel = some yc) :
    Inv g yc := by
  rcases hInv with hm | hz
  · exact Or.inl hm
  · rcases List.eq_nil_or_concat g.assumptions with hm | ⟨_, _, _⟩
    · exact Or.inl hm
    · refine Or.inr (yRegion_good g hz ?_ h)
      rename_i hconcat
      rw [hconcat]
      simp

theorem yRegion_defl (g : Game I O) {gj z : Finset (I × O)} {fuel : Nat}
    {yc : Finset (I × O)} (hInv : Inv g z) (h : yRegion g gj z fuel = some yc) :
    yc ⊆ z := by
  rcases hInv with hm | hz
  · rw [yRegion_no_assumptions g hm h]
    exact Finset.empty_subset z
  · exact yRegion_subset g hz h

theorem processGuarantee_region (g : Game I O) {z gj : Finset (I × O)} {fuel : Nat}
    {tj : GTrace I O} {z' : Finset (I × O)}
    (h : processGuarantee g z gj fuel = some (tj, z')) :
    yRegion g gj z fuel = some z' := by
  simp only [processGuarantee, Option.map_eq_some'] at h
  obtain ⟨r, hr, hval⟩ := h
  simp only [yRegion, hr, Option.map_some', Option.some.injEq]
  exact congrArg Prod.snd hval

theorem roundGo_defl_inv (g : Game I O) (fuel : Nat) :
    ∀ (gs : List (Finset (I × O))) (z : Finset (I × O)) (acc : Trace I O)
      (tr : Trace I O) (z' : Finset (I × O)), Inv g z →
      roundGo g fuel gs z acc = some (tr, z') → z' ⊆ z ∧ Inv g z' := by
  intro gs
  induction gs with
  | nil =>
    intro z acc tr z' hInv h
    simp only [roundGo, Option.some.injEq, Prod.mk.injEq] at h
    rw [← h.2]
    exact ⟨Finset.Subset.refl z, hInv⟩
  | cons gj rest ih =>
    intro z acc tr z' hInv h
    simp only [roundGo] at h
    rcases hp : processGuarantee g z gj fuel with _ | ⟨tj, z1⟩
    · rw [hp] at h; exact absurd h (by simp)
    · rw [hp] at h
      have hreg := processGuarantee_region g hp
      have h1 : z1 ⊆ z := yRegion_defl g hInv hreg
      have h2 : Inv g z1 := yRegion_inv g hInv hreg
      obtain ⟨h3, h4⟩ := ih z1 (acc ++ [tj]) tr z' h2 h
      exact ⟨Finset.Subset.trans h3 h1, h4⟩

theorem roundGo_fixed (g : Game I O) (fuel : Nat) :
    ∀ (gs : List (Finset (I × O))) (z : Finset (I × O)) (acc : Trace I O)
      (tr : Trace I O), Inv g z →
      roundGo g fuel gs z acc = some (tr, z) →
      ∀ gj ∈ gs, yRegion g gj z fuel = some z := by
  intro gs
  induction gs with
  | nil => intro z acc tr _ _ gj hgj; cases hgj
  | cons gj0 rest ih =>
    intro z acc tr hInv h gj hgj
    simp only [roundGo] at h
    rcases hp : processGuarantee g z gj0 fuel with _ | ⟨tj, z1⟩
    · rw [hp] at h; exact absurd h (by simp)
    · rw [hp] at h
      have hreg := processGuarantee_region g hp
      have h1 : z1 ⊆ z := yRegion_defl g hInv hreg
      have h2 : Inv g z1 := yRegion_inv g hInv hreg
      obtain ⟨h3, _⟩ := roundGo_defl_inv g fuel rest z1 (acc ++ [tj]) tr z h2 h
      have hz1 : z1 = z := Finset.Subset.antisymm h1 h3
      subst hz1
      rcases List.mem_cons.mp hgj with rfl | hgj
      · exact hreg
      · exact ih z1 (acc ++ [tj]) tr hInv h gj hgj

theorem zLoopGo_run (g : Game I O) (fuel : Nat) :
    ∀ (f : Nat) (z : Finset (I × O)) (tr0 : Trace I O) (prev : Finset (I × O))
      (res : Trace I O × Finset (I × O)), Inv g z →
      roundStep g fuel prev = some (tr0, z) →
      zLoopGo g fuel prev z tr0 f = some res →
      Inv g res.2 ∧ roundStep g fuel res.2 = some (res.1, res.2) := by
  intro f
  induction f with
  | zero =>
    intro z tr0 prev res _ _ h
    exact absurd h (by simp [zLoopGo])
  | succ f ih =>
    intro z tr0 prev res hInv hround h
    simp only [zLoopGo] at h
    by_cases hz : z = prev
    · simp only [if_pos hz, Option.some.injEq] at h
      subst h
      rw [hz]
      exact ⟨hz ▸ hInv, hz ▸ hround⟩
    · rw [if_neg hz] at h
      rcases hp : roundStep g fuel z with _ | ⟨tr1, z1⟩
      · rw [hp] at h; exact absurd h (by simp)
      · rw [hp] at h
        have h2 : Inv g z1 :=
          (roundGo_defl_inv g fuel g.guarantees z [] tr1 z1 hInv hp).2
        exact ih z1 tr1 z res h2 hp h

theorem calc_run (g : Game I O) {fuel : Nat} {tr : Trace I O}
    {w : Finset (I × O)} (h : calcWinningRegion g fuel = some (tr, w)) :
    Inv g w ∧ roundStep g fuel w = some (tr, w) := by
  rcases fuel with _ | f
  · exact absurd h (by simp [calcWinningRegion, zLoopGo])
  · simp only [calcWinningRegion, zLoopGo] at h
    have hne : (Finset.univ : Finset (I × O)) ≠ ∅ :=
      Finset.nonempty_iff_ne_empty.mp Finset.univ_nonempty
    rw [if_neg hne] at h
    rcases hp : roundStep g (f + 1) Finset.univ with _ | ⟨tr1, z1⟩
    · rw [hp] at h; exact absurd h (by simp)
    · rw [hp] at h
      have hInvU : Inv g Finset.univ :=
        Or.inr ⟨Finset.subset_univ _, Finset.subset_univ _⟩
      have hInv1 : Inv g z1 :=
        (roundGo_defl_inv g (f + 1) g.guarantees Finset.univ [] tr1 z1 hInvU hp).2
      exact zLoopGo_run g (f + 1) f z1 tr1 Finset.univ (tr, w) hInv1 hp h

theorem calc_fix_regions (g : Game I O) {fuel : Nat} {tr : Trace I O}
    {w : Finset (I × O)} (h : calcWinningRegion g fuel = some (tr, w)) :
    ∀ gj ∈ g.guarantees, yRegion g gj w fuel = some w := by
  obtain ⟨hInv, hround⟩ := calc_run g h
  exact roundGo_fixed g fuel g.guarantees w [] tr hInv hround

theorem reachZ_inv (g : Game I O) {z : Finset (I × O)} (h : ReachZ g z) :
    Inv g z := by
  induction h with
  | base => exact Or.inr ⟨Finset.subset_univ _, Finset.subset_univ _⟩
  | step z gj y fuel _ _ hreg ih => exact yRegion_inv g ih hreg

theorem reachZ_roundGo (g : Game I O) (fuel : Nat) :
    ∀ (gs : List (Finset (I × O))) (z : Finset (I × O)) (acc : Trace I O)
      (res : Trace I O × Finset (I × O)),
      (∀ gj ∈ gs, gj ∈ g.guarantees) → ReachZ g z →
      roundGo g fuel gs z acc = some res → ReachZ g res.2 := by
  intro gs
  induction gs with
  | nil =>
    intro z acc res _ hz h
    simp only [roundGo, Option.some.injEq] at h
    rw [← h]
    exact hz
  | cons gj rest ih =>
    intro z acc res hsub hz h
    simp only [roundGo] at h
    rcases hp : processGuarantee g z gj fuel with _ | ⟨tj, z1⟩
    · rw [hp] at h; exact absurd h (by simp)
    · rw [hp] at h
      have hz1 : ReachZ g z1 :=
        ReachZ.step z gj z1 fuel hz (hsub gj (List.mem_cons_self _ _))
          (processGuarantee_region g hp)
      exact ih z1 (acc ++ [tj]) res (fun x hx => hsub x (List.mem_cons_of_mem _ hx))
        hz1 h

theorem reachZ_zLoopGo (g : Game I O) (fuel : Nat) :
    ∀ (f : Nat) (old z : Finset (I × O)) (tr : Trace I O)
      (res : Trace I O × Finset (I × O)), ReachZ g z →
      zLoopGo g fuel old z tr f = some res → ReachZ g res.2 := by
  intro f
  induction f with
  | zero =>
    intro old z tr res _ h
    exact absurd h (by simp [zLoopGo])
  | succ f ih =>
    intro old z tr res hz h
    simp only [zLoopGo] at h
    by_cases hzo : z = old
    · simp only [if_pos hzo, Option.some.injEq] at h
      rw [← h]
      exact hz
    · rw [if_neg hzo] at h
      rcases hp : roundStep g fuel z with _ | ⟨tr1, z1⟩
      · rw [hp] at h; exact absurd h (by simp)
      · rw [hp] at h
        exact ih z z1 tr1 res
          (reachZ_roundGo g fuel g.guarantees z [] (tr1, z1) (fun _ hx => hx) hz hp) h

/-! ### Claim C9: monotonicity of the fixpoint iterates -/

/-- C9: throughout `calcWinningRegion`, for every game: the round value `Z`
never grows (the converged `y` of any guarantee processed at an encountered
round value is contained in it, and the result of the solver is an
encountered value); within each `Y` least fixpoint every successive iterate
contains the previous one; and within each inner `X` fixpoint (seeded from an
encountered round value and a `Y` iterate) every successive iterate is
contained in the previous one. -/
theorem c9_monotonicity (g : Game I O) :
    (∀ (fuel : Nat) (tr : Trace I O) (w : Finset (I × O)),
      calcWinningRegion g fuel = some (tr, w) → ReachZ g w) ∧
    (∀ z : Finset (I × O), ReachZ g z → ∀ gj ∈ g.guarantees,
      (∀ (fuel : Nat) (y : Finset (I × O)),
        yRegion g gj z fuel = some y → y ⊆ z) ∧
      (∀ (fuel r : Nat) (y y' : Finset (I × O)),
        ySeqO g gj z fuel r = some y → ySeqO g gj z fuel (r + 1) = some y' →
        y ⊆ y') ∧
      (∀ (fuel r : Nat) (y : Finset (I × O)), ySeqO g gj z fuel r = some y →
        ∀ a ∈ g.assumptions, ∀ t : Nat,
          xSeqF g (seedOf g gj z y) a z (t + 1) ⊆ xSeqF g (seedOf g gj z y) a z t)) := by
  constructor
  · intro fuel tr w h
    rcases fuel with _ | f
    · exact absurd h (by simp [calcWinningRegion, zLoopGo])
    · simp only [calcWinningRegion, zLoopGo] at h
      have hne : (Finset.univ : Finset (I × O)) ≠ ∅ :=
        Finset.nonempty_iff_ne_empty.mp Finset.univ_nonempty
      rw [if_neg hne] at h
      rcases hp : roundStep g (f + 1) Finset.univ with _ | ⟨tr1, z1⟩
      · rw [hp] at h; exact absurd h (by simp)
      · rw [hp] at h
        have hz1 : ReachZ g z1 :=
          reachZ_roundGo g (f + 1) g.guarantees Finset.univ [] (tr1, z1)
            (fun _ hx => hx) ReachZ.base hp
        exact reachZ_zLoopGo g (f + 1) f Finset.univ z1 tr1 (tr, w) hz1 h
  · intro z hz gj _
    have hInv : Inv g z := reachZ_inv g hz
    refine ⟨fun fuel y h => yRegion_defl g hInv h, ?_, ?_⟩
    · intro fuel r y y' h h'
      rcases hInv with hm | hgood
      · rw [ySeq_no_assumptions g gj z fuel hm r h]
        exact Finset.empty_subset y'
      · exact ySeq_mono_succ g hgood r h h'
    · intro fuel r y h a ha t
      rcases hInv with hm | hgood
      · rw [hm] at ha
        cases ha
      · have hy : y ⊆ z := ySeq_subset g hgood r h
        have hseed : seedOf g gj z y ⊆ z := seedOf_subset g hgood hy
        exact xIter_antitone g hgood hseed t

/-- Witness for C9 at `gameA`, round value `ALL_STATES`. -/
theorem c9_monotonicity_witness :
    yRegion gameA Finset.univ Finset.univ 6 = some Finset.univ ∧
      (Finset.univ : Finset (Fin 1 × Fin 1)) ⊆ Finset.univ :=
  ⟨by rfl,
    ((c9_monotonicity gameA).2 Finset.univ ReachZ.base Finset.univ
        (by simp [gameA])).1 6 Finset.univ (by rfl)⟩

/-! ### The code agrees with the §4.2 pseudocode (claims C1 and C6) -/

theorem xLoop_to_spec (g : Game I O) {start a z x : Finset (I × O)} {fuel : Nat}
    (hz : GoodZ g z) (hs : start ⊆ z) (h : xLoop g start a z fuel = some x) :
    specXLoop g start a z fuel = some x := by
  rcases fuel with _ | f
  · exact absurd h (by simp [xLoop, bddLoop])
  · by_cases hzero : z = (∅ : Finset (I × O))
    · subst hzero
      have hempty : xStep g start a ∅ = ∅ := by
        refine Finset.subset_empty.mp ?_
        exact xStep_subset g hz hs (Finset.Subset.refl _)
      have hred : bddLoop (xStep g start a) ∅ ∅ (f + 1) = some ∅ := by
        simp [bddLoop]
      rw [xLoop, hred] at h
      injection h with h2
      subst h2
      simp [specXLoop, doWhile, hempty]
    · rw [xLoop, bddLoop_ne _ _ _ _ _ hzero] at h
      exact doWhile_fuel_mono _ f (f + 1) z x h (by omega)

theorem assumptionFold_to (runX runX' : Finset (I × O) → Option (Finset (I × O)))
    (hpt : ∀ a x, runX a = some x → runX' a = some x) :
    ∀ (as accX : List (Finset (I × O))) (y : Finset (I × O)) (res),
      assumptionFold runX as accX y = some res →
      assumptionFold runX' as accX y = some res := by
  intro as
  induction as with
  | nil => intro accX y res h; exact h
  | cons a rest ih =>
    intro accX y res h
    simp only [assumptionFold] at h ⊢
    rcases hx : runX a with _ | x
    · rw [hx] at h; exact absurd h (by simp)
    · rw [hx] at h
      rw [hpt a x hx]
      exact ih (accX ++ [x]) (y ∪ x) res h

theorem yStep_to_spec (g : Game I O) {gj z y : Finset (I × O)} {fuel : Nat}
    {p : List (Finset (I × O)) × Finset (I × O)}
    (hInv : Inv g z) (hy : y ⊆ z) (h : yStep g gj z y fuel = some p) :
    specYStep g gj z y fuel = some p ∧ p.2 ⊆ z := by
  rcases hInv with hm | hgood
  · rw [yStep_no_assumptions g gj z y fuel hm] at h
    injection h with h2
    constructor
    · simp [specYStep, hm, assumptionFold, ← h2]
    · rw [← h2]
      exact Finset.empty_subset z
  · have hseed : seedOf g gj z y ⊆ z := seedOf_subset g hgood hy
    obtain ⟨p1, p2⟩ := p
    refine ⟨?_, (yStep_subsets g hgood hy h).2⟩
    exact assumptionFold_to _ _ (fun a x hx => xLoop_to_spec g hgood hseed hx)
      g.assumptions [] ∅ (p1, p2) h

theorem yLoopGo_to_spec (g : Game I O) (gj z : Finset (I × O)) (fuel : Nat)
    (hInv : Inv g z) :
    ∀ (f : Nat) (old y : Finset (I × O)) (axs : List (List (Finset (I × O))))
      (ays : List (Finset (I × O))) (res), y ⊆ z → y ≠ old →
      yLoopGo g gj z fuel old y axs ays f = some res →
      specYLoopGo g gj z fuel y axs ays f = some res := by
  intro f
  induction f with
  | zero =>
    intro old y axs ays res _ _ h
    exact absurd h (by simp [yLoopGo])
  | succ f ih =>
    intro old y axs ays res hy hne h
    simp only [yLoopGo, if_neg hne] at h
    rcases hs : yStep g gj z y fuel with _ | ⟨xs, y1⟩
    · rw [hs] at h; exact absurd h (by simp)
    · rw [hs] at h
      obtain ⟨hspec, hy1⟩ := yStep_to_spec g hInv hy hs
      simp only [specYLoopGo, hspec]
      by_cases heq : y1 = y
      · rw [if_pos heq]
        rcases f with _ | f'
        · exact absurd h (by simp [yLoopGo])
        · simp only [yLoopGo, if_pos heq, Option.some.injEq] at h
          rw [← h]
      · rw [if_neg heq]
        exact ih y y1 (axs ++ [xs]) (ays ++ [y1]) res hy1 heq h

theorem processGuarantee_to_spec (g : Game I O) {z gj : Finset (I × O)}
    {fuel : Nat} {tj : GTrace I O} {z' : Finset (I × O)} (hInv : Inv g z)
    (h : processGuarantee g z gj fuel = some (tj, z')) :
    ∃ stj : GTrace I O, specProcessGuarantee g z gj fuel = some (stj, z') ∧
      tj.1 = stj.1.dropLast ∧ tj.2 = stj.2.dropLast := by
  simp only [processGuarantee, Option.map_eq_some'] at h
  obtain ⟨r, hr, hval⟩ := h
  have hne : (∅ : Finset (I × O)) ≠ Finset.univ := by
    intro hcontra
    exact Finset.nonempty_iff_ne_empty.mp Finset.univ_nonempty hcontra.symm
  have hspec := yLoopGo_to_spec g gj z fuel hInv fuel Finset.univ ∅ [] [] r
    (Finset.empty_subset z) hne hr
  rw [Prod.mk.injEq] at hval
  obtain ⟨hval1, hval2⟩ := hval
  refine ⟨(r.1, r.2.1), ?_, ?_, ?_⟩
  · simp only [specProcessGuarantee, hspec, Option.map_some', Option.some.injEq,
      Prod.mk.injEq]
    exact ⟨trivial, hval2⟩
  · rw [← hval1]
  · rw [← hval1]

theorem roundGo_to_spec (g : Game I O) (fuel : Nat) :
    ∀ (gs : List (Finset (I × O))) (z : Finset (I × O)) (acc accs : Trace I O)
      (tr : Trace I O) (z' : Finset (I × O)), Inv g z →
      acc = (accs.map fun p => (p.1.dropLast, p.2.dropLast)) →
      roundGo g fuel gs z acc = some (tr, z') →
      ∃ trs, specRoundGo g fuel gs z accs = some (trs, z') ∧
        tr = trs.map fun p => (p.1.dropLast, p.2.dropLast) := by
  intro gs
  induction gs with
  | nil =>
    intro z acc accs tr z' _ hrel h
    simp only [roundGo, Option.some.injEq, Prod.mk.injEq] at h
    exact ⟨accs, by simp [specRoundGo, h.2], by rw [← h.1, hrel]⟩
  | cons gj rest ih =>
    intro z acc accs tr z' hInv hrel h
    simp only [roundGo] at h
    rcases hp : processGuarantee g z gj fuel with _ | ⟨tj, z1⟩
    · rw [hp] at h; exact absurd h (by simp)
    · rw [hp] at h
      obtain ⟨stj, hspec, htj1, htj2⟩ := processGuarantee_to_spec g hInv hp
      have hInv1 : Inv g z1 := yRegion_inv g hInv (processGuarantee_region g hp)
      have hacc : acc ++ [tj] =
          ((accs ++ [stj]).map fun p => (p.1.dropLast, p.2.dropLast)) := by
        rw [hrel, List.map_append]
        simp only [List.map_cons, List.map_nil]
        rw [show tj = (stj.1.dropLast, stj.2.dropLast) from
          Prod.ext htj1 htj2]
      obtain ⟨trs, hs1, hs2⟩ := ih z1 (acc ++ [tj]) (accs ++ [stj]) tr z' hInv1 hacc h
      refine ⟨trs, ?_, hs2⟩
      simp only [specRoundGo, hspec]
      exact hs1

theorem zLoopGo_to_spec (g : Game I O) (fuel : Nat) :
    ∀ (f : Nat) (old z : Finset (I × O)) (tr0 : Trace I O)
      (res : Trace I O × Finset (I × O)), Inv g z → z ≠ old →
      zLoopGo g fuel old z tr0 f = some res →
      ∃ trs, specZGo g fuel z f = some (trs, res.2) ∧
        res.1 = trs.map fun p => (p.1.dropLast, p.2.dropLast) := by
  intro f
  induction f with
  | zero =>
    intro old z tr0 res _ _ h
    exact absurd h (by simp [zLoopGo])
  | succ f ih =>
    intro old z tr0 res hInv hne h
    simp only [zLoopGo, if_neg hne] at h
    rcases hp : roundStep g fuel z with _ | ⟨tr1, z1⟩
    · rw [hp] at h; exact absurd h (by simp)
    · rw [hp] at h
      obtain ⟨strs1, hs1, hs2⟩ := roundGo_to_spec g fuel g.guarantees z [] [] tr1 z1
        hInv (by simp) hp
      have hInv1 : Inv g z1 :=
        (roundGo_defl_inv g fuel g.guarantees z [] tr1 z1 hInv hp).2
      simp only [specZGo, specRoundStep, hs1]
      by_cases heq : z1 = z
      · rw [if_pos heq]
        rcases f with _ | f'
        · exact absurd h (by simp [zLoopGo])
        · simp only [zLoopGo, if_pos heq, Option.some.injEq] at h
          rw [← h]
          exact ⟨strs1, rfl, hs2⟩
      · rw [if_neg heq]
        exact ih z z1 tr1 res hInv1 heq h

theorem calc_to_spec (g : Game I O) {fuel : Nat} {tr : Trace I O}
    {w : Finset (I × O)} (h : calcWinningRegion g fuel = some (tr, w)) :
    ∃ trs, specSolve g fuel = some (trs, w) ∧
      tr = trs.map fun p => (p.1.dropLast, p.2.dropLast) := by
  rcases fuel with _ | f
  · exact absurd h (by simp [calcWinningRegion, zLoopGo])
  · have hne : (Finset.univ : Finset (I × O)) ≠ ∅ :=
      Finset.nonempty_iff_ne_empty.mp Finset.univ_nonempty
    have hInvU : Inv g Finset.univ :=
      Or.inr ⟨Finset.subset_univ _, Finset.subset_univ _⟩
    exact zLoopGo_to_spec g (f + 1) (f + 1) ∅ Finset.univ [] (tr, w) hInvU hne h

/-! ### Claim C1: the solver returns the region of the §4.2 pseudocode -/

/-- C1: for every game, whenever `calcWinningRegion` converges, the §4.2
pseudocode solver (embedded from the words of the specification, with its
`repeat-until` loops and unpopped trace) converges to the same winning
region. -/
theorem c1_region_matches_pseudocode (g : Game I O) (fuel : Nat)
    (tr : Trace I O) (w : Finset (I × O))
    (h : calcWinningRegion g fuel = some (tr, w)) :
    ∃ trs, specSolve g fuel = some (trs, w) := by
  obtain ⟨trs, hs, _⟩ := calc_to_spec g h
  exact ⟨trs, hs⟩

/-- Witness for C1 on `gameA`. -/
theorem c1_region_matches_pseudocode_witness :
    (specSolve gameA 6).map (fun p => p.2) = some Finset.univ := by
  obtain ⟨trs, hs⟩ := c1_region_matches_pseudocode gameA 6
    [([[Finset.univ]], [Finset.univ])] Finset.univ (by rfl)
  rw [hs]
  rfl

/-! ### Claim C6: the retained trace -/

/-- C6 (counterexample): on `gameM0` (no assumptions) the final processing of
the single guarantee runs exactly one `Y` iteration, recording `Y = ∅`, and
then pops it: the retained trace is empty while the pseudocode trace of the
claim (one entry per iteration, including the converged iterate) has one
entry. -/
theorem c6_trace_counterexample :
    calcWinningRegion gameM0 6 = some ([([], [])], ∅) ∧
    specSolve gameM0 6 = some ([([[]], [∅])], ∅) ∧
    ¬ ([([], [])] : Trace (Fin 1) (Fin 1)) =
        [([[]], [(∅ : Finset (Fin 1 × Fin 1))])] :=
  ⟨by rfl, by rfl, by simp⟩

/-- C6 (amended): the retained trace holds, for every guarantee, exactly the
iterates recorded during the final processing of that guarantee except the
last one: each per-guarantee array equals the pseudocode's array (one entry
per iteration, including the final converged iterate, earlier rounds
discarded) with its last entry popped. -/
theorem c6_trace_amended (g : Game I O) (fuel : Nat) (tr trs : Trace I O)
    (w ws : Finset (I × O)) (h : calcWinningRegion g fuel = some (tr, w))
    (hs : specSolve g fuel = some (trs, ws)) :
    ws = w ∧ tr = trs.map fun p => (p.1.dropLast, p.2.dropLast) := by
  obtain ⟨trs0, hs0, htr⟩ := calc_to_spec g h
  rw [hs] at hs0
  injection hs0 with hs0
  rw [Prod.mk.injEq] at hs0
  exact ⟨hs0.2, by rw [htr, hs0.1]⟩

/-- Witness for the amended C6 on `gameM0`. -/
theorem c6_trace_amended_witness :
    (∅ : Finset (Fin 1 × Fin 1)) = ∅ ∧
      ([([], [])] : Trace (Fin 1) (Fin 1)) =
        ([([[]], [(∅ : Finset (Fin 1 × Fin 1))])] : Trace (Fin 1) (Fin 1)).map
          fun p => (p.1.dropLast, p.2.dropLast) :=
  c6_trace_amended gameM0 6 [([], [])] [([[]], [∅])] ∅ ∅ (by rfl) (by rfl)

/-! ### The textbook once-per-round variant (claim C2) -/

theorem mem_foldl_inter (a : I × O) :
    ∀ (l : List (Finset (I × O))) (acc : Finset (I × O)),
      a ∈ l.foldl (fun acc x => acc ∩ x) acc ↔ a ∈ acc ∧ ∀ x ∈ l, a ∈ x := by
  intro l
  induction l with
  | nil => intro acc; simp
  | cons x xs ih =>
    intro acc
    rw [List.foldl_cons, ih]
    simp only [Finset.mem_inter, List.mem_cons]
    constructor
    · rintro ⟨⟨h1, h2⟩, h3⟩
      exact ⟨h1, fun w hw => by rcases hw with rfl | hw; exacts [h2, h3 w hw]⟩
    · rintro ⟨h1, h2⟩
      exact ⟨⟨h1, h2 x (Or.inl rfl)⟩, fun w hw => h2 w (Or.inr hw)⟩

theorem tbFold_spec (g : Game I O) (z : Finset (I × O)) (fuel : Nat) :
    ∀ (gs : List (Finset (I × O))) (acc : Finset (I × O)) (z' : Finset (I × O)),
      gs.foldlM (fun acc gj => (yRegion g gj z fuel).map fun y => acc ∩ y) acc =
        some z' →
      ∃ ys, List.Forall₂ (fun gj y => yRegion g gj z fuel = some y) gs ys ∧
        z' = ys.foldl (fun acc x => acc ∩ x) acc := by
  intro gs
  induction gs with
  | nil =>
    intro acc z' h
    simp only [List.foldlM_nil, Option.pure_def, Option.some.injEq] at h
    exact ⟨[], List.Forall₂.nil, by simp [h]⟩
  | cons gj rest ih =>
    intro acc z' h
    simp only [List.foldlM_cons] at h
    rcases hy : yRegion g gj z fuel with _ | y
    · rw [hy] at h; exact absurd h (by simp)
    · rw [hy] at h
      simp only [Option.map_some', Option.some_bind] at h
      obtain ⟨ys, h1, h2⟩ := ih (acc ∩ y) z' h
      exact ⟨y :: ys, List.Forall₂.cons hy h1, by simpa using h2⟩

theorem textbookRound_spec (g : Game I O) {z z' : Finset (I × O)} {fuel : Nat}
    (h : textbookRound g fuel z = some z') :
    ∃ ys, List.Forall₂ (fun gj y => yRegion g gj z fuel = some y) g.guarantees ys ∧
      z' = ys.foldl (fun acc x => acc ∩ x) Finset.univ :=
  tbFold_spec g z fuel g.guarantees Finset.univ z' h

theorem textbookRound_inv (g : Game I O) {z z' : Finset (I × O)} {fuel : Nat}
    (hInv : Inv g z) (h : textbookRound g fuel z = some z') : Inv g z' := by
  rcases List.eq_nil_or_concat g.assumptions with hm | ⟨_, _, hconcat⟩
  · exact Or.inl hm
  · have hmne : g.assumptions ≠ [] := by rw [hconcat]; simp
    rcases hInv with hm | hgood
    · exact absurd hm hmne
    · obtain ⟨ys, hf, rfl⟩ := textbookRound_spec g h
      have hys_good : ∀ y ∈ ys, coax g y ⊆ y := by
        intro y hy
        obtain ⟨gj, _, hreg⟩ := forall₂_mem_right hf y hy
        exact (yRegion_good g hgood hmne hreg).2
      refine Or.inr ⟨?_, ?_⟩
      · intro s hs
        rw [mem_foldl_inter]
        refine ⟨Finset.mem_univ s, fun y hy => ?_⟩
        have h1 : coax g (∅ : Finset (I × O)) ⊆ coax g y := coax_mono g (Finset.empty_subset y)
        exact hys_good y hy (h1 hs)
      · intro s hs
        rw [mem_foldl_inter]
        refine ⟨Finset.mem_univ s, fun y hy => ?_⟩
        have hsub : ys.foldl (fun acc x => acc ∩ x) Finset.univ ⊆ y := by
          intro b hb
          exact ((mem_foldl_inter b ys Finset.univ).mp hb).2 y hy
        exact hys_good y hy (coax_mono g hsub hs)

theorem iterO_run {α : Type} [DecidableEq α] (F : α → Option α) (P : α → Prop)
    (hpres : ∀ z z', P z → F z = some z' → P z') :
    ∀ (f : Nat) (z : α) (r : α), P z → iterO F z f = some r →
      P r ∧ F r = some r := by
  intro f
  induction f with
  | zero => intro z r _ h; exact absurd h (by simp [iterO])
  | succ f ih =>
    intro z r hP h
    rcases hz : F z with _ | z'
    · simp [iterO, hz] at h
    · simp only [iterO, hz] at h
      by_cases heq : z' = z
      · simp only [if_pos heq, Option.some.injEq] at h
        subst h
        subst heq
        exact ⟨hP, hz⟩
      · rw [if_neg heq] at h
        exact ih z' r (hpres z z' hP hz) h

theorem calc_reachZ (g : Game I O) {fuel : Nat} {tr : Trace I O}
    {w : Finset (I × O)} (h : calcWinningRegion g fuel = some (tr, w)) :
    ReachZ g w := by
  rcases fuel with _ | f
  · exact absurd h (by simp [calcWinningRegion, zLoopGo])
  · simp only [calcWinningRegion, zLoopGo] at h
    have hne : (Finset.univ : Finset (I × O)) ≠ ∅ :=
      Finset.nonempty_iff_ne_empty.mp Finset.univ_nonempty
    rw [if_neg hne] at h
    rcases hp : roundStep g (f + 1) Finset.univ with _ | ⟨tr1, z1⟩
    · rw [hp] at h; exact absurd h (by simp)
    · rw [hp] at h
      have hz1 : ReachZ g z1 :=
        reachZ_roundGo g (f + 1) g.guarantees Finset.univ [] (tr1, z1)
          (fun _ hx => hx) ReachZ.base hp
      exact reachZ_zLoopGo g (f + 1) f Finset.univ z1 tr1 (tr, w) hz1 h

theorem forall₂_mem_left {α β : Type} {R : α → β → Prop} :
    ∀ {l₁ : List α} {l₂ : List β}, List.Forall₂ R l₁ l₂ →
      ∀ a ∈ l₁, ∃ b ∈ l₂, R a b := by
  intro l₁ l₂ h
  induction h with
  | nil => intro a ha; cases ha
  | cons hR _ ih =>
    intro a ha
    rcases List.mem_cons.mp ha with rfl | ha
    · exact ⟨_, List.mem_cons_self _ _, hR⟩
    · obtain ⟨b, hb, hab⟩ := ih a ha
      exact ⟨b, List.mem_cons_of_mem _ hb, hab⟩

theorem calc_no_guarantees_univ (g : Game I O) (fuel : Nat) (tr : Trace I O)
    (w : Finset (I × O)) (hg : g.guarantees = [])
    (h : calcWinningRegion g fuel = some (tr, w)) : w = Finset.univ := by
  rcases fuel with _ | f
  · exact absurd h (by simp [calcWinningRegion, zLoopGo])
  · simp only [calcWinningRegion, zLoopGo] at h
    have hne : (Finset.univ : Finset (I × O)) ≠ ∅ :=
      Finset.nonempty_iff_ne_empty.mp Finset.univ_nonempty
    rw [if_neg hne] at h
    have hround : roundStep g (f + 1) Finset.univ = some ([], Finset.univ) := by
      simp [roundStep, hg, roundGo]
    rw [hround] at h
    rcases f with _ | f'
    · exact absurd h (by simp [zLoopGo])
    · simp only [zLoopGo, eq_self_iff_true, if_true, Option.some.injEq,
        Prod.mk.injEq] at h
      exact h.2.symm

theorem tb_no_guarantees_univ (g : Game I O) (fuel : Nat) (w' : Finset (I × O))
    (hg : g.guarantees = []) (h : textbookSolve g fuel = some w') :
    w' = Finset.univ := by
  rcases fuel with _ | f
  · exact absurd h (by simp [textbookSolve, iterO])
  · have hround : textbookRound g (f + 1) Finset.univ = some Finset.univ := by
      simp [textbookRound, hg]
    simp only [textbookSolve, iterO, hround, eq_self_iff_true, if_true,
      Option.some.injEq] at h
    exact h.symm

theorem tb_no_assumptions_empty (g : Game I O) (fuel : Nat) (w' : Finset (I × O))
    (hm : g.assumptions = []) (hg : g.guarantees ≠ [])
    (h : textbookSolve g fuel = some w') : w' = ∅ := by
  obtain ⟨_, hfix⟩ := iterO_run (fun z => textbookRound g fuel z) (fun _ => True)
    (fun _ _ _ _ => trivial) fuel Finset.univ w' trivial h
  obtain ⟨ys, hf, hfold⟩ := textbookRound_spec g hfix
  obtain ⟨gj0, hgj0⟩ := List.exists_mem_of_ne_nil g.guarantees hg
  obtain ⟨y0, hy0, hreg0⟩ := forall₂_mem_left hf gj0 hgj0
  have hy0e : y0 = ∅ := yRegion_no_assumptions g hm hreg0
  refine Finset.subset_empty.mp ?_
  rw [hfold, ← hy0e]
  intro b hb
  exact ((mem_foldl_inter b ys Finset.univ).mp hb).2 y0 hy0

theorem calc_tb_eq (g : Game I O) {f1 f2 : Nat} {tr : Trace I O}
    {w w' : Finset (I × O)} (h : calcWinningRegion g f1 = some (tr, w))
    (h' : textbookSolve g f2 = some w') : w = w' := by
  rcases List.eq_nil_or_concat g.guarantees with hg | ⟨_, _, hgc⟩
  · rw [calc_no_guarantees_univ g f1 tr w hg h,
      tb_no_guarantees_univ g f2 w' hg h']
  · have hgne : g.guarantees ≠ [] := by rw [hgc]; simp
    rcases List.eq_nil_or_concat g.assumptions with hm | ⟨_, _, hmc⟩
    · rw [calc_no_assumptions_empty g f1 tr w hm hgne h,
        tb_no_assumptions_empty g f2 w' hm hgne h']
    · have hmne : g.assumptions ≠ [] := by rw [hmc]; simp
      have hInvW : Inv g w := (calc_run g h).1
      have hGoodW : GoodZ g w := by
        rcases hInvW with hx | hx
        · exact absurd hx hmne
        · exact hx
      have hfixw : ∀ gj ∈ g.guarantees, yRegion g gj w f1 = some w :=
        calc_fix_regions g h
      -- direction 1: w ⊆ w'
      have hP : (Inv g w' ∧ w ⊆ w') ∧ textbookRound g f2 w' = some w' := by
        refine iterO_run (fun z => textbookRound g f2 z)
          (fun z => Inv g z ∧ w ⊆ z) ?_ f2 Finset.univ w'
          ⟨Or.inr ⟨Finset.subset_univ _, Finset.subset_univ _⟩,
            Finset.subset_univ _⟩ h'
        rintro z z1 ⟨hInvZ, hwz⟩ hstep
        refine ⟨textbookRound_inv g hInvZ hstep, ?_⟩
        have hGoodZ : GoodZ g z := by
          rcases hInvZ with hx | hx
          · exact absurd hx hmne
          · exact hx
        obtain ⟨ys, hfor, hfold⟩ := textbookRound_spec g hstep
        rw [hfold]
        intro s hs
        rw [mem_foldl_inter]
        refine ⟨Finset.mem_univ s, fun y hy => ?_⟩
        obtain ⟨gj, hgj, hreg⟩ := forall₂_mem_right hfor y hy
        exact yRegion_mono g hGoodW hGoodZ hwz (hfixw gj hgj) hreg hs
      obtain ⟨⟨hInvW', hww'⟩, hfix'⟩ := hP
      -- direction 2: w' ⊆ w
      have hGoodW' : GoodZ g w' := by
        rcases hInvW' with hx | hx
        · exact absurd hx hmne
        · exact hx
      obtain ⟨ys', hfor', hfold'⟩ := textbookRound_spec g hfix'
      have hsub' : ∀ gj ∈ g.guarantees, ∃ y', yRegion g gj w' f2 = some y' ∧
          w' ⊆ y' := by
        intro gj hgj
        obtain ⟨y', hy', hreg'⟩ := forall₂_mem_left hfor' gj hgj
        refine ⟨y', hreg', ?_⟩
        rw [hfold']
        intro b hb
        exact ((mem_foldl_inter b ys' Finset.univ).mp hb).2 y' hy'
      have hreachsub : ∀ z, ReachZ g z → w' ⊆ z := by
        intro z hz
        induction hz with
        | base => exact Finset.subset_univ _
        | step z0 gj y fuelx hz0 hgj hreg ih =>
          obtain ⟨y', hreg', hwy'⟩ := hsub' gj hgj
          have hGoodZ0 : GoodZ g z0 := by
            rcases reachZ_inv g hz0 with hx | hx
            · exact absurd hx hmne
            · exact hx
          exact Finset.Subset.trans hwy'
            (yRegion_mono g hGoodW' hGoodZ0 ih hreg' hreg)
      exact Finset.Subset.antisymm hww' (hreachsub w (calc_reachZ g h))

theorem measure_stabilizes :
    ∀ (n : Nat) (f : Nat → Nat), (∀ k, f (k + 1) ≤ f k) → f 0 ≤ n →
      ∃ k, k ≤ n ∧ f (k + 1) = f k := by
  intro n
  induction n with
  | zero =>
    intro f hmono h0
    refine ⟨0, Nat.le_refl 0, ?_⟩
    have h1 := hmono 0
    omega
  | succ n ih =>
    intro f hmono h0
    by_cases he : f 1 = f 0
    · exact ⟨0, Nat.zero_le _, he⟩
    · have h1 : f 1 < f 0 := Nat.lt_of_le_of_ne (hmono 0) he
      have h2 : f 1 ≤ n := by omega
      obtain ⟨k, hk, heq⟩ := ih (fun k => f (k + 1)) (fun k => hmono (k + 1)) h2
      exact ⟨k + 1, by omega, heq⟩

theorem card_le_state_card (t : Finset (I × O)) :
    t.card ≤ Fintype.card (I × O) := by
  have h := Finset.card_le_card (Finset.subset_univ t)
  rw [Finset.card_univ] at h
  exact h

theorem antichain_stabilizes (s : Nat → Finset (I × O))
    (hdec : ∀ k, s (k + 1) ⊆ s k) :
    ∃ k, k ≤ Fintype.card (I × O) ∧ s (k + 1) = s k := by
  obtain ⟨k, hk, heq⟩ := measure_stabilizes (Fintype.card (I × O))
    (fun k => (s k).card) (fun k => Finset.card_le_card (hdec k))
    (card_le_state_card (s 0))
  exact ⟨k, hk, Finset.eq_of_subset_of_card_le (hdec k) (Nat.le_of_eq heq.symm)⟩

theorem monochain_stabilizes (s : Nat → Finset (I × O))
    (hinc : ∀ k, s k ⊆ s (k + 1)) :
    ∃ k, k ≤ Fintype.card (I × O) ∧ s (k + 1) = s k := by
  obtain ⟨k, hk, heq⟩ := measure_stabilizes (Fintype.card (I × O))
    (fun k => Fintype.card (I × O) - (s k).card)
    (fun k => Nat.sub_le_sub_left (Finset.card_le_card (hinc k)) _)
    (Nat.sub_le _ _)
  refine ⟨k, hk, (Finset.eq_of_subset_of_card_le (hinc k) ?_).symm⟩
  have h1 := card_le_state_card (s k)
  have h2 := card_le_state_card (s (k + 1))
  have heq' : Fintype.card (I × O) - (s (k + 1)).card =
      Fintype.card (I × O) - (s k).card := heq
  omega

theorem stab_ge {α : Type} (s : Nat → α) (T : Nat)
    (hstable : ∀ d, s (T + d) = s T) : ∀ r, T ≤ r → s (r + 1) = s r := by
  intro r hr
  obtain ⟨d, rfl⟩ := Nat.exists_eq_add_of_le hr
  have h1 := hstable (d + 1)
  have h2 := hstable d
  rw [show T + d + 1 = T + (d + 1) from by omega, h1, h2]

theorem xLoop_converges (g : Game I O) {start a z : Finset (I × O)}
    (hz : GoodZ g z) (hs : start ⊆ z) {fuel : Nat}
    (hfuel : Fintype.card (I × O) + 2 ≤ fuel) :
    ∃ x, xLoop g start a z fuel = some x := by
  rcases fuel with _ | f
  · omega
  · by_cases hzero : z = (∅ : Finset (I × O))
    · subst hzero
      exact ⟨∅, by simp [xLoop, bddLoop]⟩
    · obtain ⟨k, hk, heq⟩ := antichain_stabilizes (fun t => (xStep g start a)^[t] z)
        (xIter_antitone g hz hs)
      have hfix : xStep g start a ((xStep g start a)^[k] z) =
          (xStep g start a)^[k] z := by
        have h1 : (xStep g start a)^[k + 1] z =
            xStep g start a ((xStep g start a)^[k] z) :=
          Function.iterate_succ_apply' _ _ _
        rw [← h1]
        exact heq
      refine ⟨(xStep g start a)^[k] z, ?_⟩
      rw [xLoop, bddLoop_ne _ _ _ _ _ hzero]
      exact doWhile_some_of_fix _ k z hfix f (by omega)

theorem assumptionFold_converges (runX : Finset (I × O) → Option (Finset (I × O))) :
    ∀ (as : List (Finset (I × O))), (∀ a ∈ as, ∃ x, runX a = some x) →
      ∀ (accX : List (Finset (I × O))) (y : Finset (I × O)),
        ∃ res, assumptionFold runX as accX y = some res := by
  intro as
  induction as with
  | nil => intro _ accX y; exact ⟨(accX, y), rfl⟩
  | cons a rest ih =>
    intro h accX y
    obtain ⟨x, hx⟩ := h a (List.mem_cons_self _ _)
    obtain ⟨res, hres⟩ := ih (fun b hb => h b (List.mem_cons_of_mem _ hb))
      (accX ++ [x]) (y ∪ x)
    exact ⟨res, by simp only [assumptionFold, hx]; exact hres⟩

theorem yStep_converges (g : Game I O) (gj : Finset (I × O)) {z y : Finset (I × O)}
    (hz : GoodZ g z) (hy : y ⊆ z) {fuel : Nat}
    (hfuel : Fintype.card (I × O) + 2 ≤ fuel) :
    ∃ res, yStep g gj z y fuel = some res :=
  assumptionFold_converges _ g.assumptions
    (fun _ _ => xLoop_converges g hz (seedOf_subset g hz hy) hfuel) [] ∅

theorem ySeq_total (g : Game I O) (gj : Finset (I × O)) {z : Finset (I × O)}
    (hz : Inv g z) {fuel : Nat} (hfuel : Fintype.card (I × O) + 2 ≤ fuel) :
    ∀ r, ∃ y, ySeqO g gj z fuel r = some y := by
  intro r
  induction r with
  | zero => exact ⟨∅, rfl⟩
  | succ r ih =>
    obtain ⟨y, hy⟩ := ih
    rcases hz with hm | hgood
    · exact ⟨∅, by simp only [ySeqO, hy, Option.some_bind,
        yStep_no_assumptions g gj z y fuel hm, Option.map_some']⟩
    · obtain ⟨p, hstep⟩ := yStep_converges g gj hgood (ySeq_subset g hgood r hy) hfuel
      exact ⟨p.2, by simp only [ySeqO, hy, Option.some_bind, hstep, Option.map_some']⟩

theorem yLoopGo_converges_aux (g : Game I O) (gj z : Finset (I × O)) (fuel : Nat)
    (s : Nat → Finset (I × O)) (htot : ∀ r, ySeqO g gj z fuel r = some (s r))
    (T : Nat) (hstab : ∀ r, T ≤ r → s (r + 1) = s r) :
    ∀ (f r : Nat) (old : Finset (I × O)) (axs : List (List (Finset (I × O))))
      (ays : List (Finset (I × O))),
      ((r = 0 ∧ old = Finset.univ) ∨ ∃ r0, r = r0 + 1 ∧ old = s r0) →
      1 ≤ f → T + 2 ≤ f + r →
      ∃ res, yLoopGo g gj z fuel old (s r) axs ays f = some res := by
  intro f
  induction f with
  | zero => intro r old axs ays _ hf1 _; omega
  | succ f ih =>
    intro r old axs ays hold _ hf2
    by_cases hstop : s r = old
    · exact ⟨(axs, ays, s r), by simp only [yLoopGo, if_pos hstop]⟩
    · have hnext := htot (r + 1)
      simp only [ySeqO, htot r, Option.some_bind] at hnext
      obtain ⟨p, hyst, hp2⟩ := Option.map_eq_some'.mp hnext
      have hy2 : p.2 = s (r + 1) := hp2
      have hy1 : p = (p.1, s (r + 1)) := by rw [← hy2]
      rw [hy1] at hyst
      have hrT : r ≤ T := by
        by_contra hgt
        rcases hold with ⟨hr0, _⟩ | ⟨r0, hr, holdv⟩
        · omega
        · subst hr
          subst holdv
          exact hstop (hstab r0 (by omega))
      obtain ⟨res, hres⟩ := ih (r + 1) (s r) (axs ++ [p.1]) (ays ++ [s (r + 1)])
        (Or.inr ⟨r, rfl, rfl⟩) (by omega) (by omega)
      exact ⟨res, by simp only [yLoopGo, if_neg hstop, hyst]; exact hres⟩

theorem yLoop_converges (g : Game I O) (gj : Finset (I × O)) {z : Finset (I × O)}
    (hz : Inv g z) {fuel : Nat} (hfuel : Fintype.card (I × O) + 2 ≤ fuel) :
    ∃ res, yLoop g gj z fuel = some res := by
  obtain ⟨s, htot⟩ : ∃ s : Nat → Finset (I × O),
      ∀ r, ySeqO g gj z fuel r = some (s r) := by
    refine ⟨fun r => (ySeqO g gj z fuel r).getD ∅, fun r => ?_⟩
    obtain ⟨y, hy⟩ := ySeq_total g gj hz hfuel r
    show ySeqO g gj z fuel r = some ((ySeqO g gj z fuel r).getD ∅)
    rw [hy]
    rfl
  have hmono : ∀ r, s r ⊆ s (r + 1) := by
    intro r
    rcases hz with hm | hgood
    · have h1 := ySeq_no_assumptions g gj z fuel hm r (htot r)
      have h2 := ySeq_no_assumptions g gj z fuel hm (r + 1) (htot (r + 1))
      rw [h1, h2]
    · exact ySeq_mono_succ g hgood r (htot r) (htot (r + 1))
  obtain ⟨T, hT, hstabT⟩ := monochain_stabilizes s hmono
  have h2 : ySeqO g gj z fuel (T + 1) = some (s T) := by
    have h3 := htot (T + 1)
    rw [hstabT] at h3
    exact h3
  have hstable : ∀ d, s (T + d) = s T := by
    intro d
    have h4 := ySeq_stable g gj z fuel (htot T) h2 d
    have h5 := htot (T + d)
    rw [h4] at h5
    injection h5 with h5
    exact h5.symm
  have hs0 : s 0 = ∅ := by
    have h0 := htot 0
    simp only [ySeqO, Option.some.injEq] at h0
    exact h0.symm
  obtain ⟨res, hres⟩ := yLoopGo_converges_aux g gj z fuel s htot T
    (stab_ge s T hstable) fuel 0 Finset.univ [] [] (Or.inl ⟨rfl, rfl⟩)
    (by omega) (by omega)
  refine ⟨res, ?_⟩
  simp only [yLoop]
  rw [← hs0]
  exact hres

theorem roundGo_converges (g : Game I O) {fuel : Nat}
    (hfuel : Fintype.card (I × O) + 2 ≤ fuel) :
    ∀ (gs : List (Finset (I × O))) (z : Finset (I × O)) (acc : Trace I O),
      Inv g z → ∃ res, roundGo g fuel gs z acc = some res := by
  intro gs
  induction gs with
  | nil => intro z acc _; exact ⟨(acc, z), rfl⟩
  | cons gj rest ih =>
    intro z acc hInv
    obtain ⟨r0, hr0⟩ := yLoop_converges g gj hInv hfuel
    have hpg : processGuarantee g z gj fuel =
        some ((r0.1.dropLast, r0.2.1.dropLast), r0.2.2) := by
      rw [processGuarantee, hr0]
      rfl
    have hreg : yRegion g gj z fuel = some r0.2.2 := by
      rw [yRegion, hr0]
      rfl
    obtain ⟨res, hres⟩ := ih r0.2.2 (acc ++ [(r0.1.dropLast, r0.2.1.dropLast)])
      (yRegion_inv g hInv hreg)
    exact ⟨res, by simp only [roundGo, hpg]; exact hres⟩

theorem zSeq_inv (g : Game I O) (fuel : Nat) :
    ∀ (r : Nat) {z : Finset (I × O)}, zSeqO g fuel r = some z → Inv g z := by
  intro r
  induction r with
  | zero =>
    intro z h
    simp only [zSeqO, Option.some.injEq] at h
    rw [← h]
    exact Or.inr ⟨Finset.subset_univ _, Finset.subset_univ _⟩
  | succ r ih =>
    intro z h
    simp only [zSeqO, Option.bind_eq_some, Option.map_eq_some'] at h
    obtain ⟨z0, hz0, p, hp, hpz⟩ := h
    rw [← hpz]
    exact (roundGo_defl_inv g fuel g.guarantees z0 [] p.1 p.2 (ih hz0)
      (show roundGo g fuel g.guarantees z0 [] = some (p.1, p.2) from hp)).2

theorem zSeq_total (g : Game I O) {fuel : Nat}
    (hfuel : Fintype.card (I × O) + 2 ≤ fuel) :
    ∀ r, ∃ z, zSeqO g fuel r = some z := by
  intro r
  induction r with
  | zero => exact ⟨Finset.univ, rfl⟩
  | succ r ih =>
    obtain ⟨z, hz⟩ := ih
    obtain ⟨res, hres⟩ := roundGo_converges g hfuel g.guarantees z []
      (zSeq_inv g fuel r hz)
    refine ⟨res.2, ?_⟩
    simp only [zSeqO, hz, Option.some_bind]
    rw [show roundStep g fuel z = some res from hres]
    rfl

theorem zSeq_stable (g : Game I O) (fuel : Nat) {T : Nat} {zc : Finset (I × O)}
    (h1 : zSeqO g fuel T = some zc) (h2 : zSeqO g fuel (T + 1) = some zc) :
    ∀ d, zSeqO g fuel (T + d) = some zc := by
  have hstep : (roundStep g fuel zc).map (fun p => p.2) = some zc := by
    simp only [zSeqO, h1, Option.some_bind] at h2
    exact h2
  intro d
  induction d with
  | zero => exact h1
  | succ d ih =>
    have he : T + (d + 1) = (T + d) + 1 := by omega
    rw [he]
    simp only [zSeqO, ih, Option.some_bind]
    exact hstep

theorem zLoopGo_converges_aux (g : Game I O) (fuel : Nat)
    (s : Nat → Finset (I × O)) (htot : ∀ r, zSeqO g fuel r = some (s r))
    (T : Nat) (hstab : ∀ r, T ≤ r → s (r + 1) = s r) :
    ∀ (f r : Nat) (old : Finset (I × O)) (tr : Trace I O),
      ((r = 0 ∧ old = ∅) ∨ ∃ r0, r = r0 + 1 ∧ old = s r0) →
      1 ≤ f → T + 2 ≤ f + r →
      ∃ res, zLoopGo g fuel old (s r) tr f = some res := by
  intro f
  induction f with
  | zero => intro r old tr _ hf1 _; omega
  | succ f ih =>
    intro r old tr hold _ hf2
    by_cases hstop : s r = old
    · exact ⟨(tr, s r), by simp only [zLoopGo, if_pos hstop]⟩
    · have hnext := htot (r + 1)
      simp only [zSeqO, htot r, Option.some_bind] at hnext
      obtain ⟨p, hrst, hp2⟩ := Option.map_eq_some'.mp hnext
      have hy2 : p.2 = s (r + 1) := hp2
      have hy1 : p = (p.1, s (r + 1)) := by rw [← hy2]
      rw [hy1] at hrst
      have hrT : r ≤ T := by
        by_contra hgt
        rcases hold with ⟨hr0, _⟩ | ⟨r0, hr, holdv⟩
        · omega
        · subst hr
          subst holdv
          exact hstop (hstab r0 (by omega))
      obtain ⟨res, hres⟩ := ih (r + 1) (s r) p.1 (Or.inr ⟨r, rfl, rfl⟩)
        (by omega) (by omega)
      exact ⟨res, by simp only [zLoopGo, if_neg hstop, hrst]; exact hres⟩

theorem calc_converges (g : Game I O) {fuel : Nat}
    (hfuel : Fintype.card (I × O) + 2 ≤ fuel) :
    ∃ res, calcWinningRegion g fuel = some res := by
  obtain ⟨s, htot⟩ : ∃ s : Nat → Finset (I × O),
      ∀ r, zSeqO g fuel r = some (s r) := by
    refine ⟨fun r => (zSeqO g fuel r).getD ∅, fun r => ?_⟩
    obtain ⟨z, hz⟩ := zSeq_total g hfuel r
    show zSeqO g fuel r = some ((zSeqO g fuel r).getD ∅)
    rw [hz]
    rfl
  have hanti : ∀ r, s (r + 1) ⊆ s r := by
    intro r
    have hnext := htot (r + 1)
    simp only [zSeqO, htot r, Option.some_bind] at hnext
    obtain ⟨p, hrst, hp2⟩ := Option.map_eq_some'.mp hnext
    rw [← hp2]
    exact (roundGo_defl_inv g fuel g.guarantees (s r) [] p.1 p.2
      (zSeq_inv g fuel r (htot r))
      (show roundGo g fuel g.guarantees (s r) [] = some (p.1, p.2) from hrst)).1
  obtain ⟨T, hT, hstabT⟩ := antichain_stabilizes s hanti
  have h2 : zSeqO g fuel (T + 1) = some (s T) := by
    have h3 := htot (T + 1)
    rw [hstabT] at h3
    exact h3
  have hstable : ∀ d, s (T + d) = s T := by
    intro d
    have h4 := zSeq_stable g fuel (htot T) h2 d
    have h5 := htot (T + d)
    rw [h4] at h5
    injection h5 with h5
    exact h5.symm
  have hs0 : s 0 = Finset.univ := by
    have h0 := htot 0
    simp only [zSeqO, Option.some.injEq] at h0
    exact h0.symm
  obtain ⟨res, hres⟩ := zLoopGo_converges_aux g fuel s htot T
    (stab_ge s T hstable) fuel 0 ∅ [] (Or.inl ⟨rfl, rfl⟩) (by omega) (by omega)
  refine ⟨res, ?_⟩
  simp only [calcWinningRegion]
  rw [← hs0]
  exact hres

theorem tbFold_converges (g : Game I O) (z : Finset (I × O)) (fuel : Nat) :
    ∀ (gs : List (Finset (I × O))),
      (∀ gj ∈ gs, ∃ y, yRegion g gj z fuel = some y) →
      ∀ (acc : Finset (I × O)),
        ∃ res, gs.foldlM
          (fun acc gj => (yRegion g gj z fuel).map fun y => acc ∩ y) acc =
            some res := by
  intro gs
  induction gs with
  | nil => intro _ acc; exact ⟨acc, rfl⟩
  | cons gj rest ih =>
    intro h acc
    obtain ⟨y, hy⟩ := h gj (List.mem_cons_self _ _)
    obtain ⟨res, hres⟩ := ih (fun b hb => h b (List.mem_cons_of_mem _ hb)) (acc ∩ y)
    refine ⟨res, ?_⟩
    simp only [List.foldlM_cons, hy, Option.map_some', Option.some_bind]
    exact hres

theorem tbRound_converges (g : Game I O) {z : Finset (I × O)} {fuel : Nat}
    (hInv : Inv g z) (hfuel : Fintype.card (I × O) + 2 ≤ fuel) :
    ∃ z', textbookRound g fuel z = some z' := by
  have hreg : ∀ gj ∈ g.guarantees, ∃ y, yRegion g gj z fuel = some y := by
    intro gj _
    obtain ⟨r0, hr0⟩ := yLoop_converges g gj hInv hfuel
    refine ⟨r0.2.2, ?_⟩
    rw [yRegion, hr0]
    rfl
  obtain ⟨res, hres⟩ := tbFold_converges g z fuel g.guarantees hreg Finset.univ
  exact ⟨res, by simp only [textbookRound]; exact hres⟩

theorem tzSeq_inv (g : Game I O) (fuel : Nat) :
    ∀ (r : Nat) {z : Finset (I × O)}, tzSeqO g fuel r = some z → Inv g z := by
  intro r
  induction r with
  | zero =>
    intro z h
    simp only [tzSeqO, Option.some.injEq] at h
    rw [← h]
    exact Or.inr ⟨Finset.subset_univ _, Finset.subset_univ _⟩
  | succ r ih =>
    intro z h
    simp only [tzSeqO, Option.bind_eq_some] at h
    obtain ⟨z0, hz0, hr⟩ := h
    exact textbookRound_inv g (ih hz0) hr

theorem tzSeq_total (g : Game I O) {fuel : Nat}
    (hfuel : Fintype.card (I × O) + 2 ≤ fuel) :
    ∀ r, ∃ z, tzSeqO g fuel r = some z := by
  intro r
  induction r with
  | zero => exact ⟨Finset.univ, rfl⟩
  | succ r ih =>
    obtain ⟨z, hz⟩ := ih
    obtain ⟨z', hz'⟩ := tbRound_converges g (tzSeq_inv g fuel r hz) hfuel
    exact ⟨z', by simp only [tzSeqO, hz, Option.some_bind]; exact hz'⟩

theorem tzSeq_stable (g : Game I O) (fuel : Nat) {T : Nat} {zc : Finset (I × O)}
    (h1 : tzSeqO g fuel T = some zc) (h2 : tzSeqO g fuel (T + 1) = some zc) :
    ∀ d, tzSeqO g fuel (T + d) = some zc := by
  have hstep : textbookRound g fuel zc = some zc := by
    simp only [tzSeqO, h1, Option.some_bind] at h2
    exact h2
  intro d
  induction d with
  | zero => exact h1
  | succ d ih =>
    have he : T + (d + 1) = (T + d) + 1 := by omega
    rw [he]
    simp only [tzSeqO, ih, Option.some_bind]
    exact hstep

theorem iterO_converges {α : Type} [DecidableEq α] (F : α → Option α)
    (s : Nat → α) (hstep : ∀ r, F (s r) = some (s (r + 1))) (T : Nat)
    (hstab : ∀ r, T ≤ r → s (r + 1) = s r) :
    ∀ (f r : Nat), 1 ≤ f → T + 1 ≤ f + r → ∃ res, iterO F (s r) f = some res := by
  intro f
  induction f with
  | zero => intro r hf1 _; omega
  | succ f ih =>
    intro r _ hf2
    by_cases hstop : s (r + 1) = s r
    · exact ⟨s (r + 1), by simp only [iterO, hstep r, if_pos hstop]⟩
    · have hrT : r < T := by
        by_contra hge
        exact hstop (hstab r (by omega))
      obtain ⟨res, hres⟩ := ih (r + 1) (by omega) (by omega)
      exact ⟨res, by simp only [iterO, hstep r, if_neg hstop]; exact hres⟩

theorem textbook_converges (g : Game I O) {fuel : Nat}
    (hfuel : Fintype.card (I × O) + 2 ≤ fuel) :
    ∃ w', textbookSolve g fuel = some w' := by
  rcases List.eq_nil_or_concat g.guarantees with hg | ⟨_, _, hgc⟩
  · rcases fuel with _ | f
    · omega
    · refine ⟨Finset.univ, ?_⟩
      have hround : textbookRound g (f + 1) Finset.univ = some Finset.univ := by
        simp [textbookRound, hg]
      simp [textbookSolve, iterO, hround]
  · have hg : g.guarantees ≠ [] := by rw [hgc]; simp
    obtain ⟨s, htot⟩ : ∃ s : Nat → Finset (I × O),
        ∀ r, tzSeqO g fuel r = some (s r) := by
      refine ⟨fun r => (tzSeqO g fuel r).getD ∅, fun r => ?_⟩
      obtain ⟨z, hz⟩ := tzSeq_total g hfuel r
      show tzSeqO g fuel r = some ((tzSeqO g fuel r).getD ∅)
      rw [hz]
      rfl
    have hstep : ∀ r, textbookRound g fuel (s r) = some (s (r + 1)) := by
      intro r
      have hnext := htot (r + 1)
      simp only [tzSeqO, htot r, Option.some_bind] at hnext
      exact hnext
    have hanti : ∀ r, s (r + 1) ⊆ s r := by
      intro r
      obtain ⟨ys, hfor, hfold⟩ := textbookRound_spec g (hstep r)
      obtain ⟨gj0, hgj0⟩ := List.exists_mem_of_ne_nil g.guarantees hg
      obtain ⟨y0, hy0, hreg0⟩ := forall₂_mem_left hfor gj0 hgj0
      have hy0z : y0 ⊆ s r := yRegion_defl g (tzSeq_inv g fuel r (htot r)) hreg0
      rw [hfold]
      intro b hb
      exact hy0z (((mem_foldl_inter b ys Finset.univ).mp hb).2 y0 hy0)
    obtain ⟨T, hT, hstabT⟩ := antichain_stabilizes s hanti
    have h2 : tzSeqO g fuel (T + 1) = some (s T) := by
      have h3 := htot (T + 1)
      rw [hstabT] at h3
      exact h3
    have hstable : ∀ d, s (T + d) = s T := by
      intro d
      have h4 := tzSeq_stable g fuel (htot T) h2 d
      have h5 := htot (T + d)
      rw [h4] at h5
      injection h5 with h5
      exact h5.symm
    have hs0 : s 0 = Finset.univ := by
      have h0 := htot 0
      simp only [tzSeqO, Option.some.injEq] at h0
      exact h0.symm
    obtain ⟨res, hres⟩ := iterO_converges (fun z => textbookRound g fuel z) s
      hstep T (stab_ge s T hstable) fuel 0 (by omega) (by omega)
    refine ⟨res, ?_⟩
    simp only [textbookSolve]
    rw [← hs0]
    exact hres

/-- C2: the Gauss-Seidel in-place update of `Z` performed by
`calcWinningRegion` (the converged `Y` is assigned to `Z` immediately after
each guarantee index, inside the same outer round) yields the same final
winning region as the textbook variant that updates `Z` only once per full
round over all guarantees: for every game both solvers converge (fuel
`|states| + 2` suffices), and whenever both return, the two final fixpoint
values are equal. -/
theorem c2_gauss_seidel_textbook_equiv (g : Game I O) :
    (∃ res, calcWinningRegion g (Fintype.card (I × O) + 2) = some res) ∧
    (∃ w', textbookSolve g (Fintype.card (I × O) + 2) = some w') ∧
    ∀ (f1 f2 : Nat) (tr : Trace I O) (w w' : Finset (I × O)),
      calcWinningRegion g f1 = some (tr, w) → textbookSolve g f2 = some w' →
      w = w' :=
  ⟨calc_converges g (Nat.le_refl _), textbook_converges g (Nat.le_refl _),
    fun _ _ _ _ _ h h' => calc_tb_eq g h h'⟩

/-- Witness for C2 on `gameA`: the code solver and the textbook solver both
converge at fuel `6` and return the same winning region `ALL_STATES`. -/
theorem c2_gauss_seidel_textbook_equiv_witness :
    calcWinningRegion gameA 6 =
      some ([([[Finset.univ]], [Finset.univ])], Finset.univ) ∧
    textbookSolve gameA 6 = some Finset.univ ∧
    (Finset.univ : Finset (Fin 1 × Fin 1)) = Finset.univ :=
  ⟨by rfl, by rfl,
    (c2_gauss_seidel_textbook_equiv gameA).2.2 6 6
      [([[Finset.univ]], [Finset.univ])] Finset.univ Finset.univ
      (by rfl) (by rfl)⟩

/-- C7 (counterexample): on `gameDead` (the environment has no transition at
all) the object state is realizable, the single state is reachable and lies
in the winning region, yet the final strategy relation is the empty relation
(every rule conjoins the combined transition relation, which is empty), so
the reachable winning state has no outgoing move in the strategy. -/
theorem c7_deadend_counterexample :
    (isRealizable (mkWRState gameDead Finset.univ)).1 = true ∧
    calcWinningRegion gameDead 6 =
      some ([([[Finset.univ]], [Finset.univ])], Finset.univ) ∧
    reachableStates gameDead (init12 gameDead) Finset.univ 6 =
      some Finset.univ ∧
    st0 ∈ (Finset.univ : Finset (Fin 1 × Fin 1)) ∧
    calcStrategy gameDead miniTriv miniRelTriv 6 = some emptyMemRel ∧
    ¬ ∃ (s' : Fin 1 × Fin 1) (jx' : Nat), emptyMemRel st0 0 s' jx' = true := by
  refine ⟨by rfl, by rfl, by rfl, by decide, ?_, ?_⟩
  · have h1 : calcWinningRegion gameDead 6 =
        some ([([[Finset.univ]], [Finset.univ])], Finset.univ) := rfl
    have h2 : reachableStates gameDead (init12 gameDead) Finset.univ 6 =
        some Finset.univ := rfl
    have ht : ∀ s s' : Fin 1 × Fin 1, trans12 gameDead s s' = false := by decide
    simp only [calcStrategy, h1, h2, List.map_cons, List.map_nil, calcRho2,
      rho2Fold, rho2PerJ, rho2RowGo, Option.map_some']
    refine congrArg some ?_
    funext s jx s' jx'
    simp [miniRelTriv, emptyMemRel, calcRho3, calcRho1, ht]
  · rintro ⟨s', jx', h⟩
    simp [emptyMemRel] at h

theorem getD_concat_len {α : Type} (l : List α) (x d : α) :
    (l ++ [x]).getD l.length d = x := by
  rw [List.getD_append_right l [x] d l.length (Nat.le_refl _), Nat.sub_self]
  rfl

theorem forall₂_getD {α β : Type} {R : α → β → Prop} (d1 : α) (d2 : β) :
    ∀ {l1 : List α} {l2 : List β}, List.Forall₂ R l1 l2 →
      ∀ i, i < l1.length → R (l1.getD i d1) (l2.getD i d2) := by
  intro l1 l2 h
  induction h with
  | nil => intro i hi; exact absurd hi (by simp)
  | cons hR _ ih =>
    intro i hi
    cases i with
    | zero => exact hR
    | succ i =>
      refine ih i ?_
      simp only [List.length_cons] at hi
      omega

theorem rho2RowGo_mono (mini : Finset (I × O) → Finset (I × O) → Finset (I × O))
    (rs : Finset (I × O)) :
    ∀ (l : List (Finset (I × O))) (low : Finset (I × O))
      (tmp : I × O → I × O → Bool) (s s' : I × O), tmp s s' = true →
      (rho2RowGo mini rs l low tmp).2 s s' = true := by
  intro l
  induction l with
  | nil => intro low tmp s s' h; exact h
  | cons yr rest ih =>
    intro low tmp s s' h
    exact ih (low ∪ yr) _ s s' (by simp [h])

theorem rho2RowGo_fires {mini : Finset (I × O) → Finset (I × O) → Finset (I × O)}
    (hok : MiniOk mini) (rs : Finset (I × O)) :
    ∀ (l : List (Finset (I × O))) (low : Finset (I × O))
      (tmp : I × O → I × O → Bool) (t : Nat) (s s' : I × O),
      t < l.length → s ∈ rs → s ∈ l.getD t ∅ → s ∉ low →
      (∀ u, u < t → s ∉ l.getD u ∅) →
      (s' ∈ low ∨ ∃ u, u < t ∧ s' ∈ l.getD u ∅) →
      (rho2RowGo mini rs l low tmp).2 s s' = true := by
  intro l
  induction l with
  | nil => intro low tmp t s s' ht; exact absurd ht (by simp)
  | cons yr rest ih =>
    intro low tmp t s s' ht hs hst hlow hearlier hs'
    cases t with
    | zero =>
      refine rho2RowGo_mono mini rs rest (low ∪ yr) _ s s' ?_
      have h1 : s ∈ yr := hst
      have h2 : s' ∈ low := by
        rcases hs' with h | ⟨u, hu, _⟩
        · exact h
        · omega
      simp only [Bool.or_eq_true, Bool.and_eq_true, decide_eq_true_eq]
      exact Or.inr ⟨⟨(miniOk_mem hok hs yr).mpr h1,
        (miniOk_mem hok hs lowᶜ).mpr (Finset.mem_compl.mpr hlow)⟩, h2⟩
    | succ t =>
      refine ih (low ∪ yr) _ t s s' (by simp only [List.length_cons] at ht; omega)
        hs hst ?_ ?_ ?_
      · rw [Finset.mem_union]
        rintro (h | h)
        · exact hlow h
        · exact hearlier 0 (by omega) h
      · intro u hu
        exact hearlier (u + 1) (by omega)
      · rcases hs' with h | ⟨u, hu, hmem⟩
        · exact Or.inl (Finset.mem_union_left _ h)
        · cases u with
          | zero => exact Or.inl (Finset.mem_union_right _ hmem)
          | succ v => exact Or.inr ⟨v, by omega, hmem⟩

theorem rho2PerJ_fires {mini : Finset (I × O) → Finset (I × O) → Finset (I × O)}
    (hok : MiniOk mini) (rs : Finset (I × O))
    (l : List (Finset (I × O))) (t : Nat) (s s' : I × O)
    (ht1 : 1 ≤ t) (ht : t < l.length) (hs : s ∈ rs)
    (hst : s ∈ l.getD t ∅) (hearlier : ∀ u, u < t → s ∉ l.getD u ∅)
    (hs' : s' ∈ l.getD (t - 1) ∅) :
    ∃ tmp, rho2PerJ mini rs l = some tmp ∧ tmp s s' = true := by
  rcases l with _ | ⟨y0, rest⟩
  · exact absurd ht (by simp)
  · refine ⟨_, rfl, ?_⟩
    obtain ⟨t', rfl⟩ : ∃ t', t = t' + 1 := ⟨t - 1, by omega⟩
    refine rho2RowGo_fires hok rs rest y0 (fun _ _ => false) t' s s'
      (by simp only [List.length_cons] at ht; omega) hs hst ?_ ?_ ?_
    · exact hearlier 0 (by omega)
    · intro u hu
      exact hearlier (u + 1) (by omega)
    · cases t' with
      | zero => exact Or.inl (by simpa using hs')
      | succ v => exact Or.inr ⟨v, by omega, by simpa using hs'⟩

theorem rho2Fold_fires (n : Nat)
    (mini : Finset (I × O) → Finset (I × O) → Finset (I × O))
    (rs : Finset (I × O)) :
    ∀ (yarr : List (List (Finset (I × O)))) (c : Nat), c < n →
      ∀ (acc F : MemRel I O),
        rho2Fold n mini rs yarr (fun a => a == c) acc = some F →
        ∀ (s : I × O) (jx : Nat) (s' : I × O) (jx' : Nat),
        (acc s jx s' jx' = true ∨
          ∃ j, j < yarr.length ∧ jx = (c + j) % n ∧ jx' = (c + j) % n ∧
            ∃ tmp, rho2PerJ mini rs (yarr.getD j []) = some tmp ∧
              tmp s s' = true) →
        F s jx s' jx' = true := by
  intro yarr
  induction yarr with
  | nil =>
    intro c _ acc F h s jx s' jx' hcond
    simp only [rho2Fold, Option.some.injEq] at h
    subst h
    rcases hcond with h | ⟨j, hj, _⟩
    · exact h
    · exact absurd hj (by simp)
  | cons ys rest ih =>
    intro c hc acc F h s jx s' jx' hcond
    have himg : jxImage n (fun a => a == c) = fun b => b == (c + 1) % n := by
      funext b
      exact jxImage_single n c hc b
    simp only [rho2Fold, himg] at h
    rcases hp : rho2PerJ mini rs ys with _ | tmp0
    · rw [hp] at h
      exact absurd h (by simp)
    · rw [hp] at h
      refine ih ((c + 1) % n) (Nat.mod_lt _ (by omega)) _ F h s jx s' jx' ?_
      rcases hcond with hacc | ⟨j, hj, h1, h2, tmp, htmp, htrue⟩
      · exact Or.inl (by simp [hacc])
      · cases j with
        | zero =>
          refine Or.inl ?_
          simp only [List.getD_cons_zero] at htmp
          rw [hp] at htmp
          injection htmp with htmp
          subst htmp
          simp only [Bool.or_eq_true, Bool.and_eq_true, beq_iff_eq]
          refine Or.inr ⟨⟨htrue, ?_⟩, ?_⟩
          · rw [h1, Nat.add_zero, Nat.mod_eq_of_lt hc]
          · rw [h2, Nat.add_zero, Nat.mod_eq_of_lt hc]
        | succ j =>
          have hshift : ∀ k, ((c + 1) % n + k) % n = (c + 1 + k) % n := fun k =>
            Nat.mod_add_mod (c + 1) n k ▸ rfl
          refine Or.inr ⟨j, by simp only [List.length_cons] at hj; omega, ?_, ?_,
            tmp, by simpa using htmp, htrue⟩
          · rw [h1, hshift j, show c + 1 + j = c + (j + 1) by omega]
          · rw [h2, hshift j, show c + 1 + j = c + (j + 1) by omega]

theorem calcRho2_some_spec (g : Game I O)
    (mini : Finset (I × O) → Finset (I × O) → Finset (I × O))
    (rs : Finset (I × O)) (yarr : List (List (Finset (I × O)))) {R2 : MemRel I O}
    (h : calcRho2 g mini rs yarr = some R2) :
    ∃ F, rho2Fold g.guarantees.length mini rs yarr (fun a => a == 0)
        emptyMemRel = some F ∧
      ∀ s jx s' jx', R2 s jx s' jx' = (F s jx s' jx' && trans12 g s s') := by
  simp only [calcRho2, Option.map_eq_some'] at h
  obtain ⟨F, hF, hval⟩ := h
  exact ⟨F, hF, fun s jx s' jx' => by rw [← hval]⟩

theorem roundGo_prefix (g : Game I O) (fuel : Nat) :
    ∀ (gs : List (Finset (I × O))) (z : Finset (I × O)) (acc : Trace I O)
      (res : Trace I O × Finset (I × O)),
      roundGo g fuel gs z acc = some res → ∃ suf, res.1 = acc ++ suf := by
  intro gs
  induction gs with
  | nil =>
    intro z acc res h
    simp only [roundGo, Option.some.injEq] at h
    exact ⟨[], by simp [← h]⟩
  | cons gj rest ih =>
    intro z acc res h
    simp only [roundGo] at h
    rcases hp : processGuarantee g z gj fuel with _ | ⟨tj, z1⟩
    · rw [hp] at h
      exact absurd h (by simp)
    · rw [hp] at h
      obtain ⟨suf, hsuf⟩ := ih z1 (acc ++ [tj]) res h
      exact ⟨[tj] ++ suf, by simpa using hsuf⟩

theorem roundGo_fixed_trace (g : Game I O) (fuel : Nat) :
    ∀ (gs : List (Finset (I × O))) (z : Finset (I × O)) (acc : Trace I O)
      (tr : Trace I O), Inv g z →
      roundGo g fuel gs z acc = some (tr, z) →
      tr.length = acc.length + gs.length ∧
      ∀ j, j < gs.length → ∃ axs ays,
        yLoop g (gs.getD j ∅) z fuel = some (axs, ays, z) ∧
        tr.getD (acc.length + j) ([], []) = (axs.dropLast, ays.dropLast) := by
  intro gs
  induction gs with
  | nil =>
    intro z acc tr _ h
    simp only [roundGo, Option.some.injEq, Prod.mk.injEq] at h
    refine ⟨by simp [← h.1], fun j hj => absurd hj (by simp)⟩
  | cons gj rest ih =>
    intro z acc tr hInv h
    simp only [roundGo] at h
    rcases hp : processGuarantee g z gj fuel with _ | ⟨tj, z1⟩
    · rw [hp] at h
      exact absurd h (by simp)
    · rw [hp] at h
      have hreg := processGuarantee_region g hp
      have h1 : z1 ⊆ z := yRegion_defl g hInv hreg
      have h2 : Inv g z1 := yRegion_inv g hInv hreg
      obtain ⟨h3, _⟩ := roundGo_defl_inv g fuel rest z1 (acc ++ [tj]) tr z h2 h
      have hz1 : z1 = z := Finset.Subset.antisymm h1 h3
      subst hz1
      obtain ⟨hlen, hrest⟩ := ih z1 (acc ++ [tj]) tr hInv h
      obtain ⟨suf, hsuf⟩ := roundGo_prefix g fuel rest z1 (acc ++ [tj]) (tr, z1) h
      have hlen2 : tr.length = acc.length + 1 + rest.length := by
        rw [hlen]
        simp
      refine ⟨by rw [hlen2]; simp only [List.length_cons]; omega,
        fun j hj => ?_⟩
      cases j with
      | zero =>
        simp only [processGuarantee, Option.map_eq_some'] at hp
        obtain ⟨r0, hr0, hval⟩ := hp
        obtain ⟨axs0, ays0, yc0⟩ := r0
        simp only [Prod.mk.injEq] at hval
        obtain ⟨hv1, hv2⟩ := hval
        subst hv2
        refine ⟨axs0, ays0, hr0, ?_⟩
        rw [Nat.add_zero]
        have hsuf' : tr = acc ++ [tj] ++ suf := hsuf
        rw [hsuf', List.append_assoc,
          List.getD_append_right acc ([tj] ++ suf) ([], []) acc.length
            (Nat.le_refl _), Nat.sub_self]
        rw [← hv1]
        rfl
      | succ j =>
        obtain ⟨axs, ays, ha, hb⟩ := hrest j (by
          simp only [List.length_cons] at hj
          omega)
        refine ⟨axs, ays, ha, ?_⟩
        rw [show acc.length + (j + 1) = (acc ++ [tj]).length + j from by
          simp only [List.length_append, List.length_singleton]
          omega]
        exact hb

theorem yLoopGo_rec_aux (g : Game I O) (gj z : Finset (I × O)) (fuel : Nat) :
    ∀ (f t : Nat) (old y : Finset (I × O)) (axs : List (List (Finset (I × O))))
      (ays : List (Finset (I × O)))
      (res : List (List (Finset (I × O))) × List (Finset (I × O)) × Finset (I × O)),
      ySeqO g gj z fuel t = some y →
      ((t = 0 ∧ old = Finset.univ) ∨
        ∃ t0, t = t0 + 1 ∧ ySeqO g gj z fuel t0 = some old) →
      axs.length = t → ays.length = t →
      (∀ r, r < t → ∃ yprev, ySeqO g gj z fuel r = some yprev ∧
        yStep g gj z yprev fuel = some (axs.getD r [], ays.getD r ∅)) →
      yLoopGo g gj z fuel old y axs ays f = some res →
      ∃ K, 1 ≤ K ∧ res.1.length = K ∧ res.2.1.length = K ∧
        (∀ r, r < K → ∃ yprev, ySeqO g gj z fuel r = some yprev ∧
          yStep g gj z yprev fuel = some (res.1.getD r [], res.2.1.getD r ∅)) ∧
        ySeqO g gj z fuel K = some res.2.2 ∧
        ySeqO g gj z fuel (K - 1) = some res.2.2 := by
  intro f
  induction f with
  | zero =>
    intro t old y axs ays res _ _ _ _ _ h
    exact absurd h (by simp [yLoopGo])
  | succ f ih =>
    intro t old y axs ays res hyt hold hlx hly hrec h
    simp only [yLoopGo] at h
    by_cases hstop : y = old
    · simp only [if_pos hstop, Option.some.injEq] at h
      subst h
      rcases hold with ⟨ht0, holdv⟩ | ⟨t0, ht, holdv⟩
      · subst ht0
        subst holdv
        simp only [ySeqO, Option.some.injEq] at hyt
        subst hyt
        have hne := Finset.univ_nonempty (α := I × O)
        rw [← hstop] at hne
        exact absurd hne (by simp)
      · subst ht
        refine ⟨t0 + 1, by omega, hlx, hly, hrec, hyt, ?_⟩
        show ySeqO g gj z fuel t0 = some y
        rw [hstop]
        exact holdv
    · rw [if_neg hstop] at h
      rcases hstep : yStep g gj z y fuel with _ | p
      · rw [hstep] at h
        exact absurd h (by simp)
      · rw [hstep] at h
        obtain ⟨xs, y'⟩ := p
        have hyt' : ySeqO g gj z fuel (t + 1) = some y' := by
          simp only [ySeqO, hyt, Option.some_bind, hstep, Option.map_some']
        refine ih (t + 1) y y' (axs ++ [xs]) (ays ++ [y']) res hyt'
          (Or.inr ⟨t, rfl, hyt⟩) (by simp [hlx]) (by simp [hly]) ?_ h
        intro r hr
        by_cases hrt : r < t
        · obtain ⟨yprev, h1, h2⟩ := hrec r hrt
          refine ⟨yprev, h1, ?_⟩
          rw [List.getD_append _ _ _ _ (by omega),
            List.getD_append _ _ _ _ (by omega)]
          exact h2
        · have hrt' : r = t := by omega
          subst hrt'
          refine ⟨y, hyt, ?_⟩
          have e1 : (axs ++ [xs]).getD r [] = xs := by
            rw [← hlx]
            exact getD_concat_len axs xs []
          have e2 : (ays ++ [y']).getD r ∅ = y' := by
            rw [← hly]
            exact getD_concat_len ays y' ∅
          rw [e1, e2]
          exact hstep

theorem yLoop_rec (g : Game I O) (gj z : Finset (I × O)) (fuel : Nat)
    {axs : List (List (Finset (I × O)))} {ays : List (Finset (I × O))}
    {yc : Finset (I × O)}
    (h : yLoop g gj z fuel = some (axs, ays, yc)) :
    ∃ K, 1 ≤ K ∧ axs.length = K ∧ ays.length = K ∧
      (∀ r, r < K → ∃ yprev, ySeqO g gj z fuel r = some yprev ∧
        yStep g gj z yprev fuel = some (axs.getD r [], ays.getD r ∅)) ∧
      ySeqO g gj z fuel K = some yc ∧ ySeqO g gj z fuel (K - 1) = some yc := by
  have haux := yLoopGo_rec_aux g gj z fuel fuel 0 Finset.univ ∅ [] []
    (axs, ays, yc) rfl (Or.inl ⟨rfl, rfl⟩) rfl rfl
    (fun r hr => absurd hr (by omega)) h
  exact haux

theorem getD_dropLast {α : Type} (l : List α) (d : α) (i : Nat)
    (h : i < l.dropLast.length) : l.dropLast.getD i d = l.getD i d := by
  rw [List.getD_eq_getElem _ d h, List.getElem_dropLast l i h,
    List.getD_eq_getElem _ d (by rw [List.length_dropLast] at h; omega)]

theorem getD_zip {α β : Type} (l : List α) (l' : List β) (d : α) (d' : β)
    (i : Nat) (h : i < (l.zip l').length) :
    (l.zip l').getD i (d, d') = (l.getD i d, l'.getD i d') := by
  rw [List.getD_eq_getElem _ _ h, List.getElem_zip,
    List.getD_eq_getElem l d (by rw [List.length_zip] at h; omega),
    List.getD_eq_getElem l' d' (by rw [List.length_zip] at h; omega)]

theorem getD_mem_of_lt {α : Type} (l : List α) (d : α) (n : Nat)
    (h : n < l.length) : l.getD n d ∈ l := by
  rw [List.getD_eq_getElem l d h]
  exact List.getElem_mem h

theorem mem_unionList_map_take {α : Type} (f : α → Finset (I × O)) (d : α)
    (L : List α) (r : Nat) (s : I × O)
    (h : s ∈ unionList ((L.take r).map f)) :
    ∃ u, u < r ∧ u < L.length ∧ s ∈ f (L.getD u d) := by
  rw [mem_unionList] at h
  obtain ⟨x, hx, hmem⟩ := h
  rw [List.mem_map] at hx
  obtain ⟨q, hq, rfl⟩ := hx
  obtain ⟨u, hu, hqu⟩ := List.getElem_of_mem hq
  rw [List.getElem_take] at hqu
  refine ⟨u, by rw [List.length_take] at hu; omega,
    by rw [List.length_take] at hu; omega, ?_⟩
  rw [List.getD_eq_getElem L d (by rw [List.length_take] at hu; omega), hqu]
  exact hmem

theorem mem_unionList_zip_fst (row as2 : List (Finset (I × O))) (s : I × O)
    (h : s ∈ unionList ((row.zip as2).map fun p => p.1)) :
    ∃ v, v < row.length ∧ s ∈ row.getD v ∅ := by
  rw [mem_unionList] at h
  obtain ⟨x, hx, hmem⟩ := h
  rw [List.mem_map] at hx
  obtain ⟨p, hp, rfl⟩ := hx
  obtain ⟨v, hv, hpv⟩ := List.getElem_of_mem hp
  rw [List.getElem_zip] at hpv
  refine ⟨v, by rw [List.length_zip] at hv; omega, ?_⟩
  rw [List.getD_eq_getElem row ∅ (by rw [List.length_zip] at hv; omega)]
  rw [← hpv] at hmem
  exact hmem

/-- C7 (amended): for every game, any RESTRICT implementations satisfying
their agreement contracts, and any run on which the solver, the reachability
computation and the strategy construction all return: every reachable
present state of the winning region AT WHICH THE ENVIRONMENT HAS AT LEAST
ONE TRANSITION has, for every memory value `j` below the number of
guarantees, at least one outgoing move in the final strategy relation.  The
environment-successor hypothesis is necessary (see the counterexample): the
source conjoins every rule with the combined transition relation, so a state
without environment successor is a dead end even when winning. -/
theorem c7_no_dead_end_amended (g : Game I O)
    (mini : Finset (I × O) → Finset (I × O) → Finset (I × O))
    (miniRel : MemRel I O → Finset (I × O) → MemRel I O) (fuel : Nat)
    (hok : MiniOk mini) (hrok : MiniRelOk miniRel)
    {R : MemRel I O} {tr : Trace I O} {w reach : Finset (I × O)}
    (hw : calcWinningRegion g fuel = some (tr, w))
    (hre : reachableStates g (init12 g) Finset.univ fuel = some reach)
    (hcs : calcStrategy g mini miniRel fuel = some R)
    (j : Nat) (hj : j < g.guarantees.length)
    (s0 : I × O) (hs0r : s0 ∈ reach) (hs0w : s0 ∈ w)
    (henv : ∃ i, g.trans1 s0 i = true) :
    ∃ (s' : I × O) (jx' : Nat), R s0 j s' jx' = true := by
  classical
  simp only [calcStrategy, hw, hre] at hcs
  rcases hq : calcRho2 g mini reach (tr.map fun p => p.2) with _ | rho2v
  · rw [hq] at hcs
    exact absurd hcs (by simp)
  rw [hq] at hcs
  simp only [Option.some.injEq] at hcs
  have hbig : ∀ (s' : I × O) (jx' : Nat), R s0 j s' jx' =
      (calcRho3 g mini reach (tr.map fun p => p.1) s0 j s' jx' ||
        rho2v s0 j s' jx' || calcRho1 g w s0 j s' jx') := by
    intro s' jx'
    rw [← hcs]
    exact hrok _ _ _ _ _ _ hs0r
  have hgne : g.guarantees ≠ [] := by
    intro hgg
    rw [hgg] at hj
    exact absurd hj (by simp)
  have hmne : g.assumptions ≠ [] := by
    intro hm
    have hwe := calc_no_assumptions_empty g fuel tr w hm hgne hw
    rw [hwe] at hs0w
    exact absurd hs0w (by simp)
  obtain ⟨hInvW, hround⟩ := calc_run g hw
  have hGoodW : GoodZ g w := by
    rcases hInvW with hx | hx
    · exact absurd hx hmne
    · exact hx
  obtain ⟨hlen, hper⟩ := roundGo_fixed_trace g fuel g.guarantees w [] tr hInvW hround
  simp only [List.length_nil, Nat.zero_add] at hlen
  obtain ⟨axs, ays, hyl, htrj⟩ := hper j hj
  simp only [List.length_nil, Nat.zero_add] at htrj
  obtain ⟨K, hK1, hKx, hKy, hrec, hyK, hyK1⟩ :=
    yLoop_rec g (g.guarantees.getD j ∅) w fuel hyl
  have hays : ∀ u, u < K → ySeqO g (g.guarantees.getD j ∅) w fuel (u + 1) =
      some (ays.getD u ∅) := by
    intro u hu
    obtain ⟨yp, h1, h2⟩ := hrec u hu
    simp only [ySeqO, h1, Option.some_bind, h2, Option.map_some']
  have hex : ∃ r, ∃ yv, ySeqO g (g.guarantees.getD j ∅) w fuel r = some yv ∧
      s0 ∈ yv := ⟨K - 1, w, hyK1, hs0w⟩
  obtain ⟨ystar, hystar, hs0star⟩ := Nat.find_spec hex
  have hminr : ∀ u, u < Nat.find hex →
      ∀ yv, ySeqO g (g.guarantees.getD j ∅) w fuel u = some yv → s0 ∉ yv := by
    intro u hu yv hyv hmem
    exact Nat.find_min hex hu ⟨yv, hyv, hmem⟩
  have hrK : Nat.find hex ≤ K - 1 := Nat.find_min' hex ⟨w, hyK1, hs0w⟩
  have hr1 : 1 ≤ Nat.find hex := by
    by_contra h0
    have h00 : Nat.find hex = 0 := by omega
    rw [h00] at hystar
    simp only [ySeqO, Option.some.injEq] at hystar
    rw [← hystar] at hs0star
    exact absurd hs0star (by simp)
  obtain ⟨yprev, hyprev, hstep⟩ := hrec (Nat.find hex - 1) (by omega)
  have hser : ySeqO g (g.guarantees.getD j ∅) w fuel ((Nat.find hex - 1) + 1) =
      some (ays.getD (Nat.find hex - 1) ∅) := by
    simp only [ySeqO, hyprev, Option.some_bind, hstep, Option.map_some']
  have heq1 : ays.getD (Nat.find hex - 1) ∅ = ystar := by
    have e : (Nat.find hex - 1) + 1 = Nat.find hex := by omega
    rw [e] at hser
    rw [hser] at hystar
    exact Option.some.inj hystar
  obtain ⟨hfor, hfold⟩ := yStep_spec g (g.guarantees.getD j ∅) w yprev fuel hstep
  have hyprevw : yprev ⊆ w := ySeq_subset g hGoodW (Nat.find hex - 1) hyprev
  have hseedw : seedOf g (g.guarantees.getD j ∅) w yprev ⊆ w :=
    seedOf_subset g hGoodW hyprevw
  have hs0fold : s0 ∈ (axs.getD (Nat.find hex - 1) []).foldl
      (fun acc x => acc ∪ x) ∅ := by
    rw [← hfold, heq1]
    exact hs0star
  have hexQ : ∃ i2, s0 ∈ (axs.getD (Nat.find hex - 1) []).getD i2 ∅ := by
    rw [mem_foldl_union] at hs0fold
    rcases hs0fold with h | ⟨x, hx, hmem⟩
    · exact absurd h (by simp)
    · obtain ⟨i0, hi0, hxi⟩ := List.getElem_of_mem hx
      refine ⟨i0, ?_⟩
      rw [List.getD_eq_getElem _ ∅ hi0, hxi]
      exact hmem
  have hsxi : s0 ∈ (axs.getD (Nat.find hex - 1) []).getD (Nat.find hexQ) ∅ :=
    Nat.find_spec hexQ
  have hmini : ∀ u, u < Nat.find hexQ →
      s0 ∉ (axs.getD (Nat.find hex - 1) []).getD u ∅ := by
    intro u hu
    exact Nat.find_min hexQ hu
  have histar : Nat.find hexQ < (axs.getD (Nat.find hex - 1) []).length := by
    by_contra hge
    push_neg at hge
    rw [List.getD_eq_default _ ∅ hge] at hsxi
    exact absurd hsxi (by simp)
  have hxl : xLoop g (seedOf g (g.guarantees.getD j ∅) w yprev)
      (g.assumptions.getD (Nat.find hexQ) ∅) w fuel =
      some ((axs.getD (Nat.find hex - 1) []).getD (Nat.find hexQ) ∅) :=
    forall₂_getD ∅ ∅ hfor (Nat.find hexQ)
      (by rw [hfor.length_eq]; exact histar)
  obtain ⟨hfix, _⟩ := xLoop_some_spec g hGoodW hseedw hxl
  have hmove : ∀ T : Finset (I × O), s0 ∈ coax g T →
      ∃ s', trans12 g s0 s' = true ∧ s' ∈ T := by
    intro T hT
    obtain ⟨i0, hi0⟩ := henv
    simp only [coax, Finset.mem_filter, Finset.mem_univ, true_and] at hT
    obtain ⟨o, ho, hmem⟩ := hT i0 hi0
    exact ⟨(i0, o), by simp [trans12, hi0, ho], hmem⟩
  by_cases hA1 : s0 ∈ g.guarantees.getD j ∅ ∩ coax g w
  · -- Rule 1 fires: the present guarantee holds and the move stays winning.
    obtain ⟨s', hts', hs'w⟩ := hmove w (Finset.mem_inter.mp hA1).2
    refine ⟨s', (j + 1) % g.guarantees.length, ?_⟩
    rw [hbig]
    have hrho1 : calcRho1 g w s0 j s' ((j + 1) % g.guarantees.length) = true := by
      simp only [calcRho1]
      have hgo : rho1Fold g.guarantees.length g.guarantees (fun a => a == 0)
          emptyMemRel s0 j s' ((j + 1) % g.guarantees.length) = true := by
        rw [rho1Fold_spec g.guarantees.length g.guarantees 0 (by omega)
          emptyMemRel s0 j s' ((j + 1) % g.guarantees.length)]
        refine Or.inr ⟨j, hj, ?_, (Finset.mem_inter.mp hA1).1, ?_⟩
        · rw [Nat.zero_add, Nat.mod_eq_of_lt hj]
        · rw [Nat.zero_add]
      rw [hgo, hts']
      simp [hs0w, hs'w]
    rw [hrho1]
    simp
  · have hs0x : s0 ∈ xStep g (seedOf g (g.guarantees.getD j ∅) w yprev)
        (g.assumptions.getD (Nat.find hexQ) ∅)
        ((axs.getD (Nat.find hex - 1) []).getD (Nat.find hexQ) ∅) := by
      rw [hfix]
      exact hsxi
    simp only [xStep, Finset.mem_union] at hs0x
    rcases hs0x with hseed | hrest
    · -- In the seed but not in guarantee ∧ coax(Z): Rule 2 fires.
      simp only [seedOf, Finset.mem_union] at hseed
      rcases hseed with h | hcy
      · exact absurd h hA1
      · obtain ⟨s', hts', hs'p⟩ := hmove yprev hcy
        have hr2 : 2 ≤ Nat.find hex := by
          by_contra hlt
          have h0 : Nat.find hex - 1 = 0 := by omega
          rw [h0] at hyprev
          simp only [ySeqO, Option.some.injEq] at hyprev
          rw [← hyprev] at hs'p
          exact absurd hs'p (by simp)
        refine ⟨s', j, ?_⟩
        rw [hbig]
        have hyarrj : (tr.map fun p => p.2).getD j [] = ays.dropLast := by
          have hjtr : j < tr.length := by rw [hlen]; exact hj
          rw [List.getD_eq_getElem _ _ (by rw [List.length_map]; exact hjtr),
            List.getElem_map, ← List.getD_eq_getElem tr ([], []) hjtr, htrj]
        have hdl : ays.dropLast.length = K - 1 := by
          rw [List.length_dropLast, hKy]
        have hc1 : s0 ∈ ays.dropLast.getD (Nat.find hex - 1) ∅ := by
          rw [getD_dropLast _ _ _ (by omega), heq1]
          exact hs0star
        have hc2 : ∀ u, u < Nat.find hex - 1 → s0 ∉ ays.dropLast.getD u ∅ := by
          intro u hu
          rw [getD_dropLast _ _ _ (by omega)]
          exact hminr (u + 1) (by omega) _ (hays u (by omega))
        have hc3 : s' ∈ ays.dropLast.getD (Nat.find hex - 1 - 1) ∅ := by
          rw [getD_dropLast _ _ _ (by omega)]
          have e2 := hays (Nat.find hex - 2) (by omega)
          have e3 : (Nat.find hex - 2) + 1 = Nat.find hex - 1 := by omega
          rw [e3] at e2
          rw [hyprev] at e2
          injection e2 with e2
          have e4 : Nat.find hex - 1 - 1 = Nat.find hex - 2 := by omega
          rw [e4, ← e2]
          exact hs'p
        obtain ⟨tmp, hperj, htmp⟩ := rho2PerJ_fires hok reach ays.dropLast
          (Nat.find hex - 1) s0 s' (by omega) (by omega) hs0r hc1 hc2 hc3
        obtain ⟨F, hF, hFval⟩ := calcRho2_some_spec g mini reach _ hq
        have hFt : F s0 j s' j = true := by
          refine rho2Fold_fires g.guarantees.length mini reach _ 0 (by omega)
            emptyMemRel F hF s0 j s' j (Or.inr ⟨j, ?_, ?_, ?_, tmp, ?_, htmp⟩)
          · rw [List.length_map, hlen]
            exact hj
          · rw [Nat.zero_add, Nat.mod_eq_of_lt hj]
          · rw [Nat.zero_add, Nat.mod_eq_of_lt hj]
          · rw [hyarrj]
            exact hperj
        have hr2v : rho2v s0 j s' j = true := by
          rw [hFval, hFt, hts']
          rfl
        rw [hr2v]
        simp
    · -- In the slot fixpoint proper: Rule 3 fires.
      rw [Finset.mem_inter] at hrest
      obtain ⟨hnota, hcx⟩ := hrest
      rw [Finset.mem_compl] at hnota
      obtain ⟨s', hts', hs'x⟩ := hmove _ hcx
      refine ⟨s', j, ?_⟩
      rw [hbig]
      have hxarrj : (tr.map fun p => p.1).getD j [] = axs.dropLast := by
        have hjtr : j < tr.length := by rw [hlen]; exact hj
        rw [List.getD_eq_getElem _ _ (by rw [List.length_map]; exact hjtr),
          List.getElem_map, ← List.getD_eq_getElem tr ([], []) hjtr, htrj]
      have hdlx : axs.dropLast.length = K - 1 := by
        rw [List.length_dropLast, hKx]
      have hrowlen : (axs.getD (Nat.find hex - 1) []).length =
          g.assumptions.length := hfor.length_eq.symm
      have hziplen : ((axs.getD (Nat.find hex - 1) []).zip
          g.assumptions).length = (axs.getD (Nat.find hex - 1) []).length := by
        rw [List.length_zip, hrowlen]
        exact Nat.min_self _
      have hzget : ((axs.getD (Nat.find hex - 1) []).zip g.assumptions).getD
          (Nat.find hexQ) (∅, ∅) =
          ((axs.getD (Nat.find hex - 1) []).getD (Nat.find hexQ) ∅,
            g.assumptions.getD (Nat.find hexQ) ∅) :=
        getD_zip _ _ _ _ _ (by rw [hziplen]; exact histar)
      have hrow : axs.dropLast.getD (Nat.find hex - 1) [] =
          axs.getD (Nat.find hex - 1) [] :=
        getD_dropLast _ _ _ (by rw [hdlx]; omega)
      have htake_rows : s0 ∉ unionList
          ((axs.dropLast.take (Nat.find hex - 1)).map
            fun row => unionList ((row.zip g.assumptions).map fun p => p.1)) := by
        intro hmem
        obtain ⟨u, hu1, hu2, hmemu⟩ := mem_unionList_map_take
          (fun row => unionList ((row.zip g.assumptions).map fun p => p.1))
          [] axs.dropLast (Nat.find hex - 1) s0 hmem
        rw [hdlx] at hu2
        have hrowu : axs.dropLast.getD u [] = axs.getD u [] :=
          getD_dropLast _ _ _ (by rw [hdlx]; omega)
        rw [hrowu] at hmemu
        obtain ⟨v, hv, hmemv⟩ := mem_unionList_zip_fst _ _ _ hmemu
        obtain ⟨ypu, h1u, h2u⟩ := hrec u (by omega)
        obtain ⟨_, hfoldu⟩ := yStep_spec g _ w ypu fuel h2u
        have hsu : s0 ∈ ays.getD u ∅ := by
          rw [hfoldu]
          exact subset_foldl_union_of_mem (getD_mem_of_lt _ ∅ v hv) ∅ hmemv
        exact hminr (u + 1) (by omega) _ (hays u (by omega)) hsu
      have htake_slots : s0 ∉ unionList
          ((((axs.getD (Nat.find hex - 1) []).zip g.assumptions).take
            (Nat.find hexQ)).map fun p => p.1) := by
        intro hmem
        obtain ⟨u, hu1, hu2, hmemu⟩ := mem_unionList_map_take
          (fun p => p.1) ((∅ : Finset (I × O)), (∅ : Finset (I × O)))
          ((axs.getD (Nat.find hex - 1) []).zip g.assumptions)
          (Nat.find hexQ) s0 hmem
        rw [getD_zip _ _ _ _ _ hu2] at hmemu
        exact hmini u hu1 hmemu
      have hrho3 : calcRho3 g mini reach (tr.map fun p => p.1) s0 j s' j = true := by
        simp only [calcRho3]
        have hgo : rho3Fold g.guarantees.length mini reach g.assumptions
            (tr.map fun p => p.1) (fun a => a == 0) emptyMemRel s0 j s' j =
            true := by
          rw [rho3Fold_spec g.guarantees.length mini reach g.assumptions
            (tr.map fun p => p.1) 0 (by omega) emptyMemRel s0 j s' j]
          refine Or.inr ⟨j, ?_, ?_, ?_, ?_⟩
          · rw [List.length_map, hlen]
            exact hj
          · rw [Nat.zero_add, Nat.mod_eq_of_lt hj]
          · rw [Nat.zero_add, Nat.mod_eq_of_lt hj]
          · rw [hxarrj]
            obtain ⟨_, hiff⟩ := rho3RowsGo_spec hok reach g.assumptions
              axs.dropLast ∅ (fun _ _ => false)
            rw [hiff s0 s' hs0r]
            refine Or.inr ⟨Nat.find hex - 1, by rw [hdlx]; omega, ?_⟩
            rw [hrow]
            exact ⟨Nat.find hexQ, by rw [hziplen]; exact histar,
              by rw [hzget]; exact hsxi, Finset.not_mem_empty s0,
              htake_rows, htake_slots, by rw [hzget]; exact hnota,
              by rw [hzget]; exact hs'x⟩
        rw [hgo, hts']
        rfl
      rw [hrho3]
      simp

/-- Witness for the amended C7 on `gameA`: the single reachable winning
state with memory `0` has an outgoing strategy move. -/
theorem c7_no_dead_end_amended_witness :
    ∃ R, calcStrategy gameA miniTriv miniRelTriv 6 = some R ∧
      ∃ (s' : Fin 1 × Fin 1) (jx' : Nat), R st0 0 s' jx' = true := by
  obtain ⟨R, hR⟩ : ∃ R, calcStrategy gameA miniTriv miniRelTriv 6 = some R :=
    ⟨_, rfl⟩
  refine ⟨R, hR, ?_⟩
  have hw : calcWinningRegion gameA 6 =
      some ([([[Finset.univ]], [Finset.univ])], Finset.univ) := rfl
  have hre : reachableStates gameA (init12 gameA) Finset.univ 6 =
      some Finset.univ := rfl
  exact c7_no_dead_end_amended gameA miniTriv miniRelTriv 6
    (fun _ _ => rfl) (fun _ _ _ _ _ _ _ => rfl) hw hre hR 0 (by decide) st0
    (by decide) (by decide) ⟨0, rfl⟩

/-- Witness for C10: the mutating branch at `stC10`. -/
theorem c10_isRealizable_frame_witness :
    (isRealizable stC10).2 =
      { stC10 with
        init1 := stC10.init1 ∩ stC10.winningRegion
        init2 := stC10.init2 ∩ stC10.winningRegion
        init12 := stC10.init12 ∩ stC10.winningRegion
        init := fun s j =>
          decide (s ∈ stC10.init12 ∩ stC10.winningRegion) && stC10.initjx j } :=
  (c10_isRealizable_frame stC10).1 (by rfl) (by decide)

end Marduk
